import Mathlib

/-!
# OpenID userinfo mapping (`server/channels/app/oauthproviders/openid/openid.go`)

A shallow embedding of the OpenID provider of the repository: the decoded userinfo record
`OpenIDUser`, its validation `IsValid`, the mapping `userFromOpenIDUser` to the platform user,
the decoding `openIDUserFromJSON`, the orchestration `GetUserFromJSON`, and the comparison
`IsSameUser`.

Conventions of the embedding.

* A Go `string` is an arbitrary sequence of bytes; it is modelled as a list of byte values
  (`GoString`), written from ASCII text with `go`.
* A Go `*string` is modelled as an optional address into an explicit heap of string cells;
  `&x` of a fresh local allocates a new cell.
* A Go `error` is modelled as a value of the type `GoError`; `nil` is `none`.
* A run-time panic of an index or slice expression is the result `none`.
* Functions of other packages that the file calls and whose results it only passes on
  (`model.CleanUsername`, `strings.ToLower`, the constant `model.ServiceOpenid`) are fields of
  an environment `Env`; the sanitizer `model.CleanUsername` may generate a fresh username, so
  it takes and returns a state.
* The functions of the Go standard library that decide what the file computes
  (`strings.Split`, `strings.Join`, and the part of `encoding/json` that encodes and decodes
  the struct `OpenIDUser`) are modelled from their documented behaviour. Loops that advance
  by a variable number of bytes take a fuel argument; the lemmas of the section on fuel show
  that the fuel given is enough.
-/

namespace oauthopenid

/-- The Go `string` type: a sequence of bytes. -/
abbrev GoString := List Nat

/-- The bytes of an ASCII text, for writing test values. -/
def go (s : String) : GoString := s.data.map Char.toNat

/-! ## The `strings` functions used by the file -/

namespace strings

/-- The Go `strings.Split(s, sep)` for a one-byte separator `sep` (both call sites pass one,
`"@"` and `" "`): the pieces of `s` between the occurrences of `sep`, in order; there is always
one piece more than there are occurrences. -/
def Split (s : GoString) (sep : Nat) : List GoString :=
  match s with
  | [] => [[]]
  | c :: cs =>
    if c = sep then [] :: Split cs sep
    else
      match Split cs sep with
      | [] => [[c]]
      | t :: ts => (c :: t) :: ts

/-- The Go `strings.Join(elems, sep)`: the elements in order with `sep` between neighbours. -/
def Join (elems : List GoString) (sep : GoString) : GoString :=
  match elems with
  | [] => []
  | [e] => e
  | e :: es => e ++ sep ++ Join es sep

end strings

/-! ## Data model -/

/-- The struct `OpenIDUser` (lines 21-30). -/
structure OpenIDUser where
  Sub : GoString
  Email : GoString
  EmailVerified : Bool
  Name : GoString
  PreferredUsername : GoString
  GivenName : GoString
  FamilyName : GoString
  Nickname : GoString
deriving DecidableEq, Repr

/-- The zero value of `OpenIDUser`, what `var oidcUser OpenIDUser` declares. -/
def OpenIDUser.zero : OpenIDUser :=
  { Sub := [], Email := [], EmailVerified := false, Name := [], PreferredUsername := [],
    GivenName := [], FamilyName := [], Nickname := [] }

/-- An address of a string cell, the value of a non-nil `*string`. -/
abbrev Ptr := Nat

/-- The string cells allocated so far; the cell at address `p` is the `p`-th of the list. -/
structure Heap where
  cells : List GoString
deriving DecidableEq, Repr

/-- A fresh cell holding `s`, as `&x` of a new local `x := s` makes: its address and the
extended heap. -/
def Heap.alloc (h : Heap) (s : GoString) : Ptr × Heap :=
  (h.cells.length, { cells := h.cells ++ [s] })

/-- The string a pointer points to; `none` for the nil pointer or a dangling address. -/
def Heap.load (h : Heap) (p : Option Ptr) : Option GoString :=
  match p with
  | none => none
  | some a => h.cells[a]?

/-- The fields of `model.User` that the file assigns or reads. `AuthData` is a `*string`
(line 79 assigns `&userId` to it), `none` being the nil pointer. -/
structure User where
  Username : GoString
  FirstName : GoString
  LastName : GoString
  Email : GoString
  AuthData : Option Ptr
  AuthService : GoString
deriving DecidableEq, Repr

/-- The zero value `&model.User{}` of line 38. -/
def User.zero : User :=
  { Username := [], FirstName := [], LastName := [], Email := [], AuthData := none,
    AuthService := [] }

/-- The field of `model.SSOSettings` that the file reads: `UsePreferredUsername *bool`,
`none` being the nil pointer. -/
structure SSOSettings where
  UsePreferredUsername : Option Bool
deriving DecidableEq, Repr

/-- Modelled from the spec: `model.SafeDereference` is not under src/; the flag counts as
enabled only when it is present and true, so a nil pointer gives the zero value `false`. -/
def SafeDereference (p : Option Bool) : Bool :=
  match p with
  | none => false
  | some b => b

/-- The callees from other packages, taken as parameters: the username sanitizer
`model.CleanUsername`, `strings.ToLower`, and the provider tag `model.ServiceOpenid`.
The sanitizer is not a function of the candidate alone: for a candidate that is not a valid
username it answers with a freshly generated one and writes to the logger it is given. It is
therefore a function of a state `σ` of what it draws on (the source of fresh ids, the log)
and returns the username together with the next state. -/
structure Env (σ : Type) where
  CleanUsername : σ → GoString → GoString × σ
  ToLower : GoString → GoString
  ServiceOpenid : GoString

/-- A Go `error` value that the file can return: one made by `errors.New` with its message,
or one of the decoder `encoding/json`. `decodeSyntax` stands for the errors the decoder gives
when the input does not begin with a complete JSON value (a `*json.SyntaxError`, `io.EOF` or
`io.ErrUnexpectedEOF`; the model does not tell these apart), `decodeType value field` for a
`*json.UnmarshalTypeError` with its `Value` (the kind of JSON value met) and `Field`. -/
inductive GoError where
  | errorsNew (msg : GoString)
  | decodeSyntax
  | decodeType (value : GoString) (field : GoString)
deriving DecidableEq, Repr

/-! ## The functions of the file -/

/-- The index expression `a[i]` of Go; `none` stands for the run-time panic of an index out
of range. -/
def index {α : Type} (a : List α) (i : Nat) : Option α := a[i]?

/-- The slice expression `a[i:]` of Go; `none` stands for the run-time panic of bounds out
of range. -/
def sliceFrom {α : Type} (a : List α) (i : Nat) : Option (List α) :=
  if i ≤ a.length then some (a.drop i) else none

/-- The condition `settings != nil && model.SafeDereference(settings.UsePreferredUsername)`
of line 42. -/
def usePreferred (settings : Option SSOSettings) : Bool :=
  match settings with
  | none => false
  | some s => SafeDereference s.UsePreferredUsername

/-- The `username` local of `userFromOpenIDUser` (lines 41-52) as it is handed to
`model.CleanUsername`; 64 is the byte `@`. -/
def usernameCandidate (oidcUser : OpenIDUser) (settings : Option SSOSettings) :
    Option GoString :=
  if usePreferred settings = true ∧ oidcUser.PreferredUsername ≠ [] then
    index (strings.Split oidcUser.PreferredUsername 64) 0
  else if oidcUser.Nickname ≠ [] then
    some oidcUser.Nickname
  else if oidcUser.PreferredUsername ≠ [] then
    index (strings.Split oidcUser.PreferredUsername 64) 0
  else
    index (strings.Split oidcUser.Email 64) 0

/-- The fallback of lines 63-75 that splits the full name; 32 is the space byte. -/
def nameFallback (oidcUser : OpenIDUser) (user : User) : Option User :=
  if user.FirstName = [] ∧ user.LastName = [] ∧ oidcUser.Name ≠ [] then
    let splitName := strings.Split oidcUser.Name 32
    if splitName.length = 2 then do
      let first ← index splitName 0
      let last ← index splitName 1
      pure { user with FirstName := first, LastName := last }
    else if splitName.length ≥ 2 then do
      let first ← index splitName 0
      let rest ← sliceFrom splitName 1
      pure { user with FirstName := first, LastName := strings.Join rest [32] }
    else
      pure { user with FirstName := oidcUser.Name }
  else
    pure user

/-- The method `getAuthData` (lines 107-109). -/
def OpenIDUser.getAuthData (oidcUser : OpenIDUser) : GoString := oidcUser.Sub

/-- The function `userFromOpenIDUser` (lines 37-83) on a non-nil `oidcUser`, run in the
state `st` of the sanitizer and on the heap `h`: the user it returns, the heap after the
allocation of `userId` and the state after the call of the sanitizer, or `none` for a
run-time panic. -/
def userFromOpenIDUser {σ : Type} (env : Env σ) (st : σ) (h : Heap) (oidcUser : OpenIDUser)
    (settings : Option SSOSettings) : Option (User × Heap × σ) := do
  let user := User.zero
  let username ← usernameCandidate oidcUser settings
  let (clean, st) := env.CleanUsername st username
  let user := { user with Username := clean }
  let user := if oidcUser.GivenName ≠ [] then { user with FirstName := oidcUser.GivenName }
    else user
  let user := if oidcUser.FamilyName ≠ [] then { user with LastName := oidcUser.FamilyName }
    else user
  let user ← nameFallback oidcUser user
  let user := { user with Email := env.ToLower oidcUser.Email }
  let (userId, h) := h.alloc oidcUser.getAuthData
  let user := { user with AuthData := some userId, AuthService := env.ServiceOpenid }
  pure (user, h, st)

/-- The method `IsValid` (lines 95-105): `none` is the nil error. -/
def OpenIDUser.IsValid (oidcUser : OpenIDUser) : Option GoError :=
  if oidcUser.Sub = [] then
    some (GoError.errorsNew (go "user sub (subject) cannot be empty"))
  else if oidcUser.Email = [] then
    some (GoError.errorsNew (go "user email should not be empty"))
  else
    none

/-- The method `IsSameUser` (lines 133-135): `==` on the two `AuthData` pointers, which Go
defines as equality of the addresses (or both nil), not of the strings pointed to. -/
def IsSameUser (dbUser oauthUser : User) : Bool :=
  dbUser.AuthData == oauthUser.AuthData

/-! ## Reference definitions that follow the words of the specification -/

/-- The part of `s` before the first `@` character, the whole of `s` when it has none. -/
def beforeFirstAt (s : GoString) : GoString :=
  s.takeWhile (fun b => b != 64)

/-- The settings are present and their "prefer preferred_username" flag is enabled. -/
def flagEnabled (settings : Option SSOSettings) : Bool :=
  match settings with
  | some s => s.UsePreferredUsername == some true
  | none => false

/-- The username candidate by the four rules of the specification, the first rule whose
condition holds winning. -/
def specUsername (u : OpenIDUser) (settings : Option SSOSettings) : GoString :=
  if flagEnabled settings = true ∧ u.PreferredUsername ≠ [] then
    beforeFirstAt u.PreferredUsername
  else if u.Nickname ≠ [] then u.Nickname
  else if u.PreferredUsername ≠ [] then beforeFirstAt u.PreferredUsername
  else beforeFirstAt u.Email

/-! ## Test environment -/

/-- The `n`-th fresh username of the test sanitizer, standing for `"a" + model.NewId()`:
the letter `a` and `n + 1` times the letter `z`. -/
def testId (n : Nat) : GoString := 0x61 :: List.replicate (n + 1) 0x7A

/-- An environment for evaluating examples. Its sanitizer leaves a non-empty candidate as it
is and answers the empty candidate, which is no valid username, with the next fresh username,
counting in its state how many it has generated; the lower-casing leaves its argument as it
is, the tag is `openid`. -/
def testEnv : Env Nat :=
  { CleanUsername := fun n s => if s = [] then (testId n, n + 1) else (s, n),
    ToLower := fun s => s, ServiceOpenid := go "openid" }

/-! ## Intermediate values of `userFromOpenIDUser`, for the proofs -/

/-- The user after lines 53-61: the sanitized username and the given and family names. -/
def withNames {σ : Type} (env : Env σ) (st : σ) (u : OpenIDUser)
    (settings : Option SSOSettings) : User :=
  { Username := (env.CleanUsername st (specUsername u settings)).1,
    FirstName := u.GivenName, LastName := u.FamilyName,
    Email := [], AuthData := none, AuthService := [] }

/-- The last assignments, lines 77-80, on the user that the name fallback left, with the heap
and the state of the sanitizer after the call. -/
def withAuth {σ : Type} (env : Env σ) (st : σ) (h : Heap) (u : OpenIDUser)
    (settings : Option SSOSettings) (user : User) : User × Heap × σ :=
  ({ user with Email := env.ToLower u.Email, AuthData := some h.cells.length,
               AuthService := env.ServiceOpenid },
   { cells := h.cells ++ [u.Sub] },
   (env.CleanUsername st (specUsername u settings)).2)

/-! ## The `unicode/utf8` and `unicode/utf16` functions used by `encoding/json`

These are functions of the Go standard library, which is not part of the repository; they
are modelled from their documented behaviour, with the shifts and masks of the bytes written
as arithmetic on the byte values. -/

namespace utf8

/-- The constant `utf8.RuneError`, the replacement character U+FFFD. -/
def RuneError : Nat := 0xFFFD

/-- The constant `utf8.RuneSelf`: bytes below it are single-byte code points. -/
def RuneSelf : Nat := 0x80

/-- A byte can follow the first byte `x0` of a three-byte or four-byte sequence: the range is
narrowed after `E0`, `ED`, `F0` and `F4`, which excludes over-long forms, surrogates and code
points above U+10FFFF. -/
def second (x0 x1 : Nat) : Bool :=
  if x0 = 0xE0 then 0xA0 ≤ x1 && x1 ≤ 0xBF
  else if x0 = 0xED then 0x80 ≤ x1 && x1 ≤ 0x9F
  else if x0 = 0xF0 then 0x90 ≤ x1 && x1 ≤ 0xBF
  else if x0 = 0xF4 then 0x80 ≤ x1 && x1 ≤ 0x8F
  else 0x80 ≤ x1 && x1 ≤ 0xBF

/-- A continuation byte, `10xxxxxx`. -/
def cont (x : Nat) : Bool := 0x80 ≤ x && x ≤ 0xBF

/-- The function `utf8.DecodeRune(p)`: the first code point of `p` and its width in bytes;
`(RuneError, 0)` for the empty input and `(RuneError, 1)` when `p` does not begin with a
well-formed sequence. -/
def DecodeRune (p : GoString) : Nat × Nat :=
  match p with
  | [] => (RuneError, 0)
  | x0 :: rest =>
    if x0 < 0x80 then (x0, 1)
    else if x0 < 0xC2 then (RuneError, 1)
    else if x0 < 0xE0 then
      match rest with
      | x1 :: _ =>
        if cont x1 then ((x0 % 32) * 64 + x1 % 64, 2) else (RuneError, 1)
      | _ => (RuneError, 1)
    else if x0 < 0xF0 then
      match rest with
      | x1 :: x2 :: _ =>
        if second x0 x1 && cont x2 then
          ((x0 % 16) * 4096 + (x1 % 64) * 64 + x2 % 64, 3)
        else (RuneError, 1)
      | _ => (RuneError, 1)
    else if x0 < 0xF5 then
      match rest with
      | x1 :: x2 :: x3 :: _ =>
        if second x0 x1 && cont x2 && cont x3 then
          ((x0 % 8) * 262144 + (x1 % 64) * 4096 + (x2 % 64) * 64 + x3 % 64, 4)
        else (RuneError, 1)
      | _ => (RuneError, 1)
    else (RuneError, 1)

/-- The function `utf8.AppendRune(nil, r)` (the bytes `utf8.EncodeRune` writes): the UTF-8
encoding of `r`, and that of U+FFFD when `r` is a surrogate or above U+10FFFF. -/
def EncodeRune (r : Nat) : GoString :=
  if r ≤ 0x7F then [r]
  else if r ≤ 0x7FF then [0xC0 + r / 64, 0x80 + r % 64]
  else if 0x10FFFF < r ∨ (0xD800 ≤ r ∧ r ≤ 0xDFFF) then [0xEF, 0xBF, 0xBD]
  else if r ≤ 0xFFFF then [0xE0 + r / 4096, 0x80 + (r / 64) % 64, 0x80 + r % 64]
  else [0xF0 + r / 262144, 0x80 + (r / 4096) % 64, 0x80 + (r / 64) % 64, 0x80 + r % 64]

/-- The loop of `utf8.ValidString`, at most `fuel` code points: every position begins a
well-formed sequence. -/
def validLoop (fuel : Nat) (s : GoString) : Bool :=
  match fuel, s with
  | _, [] => true
  | 0, _ :: _ => false
  | fuel + 1, x0 :: rest =>
    let (r, size) := DecodeRune (x0 :: rest)
    if r = RuneError ∧ size = 1 then false
    else validLoop fuel ((x0 :: rest).drop size)

/-- The function `utf8.ValidString(s)`: `s` consists entirely of well-formed UTF-8 sequences.
A sequence takes at least one byte, so the length of `s` bounds the number of rounds. -/
def ValidString (s : GoString) : Bool := validLoop s.length s

end utf8

namespace utf16

/-- The function `utf16.IsSurrogate(r)`. -/
def IsSurrogate (r : Nat) : Bool := 0xD800 ≤ r && r < 0xE000

/-- The function `utf16.DecodeRune(r1, r2)`: the code point of a surrogate pair, U+FFFD when
the two are not a high surrogate followed by a low one. -/
def DecodeRune (r1 r2 : Nat) : Nat :=
  if 0xD800 ≤ r1 ∧ r1 < 0xDC00 ∧ 0xDC00 ≤ r2 ∧ r2 < 0xE000 then
    (r1 - 0xD800) * 1024 + (r2 - 0xDC00) + 0x10000
  else 0xFFFD

end utf16

/-! ## The encoder and the decoder of `encoding/json`, for the struct `OpenIDUser`

`openIDUserFromJSON` is one call of `json.NewDecoder(data).Decode(&oidcUser)`. The package
`encoding/json` belongs to the Go standard library and not to the repository; the part of it
that decides what the call returns for this struct is modelled here from its documented
behaviour: the JSON grammar of its scanner, the unquoting of string literals, the matching of
object keys to the `json` tags of the fields, and the storing of values by kind. -/

namespace json

/-- The digit `hex[n]` of the encoder's table `0123456789abcdef`. -/
def hexDigit (n : Nat) : Nat := if n < 10 then 0x30 + n else 0x57 + n

/-- The table `htmlSafeSet` of the encoder: the ASCII bytes written as they are, all from the
space on except the double quote, the backslash, `<`, `>` and `&`. -/
def htmlSafe (b : Nat) : Bool :=
  0x20 ≤ b && b < 0x80 && b != 0x22 && b != 0x5C && b != 0x3C && b != 0x3E && b != 0x26

/-- The escape that the encoder writes for an ASCII byte outside `htmlSafeSet`. -/
def escapeByte (b : Nat) : GoString :=
  if b = 0x5C ∨ b = 0x22 then [0x5C, b]
  else if b = 0x08 then [0x5C, 0x62]
  else if b = 0x0C then [0x5C, 0x66]
  else if b = 0x0A then [0x5C, 0x6E]
  else if b = 0x0D then [0x5C, 0x72]
  else if b = 0x09 then [0x5C, 0x74]
  else [0x5C, 0x75, 0x30, 0x30, hexDigit (b / 16), hexDigit (b % 16)]

/-- The loop of the encoder's `appendString` over the bytes of `src`, between the two quotes,
at most `fuel` rounds: safe ASCII bytes and well-formed multi-byte sequences are copied, the
other ASCII bytes are escaped, a byte that begins no well-formed sequence is written as the
escape of U+FFFD, and U+2028 and U+2029 are written as their escapes. -/
def appendStringLoop (fuel : Nat) (src : GoString) : GoString :=
  match fuel, src with
  | _, [] => []
  | 0, _ :: _ => []
  | fuel + 1, b :: rest =>
    if b < utf8.RuneSelf then
      (if htmlSafe b then [b] else escapeByte b) ++ appendStringLoop fuel rest
    else
      let (c, size) := utf8.DecodeRune (b :: rest)
      if c = utf8.RuneError ∧ size = 1 then
        go "\\ufffd" ++ appendStringLoop fuel rest
      else if c = 0x2028 ∨ c = 0x2029 then
        go "\\u202" ++ [hexDigit (c % 16)] ++ appendStringLoop fuel ((b :: rest).drop size)
      else
        (b :: rest).take size ++ appendStringLoop fuel ((b :: rest).drop size)

/-- The encoder's `appendString(dst, src, true)`: the JSON string literal for `src`. A round
takes at least one byte of `src`, so its length bounds the number of rounds. -/
def appendString (src : GoString) : GoString :=
  [0x22] ++ appendStringLoop src.length src ++ [0x22]

/-- The encoding of a Go `bool`. -/
def appendBool (b : Bool) : GoString := if b then go "true" else go "false"

/-- The function `json.Marshal` on an `OpenIDUser`: an object with one member for each field,
in the order of the declaration, named by the field's `json` tag. -/
def Marshal (v : OpenIDUser) : GoString :=
  go "\x7b\"sub\":" ++ appendString v.Sub
    ++ go ",\"email\":" ++ appendString v.Email
    ++ go ",\"email_verified\":" ++ appendBool v.EmailVerified
    ++ go ",\"name\":" ++ appendString v.Name
    ++ go ",\"preferred_username\":" ++ appendString v.PreferredUsername
    ++ go ",\"given_name\":" ++ appendString v.GivenName
    ++ go ",\"family_name\":" ++ appendString v.FamilyName
    ++ go ",\"nickname\":" ++ appendString v.Nickname
    ++ go "\x7d"


/-- The scanner's `isSpace`: space, tab, carriage return, line feed. -/
def isSpace (c : Nat) : Bool := c = 0x20 || c = 0x09 || c = 0x0D || c = 0x0A

/-- The input after its leading white space. -/
def skipSpace (s : GoString) : GoString := s.dropWhile isSpace

/-- The value of a hexadecimal digit, `none` for any other byte. -/
def hexVal (c : Nat) : Option Nat :=
  if 0x30 ≤ c ∧ c ≤ 0x39 then some (c - 0x30)
  else if 0x61 ≤ c ∧ c ≤ 0x66 then some (c - 0x61 + 10)
  else if 0x41 ≤ c ∧ c ≤ 0x46 then some (c - 0x41 + 10)
  else none

/-- The decoder's `getu4` on the four bytes after a backslash and `u`: the number they write
in hexadecimal, `none` when one of them is not a hexadecimal digit. -/
def getu4 (h1 h2 h3 h4 : Nat) : Option Nat := do
  let d1 ← hexVal h1
  let d2 ← hexVal h2
  let d3 ← hexVal h3
  let d4 ← hexVal h4
  pure (d1 * 4096 + d2 * 256 + d3 * 16 + d4)

/-- The byte that a one-letter escape stands for, `none` when the letter after the backslash
is none of the eight that the scanner accepts. -/
def simpleEscape (e : Nat) : Option Nat :=
  if e = 0x22 ∨ e = 0x5C ∨ e = 0x2F then some e
  else if e = 0x62 then some 0x08
  else if e = 0x66 then some 0x0C
  else if e = 0x6E then some 0x0A
  else if e = 0x72 then some 0x0D
  else if e = 0x74 then some 0x09
  else none

/-- The low half of a surrogate pair: when `s` begins with an escape of four hexadecimal
digits that completes the high surrogate `rr` to a pair, the code point of the pair and the
input after the escape. -/
def pairedSurrogate (rr : Nat) (s : GoString) : Option (Nat × GoString) :=
  match s with
  | 0x5C :: 0x75 :: h1 :: h2 :: h3 :: h4 :: rest =>
    match getu4 h1 h2 h3 h4 with
    | some rr1 =>
      if utf16.DecodeRune rr rr1 ≠ 0xFFFD then some (utf16.DecodeRune rr rr1, rest) else none
    | none => none
  | _ => none

/-- A string literal after its opening quote, at most `fuel` rounds: the string it denotes
(what `unquoteBytes` returns) and the input after the closing quote; `none` when the scanner
rejects the literal or the input ends inside it. Escapes are replaced, a lone surrogate
escape and a byte that begins no well-formed UTF-8 sequence become U+FFFD. -/
def stringBody (fuel : Nat) (s : GoString) : Option (GoString × GoString) :=
  match fuel, s with
  | 0, _ => none
  | _ + 1, [] => none
  | fuel + 1, c :: rest =>
    if c = 0x22 then some ([], rest)
    else if c = 0x5C then
      match rest with
      | [] => none
      | e :: rest1 =>
        if e = 0x75 then
          match rest1 with
          | h1 :: h2 :: h3 :: h4 :: rest2 =>
            match getu4 h1 h2 h3 h4 with
            | none => none
            | some rr =>
              if utf16.IsSurrogate rr then
                match pairedSurrogate rr rest2 with
                | some (dec, rest3) =>
                  (stringBody fuel rest3).map (fun p => (utf8.EncodeRune dec ++ p.1, p.2))
                | none =>
                  (stringBody fuel rest2).map (fun p => (utf8.EncodeRune 0xFFFD ++ p.1, p.2))
              else
                (stringBody fuel rest2).map (fun p => (utf8.EncodeRune rr ++ p.1, p.2))
          | _ => none
        else
          match simpleEscape e with
          | some b => (stringBody fuel rest1).map (fun p => (b :: p.1, p.2))
          | none => none
    else if c < 0x20 then none
    else if c < utf8.RuneSelf then
      (stringBody fuel rest).map (fun p => (c :: p.1, p.2))
    else
      let (rr, size) := utf8.DecodeRune (c :: rest)
      (stringBody fuel ((c :: rest).drop size)).map
        (fun p => (utf8.EncodeRune rr ++ p.1, p.2))

/-- A string literal after its opening quote. A round takes at least one byte, so the length
of the input bounds the number of rounds. -/
def stringLit (s : GoString) : Option (GoString × GoString) := stringBody s.length s

/-- A decimal digit. -/
def isDigit (c : Nat) : Bool := 0x30 ≤ c && c ≤ 0x39

/-- One or more digits, as after a decimal point or in an exponent: the input after them. -/
def digits1 (s : GoString) : Option GoString :=
  match s with
  | c :: rest => if isDigit c then some (rest.dropWhile isDigit) else none
  | [] => none

/-- The exponent part of a number, if there is one: the input after it. -/
def exponent (s : GoString) : Option GoString :=
  match s with
  | c :: rest =>
    if c = 0x65 ∨ c = 0x45 then
      match rest with
      | d :: rest1 => if d = 0x2B ∨ d = 0x2D then digits1 rest1 else digits1 (d :: rest1)
      | [] => none
    else some (c :: rest)
  | [] => some []

/-- The fraction part and the exponent part of a number, if there are any: the input after
them. -/
def fraction (s : GoString) : Option GoString :=
  match s with
  | c :: rest =>
    if c = 0x2E then (digits1 rest).bind exponent else exponent (c :: rest)
  | [] => some []

/-- A number after its optional minus sign: a single `0` or a digit from 1 to 9 with further
digits, then the optional fraction and exponent. -/
def unsignedNumber (s : GoString) : Option GoString :=
  match s with
  | c :: rest =>
    if c = 0x30 then fraction rest
    else if 0x31 ≤ c ∧ c ≤ 0x39 then fraction (rest.dropWhile isDigit)
    else none
  | [] => none

/-- A number literal: the input after it, `none` when the scanner rejects it. -/
def number (s : GoString) : Option GoString :=
  match s with
  | c :: rest => if c = 0x2D then unsignedNumber rest else unsignedNumber (c :: rest)
  | [] => none

/-- The input after the text `lit`, `none` when the input does not begin with it. -/
def expect (lit : GoString) (s : GoString) : Option GoString :=
  if lit.isPrefixOf s then some (s.drop lit.length) else none

/-- What the decoder sees of a JSON value when it stores it into a field of the struct: its
kind, and its content for a string or a boolean. -/
inductive Value where
  | null
  | bool (b : Bool)
  | number
  | string (s : GoString)
  | array
  | object
deriving DecidableEq, Repr

/-- The constant `maxNestingDepth` of the scanner: the number of arrays and objects that may
be open at once. -/
def maxNestingDepth : Nat := 10000

mutual

/-- A JSON value with optional white space before it, by the grammar of the scanner: its kind
and the input after it; `none` for a syntax error or the end of the input inside the value.
`depth` counts the arrays and objects that may still be opened, `fuel` the calls. -/
def value (fuel depth : Nat) (s : GoString) : Option (Value × GoString) :=
  match fuel with
  | 0 => none
  | fuel + 1 =>
    match skipSpace s with
    | [] => none
    | c :: rest =>
      if c = 0x7B then
        if depth = 0 then none
        else
          match skipSpace rest with
          | 0x7D :: rest1 => some (Value.object, rest1)
          | _ => (members fuel (depth - 1) rest).map (fun p => (Value.object, p.2))
      else if c = 0x5B then
        if depth = 0 then none
        else
          match skipSpace rest with
          | 0x5D :: rest1 => some (Value.array, rest1)
          | _ => (elements fuel (depth - 1) rest).map (fun p => (Value.array, p))
      else if c = 0x22 then (stringLit rest).map (fun p => (Value.string p.1, p.2))
      else if c = 0x74 then (expect (go "rue") rest).map (fun r => (Value.bool true, r))
      else if c = 0x66 then (expect (go "alse") rest).map (fun r => (Value.bool false, r))
      else if c = 0x6E then (expect (go "ull") rest).map (fun r => (Value.null, r))
      else (number (c :: rest)).map (fun r => (Value.number, r))

/-- The members of an object after its opening brace, when it is not empty, up to its closing
brace: each key with the value under it, in the order of the input, and the input after the
closing brace. -/
def members (fuel depth : Nat) (s : GoString) :
    Option (List (GoString × Value) × GoString) :=
  match fuel with
  | 0 => none
  | fuel + 1 =>
    match skipSpace s with
    | 0x22 :: rest =>
      match stringLit rest with
      | none => none
      | some (key, rest1) =>
        match skipSpace rest1 with
        | 0x3A :: rest2 =>
          match value fuel depth rest2 with
          | none => none
          | some (v, rest3) =>
            match skipSpace rest3 with
            | 0x2C :: rest4 =>
              (members fuel depth rest4).map (fun p => ((key, v) :: p.1, p.2))
            | 0x7D :: rest4 => some ([(key, v)], rest4)
            | _ => none
        | _ => none
    | _ => none

/-- The elements of an array after its opening bracket, when it is not empty, up to its
closing bracket: the input after the closing bracket. -/
def elements (fuel depth : Nat) (s : GoString) : Option GoString :=
  match fuel with
  | 0 => none
  | fuel + 1 =>
    match value fuel depth s with
    | none => none
    | some (_, rest) =>
      match skipSpace rest with
      | 0x2C :: rest1 => elements fuel depth rest1
      | 0x5D :: rest1 => some rest1
      | _ => none

end

/-- The fields of `OpenIDUser`, as the decoder lists them for the struct. -/
inductive Field where
  | Sub | Email | EmailVerified | Name | PreferredUsername | GivenName | FamilyName | Nickname
deriving DecidableEq, Repr

/-- The name of a field in JSON: its `json` tag (lines 22-29). -/
def Field.name : Field → GoString
  | .Sub => go "sub"
  | .Email => go "email"
  | .EmailVerified => go "email_verified"
  | .Name => go "name"
  | .PreferredUsername => go "preferred_username"
  | .GivenName => go "given_name"
  | .FamilyName => go "family_name"
  | .Nickname => go "nickname"

/-- The fields in the order of the declaration. -/
def fields : List Field :=
  [.Sub, .Email, .EmailVerified, .Name, .PreferredUsername, .GivenName, .FamilyName,
   .Nickname]

/-- The decoder's `foldRune` on a code point outside ASCII, as far as the names of this
struct can tell: U+017F (long s) and U+212A (Kelvin sign) are the only code points outside
ASCII whose fold set has an ASCII letter, and they fold to `S` and `K`; every other one folds
to a code point outside ASCII, which no name of a field contains, and is left as it is. -/
def foldRune (r : Nat) : Nat :=
  if r = 0x17F then 0x53 else if r = 0x212A then 0x4B else r

/-- The loop of the decoder's `foldName`, at most `fuel` rounds: ASCII letters in upper case,
the other ASCII bytes unchanged, the code points outside ASCII folded by `foldRune`. -/
def foldLoop (fuel : Nat) (s : GoString) : GoString :=
  match fuel, s with
  | _, [] => []
  | 0, _ :: _ => []
  | fuel + 1, c :: rest =>
    if c < utf8.RuneSelf then
      (if 0x61 ≤ c ∧ c ≤ 0x7A then c - 0x20 else c) :: foldLoop fuel rest
    else
      let (r, n) := utf8.DecodeRune (c :: rest)
      utf8.EncodeRune (foldRune r) ++ foldLoop fuel ((c :: rest).drop n)

/-- The decoder's `foldName`: two names have the same image exactly when they are equal
under Unicode case folding. -/
def foldName (s : GoString) : GoString := foldLoop s.length s

/-- The field that an object key addresses: the one whose name is the key, and when there is
none the one whose name equals the key under case folding. -/
def findField (key : GoString) : Option Field :=
  match fields.find? (fun f => f.name = key) with
  | some f => some f
  | none => fields.find? (fun f => foldName f.name = foldName key)

/-- The `Value` of an `UnmarshalTypeError`: the kind of JSON value that did not fit. -/
def Value.kind : Value → GoString
  | .null => go "null"
  | .bool _ => go "bool"
  | .number => go "number"
  | .string _ => go "string"
  | .array => go "array"
  | .object => go "object"

/-- A string value stored into a field of type `string`: `null` leaves the field as it is,
a value of another kind is a type error. -/
def storeString (f : Field) (old : GoString) (v : Value) : Except GoError GoString :=
  match v with
  | .string s => .ok s
  | .null => .ok old
  | v => .error (GoError.decodeType v.kind f.name)

/-- A value stored into a field of type `bool`: `null` leaves the field as it is, a value
that is not a boolean is a type error. -/
def storeBool (f : Field) (old : Bool) (v : Value) : Except GoError Bool :=
  match v with
  | .bool b => .ok b
  | .null => .ok old
  | v => .error (GoError.decodeType v.kind f.name)

/-- The value `v` stored into the field `f` of `u`. -/
def store (u : OpenIDUser) (f : Field) (v : Value) : Except GoError OpenIDUser :=
  match f with
  | .Sub => (storeString f u.Sub v).map (fun s => { u with Sub := s })
  | .Email => (storeString f u.Email v).map (fun s => { u with Email := s })
  | .EmailVerified =>
    (storeBool f u.EmailVerified v).map (fun b => { u with EmailVerified := b })
  | .Name => (storeString f u.Name v).map (fun s => { u with Name := s })
  | .PreferredUsername =>
    (storeString f u.PreferredUsername v).map (fun s => { u with PreferredUsername := s })
  | .GivenName => (storeString f u.GivenName v).map (fun s => { u with GivenName := s })
  | .FamilyName => (storeString f u.FamilyName v).map (fun s => { u with FamilyName := s })
  | .Nickname => (storeString f u.Nickname v).map (fun s => { u with Nickname := s })

/-- The decoder's loop over the members of the object, in their order: a member whose key
addresses no field is skipped, the others are stored; a type error does not stop the loop,
the first one is kept in `saved` (the decoder's `savedError`). -/
def storeMembers (ms : List (GoString × Value)) (u : OpenIDUser) (saved : Option GoError) :
    OpenIDUser × Option GoError :=
  match ms with
  | [] => (u, saved)
  | (key, v) :: rest =>
    match findField key with
    | none => storeMembers rest u saved
    | some f =>
      match store u f v with
      | .ok u' => storeMembers rest u' saved
      | .error e => storeMembers rest u (if saved = none then some e else saved)

/-- The decoder's `unmarshal` of an object into the struct `u`: the struct after the loop,
or the saved type error. -/
def unmarshalObject (ms : List (GoString × Value)) (u : OpenIDUser) :
    Except GoError OpenIDUser :=
  match storeMembers ms u none with
  | (u', none) => .ok u'
  | (_, some e) => .error e

/-- The method `Decode` of a new `json.Decoder` over the bytes `data`, into the struct `u`:
the first JSON value of the input is read (what follows it is left in the decoder's buffer)
and stored into `u`. An object is stored member by member; `null` leaves `u` as it is; any
other value is a type error. Every call of the grammar takes at least one byte or follows a
call that did, so twice the length of the input bounds the number of nested calls. -/
def Decode (data : GoString) (u : OpenIDUser) : Except GoError OpenIDUser :=
  match skipSpace data with
  | 0x7B :: rest =>
    match skipSpace rest with
    | 0x7D :: _ => .ok u
    | _ =>
      match members (2 * data.length + 2) (maxNestingDepth - 1) rest with
      | none => .error GoError.decodeSyntax
      | some (ms, _) => unmarshalObject ms u
  | s =>
    match value (2 * data.length + 2) maxNestingDepth s with
    | none => .error GoError.decodeSyntax
    | some (.null, _) => .ok u
    | some (v, _) => .error (GoError.decodeType v.kind [])

end json

/-! ## The functions of the file that decode -/

/-- The function `openIDUserFromJSON` (lines 85-93) on a reader that yields the bytes `data`:
the decoded struct, or the error of the decoder with no struct. -/
def openIDUserFromJSON (data : GoString) : Except GoError OpenIDUser :=
  match json.Decode data OpenIDUser.zero with
  | .error err => .error err
  | .ok oidcUser => .ok oidcUser

/-- The method `GetUserFromJSON` (lines 111-121) in the state `st` of the sanitizer and on the
heap `h`: the returned pair of a user pointer and an error (each `none` for nil) with the
heap and the state after the call, or `none` for a run-time panic. The argument `tokenUser`
is not used. -/
def GetUserFromJSON {σ : Type} (env : Env σ) (st : σ) (h : Heap) (data : GoString)
    (_tokenUser : Option User) (settings : Option SSOSettings) :
    Option ((Option User × Option GoError) × Heap × σ) :=
  match openIDUserFromJSON data with
  | .error err => some ((none, some err), h, st)
  | .ok oidcUser =>
    match oidcUser.IsValid with
    | some err => some ((none, some err), h, st)
    | none =>
      match userFromOpenIDUser env st h oidcUser settings with
      | none => none
      | some (user, h', st') => some ((some user, none), h', st')

/-! ## The JSON grammar of RFC 8259, read over bytes

A reference definition that follows the grammar of the standard and not the decoder: what a
well-formed JSON value is. The grammar is read over bytes: the characters of a string are any
bytes from 0x20 on other than the quotation mark and the backslash, whether or not they are
well-formed UTF-8. -/

namespace rfc8259

/-- The rule `ws`: spaces, horizontal tabs, line feeds and carriage returns. -/
def IsWs (s : GoString) : Prop := ∀ b ∈ s, b = 0x20 ∨ b = 0x09 ∨ b = 0x0A ∨ b = 0x0D

/-- The rule `DIGIT`. -/
def IsDigit (b : Nat) : Prop := 0x30 ≤ b ∧ b ≤ 0x39

/-- The rule `HEXDIG`, in either case. -/
def IsHexDig (b : Nat) : Prop :=
  IsDigit b ∨ (0x41 ≤ b ∧ b ≤ 0x46) ∨ (0x61 ≤ b ∧ b ≤ 0x66)

/-- The rule `*char`: unescaped bytes, a backslash with one of the eight escape letters, or a
backslash, `u` and four hexadecimal digits. -/
inductive Chars : GoString → Prop where
  | done : Chars []
  | unescaped (b : Nat) (rest : GoString) :
      0x20 ≤ b → b ≠ 0x22 → b ≠ 0x5C → Chars rest → Chars (b :: rest)
  | escape (e : Nat) (rest : GoString) :
      (e = 0x22 ∨ e = 0x5C ∨ e = 0x2F ∨ e = 0x62 ∨ e = 0x66 ∨ e = 0x6E ∨ e = 0x72
        ∨ e = 0x74) →
      Chars rest → Chars (0x5C :: e :: rest)
  | unicode (h1 h2 h3 h4 : Nat) (rest : GoString) :
      IsHexDig h1 → IsHexDig h2 → IsHexDig h3 → IsHexDig h4 → Chars rest →
      Chars (0x5C :: 0x75 :: h1 :: h2 :: h3 :: h4 :: rest)

/-- The rule `string`: characters between two quotation marks. -/
def IsString (s : GoString) : Prop := ∃ body, Chars body ∧ s = 0x22 :: (body ++ [0x22])

/-- One or more digits, `1*DIGIT`. -/
def IsDigits (s : GoString) : Prop := s ≠ [] ∧ ∀ b ∈ s, IsDigit b

/-- The rule `int`: a single zero, or a digit from 1 to 9 followed by digits. -/
def IsInt (s : GoString) : Prop :=
  s = [0x30] ∨ ∃ d ds, s = d :: ds ∧ 0x31 ≤ d ∧ d ≤ 0x39 ∧ ∀ b ∈ ds, IsDigit b

/-- The rule `frac`: a decimal point and one or more digits. -/
def IsFrac (s : GoString) : Prop := ∃ ds, s = 0x2E :: ds ∧ IsDigits ds

/-- The rule `exp`: `e` or `E`, an optional sign, and one or more digits. -/
def IsExp (s : GoString) : Prop :=
  ∃ e sign ds, s = e :: (sign ++ ds) ∧ (e = 0x65 ∨ e = 0x45) ∧
    (sign = [] ∨ sign = [0x2B] ∨ sign = [0x2D]) ∧ IsDigits ds

/-- The rule `number`: an optional minus, an `int`, an optional `frac`, an optional `exp`. -/
def IsNumber (s : GoString) : Prop :=
  ∃ minus int frac exp, s = minus ++ (int ++ (frac ++ exp)) ∧ (minus = [] ∨ minus = [0x2D]) ∧
    IsInt int ∧ (frac = [] ∨ IsFrac frac) ∧ (exp = [] ∨ IsExp exp)

mutual

/-- The rule `value`: one of the three literal names, a number, a string, an array or an
object. The bytes written out are `null`, `true`, `false`, the brackets and the braces. -/
inductive Value : GoString → Prop where
  | litNull : Value [0x6E, 0x75, 0x6C, 0x6C]
  | litTrue : Value [0x74, 0x72, 0x75, 0x65]
  | litFalse : Value [0x66, 0x61, 0x6C, 0x73, 0x65]
  | number (s : GoString) : IsNumber s → Value s
  | string (s : GoString) : IsString s → Value s
  | emptyArray (w : GoString) : IsWs w → Value (0x5B :: (w ++ [0x5D]))
  | array (es : GoString) : Elements es → Value (0x5B :: (es ++ [0x5D]))
  | emptyObject (w : GoString) : IsWs w → Value (0x7B :: (w ++ [0x7D]))
  | object (ms : GoString) : Members ms → Value (0x7B :: (ms ++ [0x7D]))

/-- The values of an array between its brackets, separated by commas, each with optional
white space around it. -/
inductive Elements : GoString → Prop where
  | one (w1 v w2 : GoString) : IsWs w1 → Value v → IsWs w2 → Elements (w1 ++ (v ++ w2))
  | more (w1 v w2 es : GoString) : IsWs w1 → Value v → IsWs w2 → Elements es →
      Elements (w1 ++ (v ++ (w2 ++ 0x2C :: es)))

/-- The members of an object between its braces, separated by commas: a string, a colon and
a value, each with optional white space around it. -/
inductive Members : GoString → Prop where
  | one (w1 k w2 w3 v w4 : GoString) :
      IsWs w1 → IsString k → IsWs w2 → IsWs w3 → Value v → IsWs w4 →
      Members (w1 ++ (k ++ (w2 ++ 0x3A :: (w3 ++ (v ++ w4)))))
  | more (w1 k w2 w3 v w4 ms : GoString) :
      IsWs w1 → IsString k → IsWs w2 → IsWs w3 → Value v → IsWs w4 → Members ms →
      Members (w1 ++ (k ++ (w2 ++ 0x3A :: (w3 ++ (v ++ (w4 ++ 0x2C :: ms))))))

end

/-- The input begins with a well-formed JSON value: optional white space, a value, and any
bytes after it. -/
def BeginsWithValue (data : GoString) : Prop :=
  ∃ w p r, IsWs w ∧ Value p ∧ data = w ++ (p ++ r)

end rfc8259

/-- The method `GetUserFromIdToken` (lines 127-131): the returned pair of a user pointer and
an error, each `none` for nil. -/
def GetUserFromIdToken (_idToken : GoString) : Option User × Option GoError :=
  (none, none)

/-- The method `Error` of an error made by `errors.New`: its message. The texts of the
decoder's errors are not modelled and are `none`. -/
def GoError.Error : GoError → Option GoString
  | .errorsNew msg => some msg
  | .decodeSyntax => none
  | .decodeType _ _ => none

/-- A JSON value has the wrong type for a field: a string for the boolean field
`email_verified`, a boolean for a string field, and a number, an array or an object for any
field. The value `null` is stored into any field without an error and is not counted. -/
def json.wrongType (f : json.Field) (v : json.Value) : Bool :=
  match v with
  | .null => false
  | .bool _ => f != .EmailVerified
  | .string _ => f == .EmailVerified
  | .number => true
  | .array => true
  | .object => true

/-! ## Objects as the encoder writes them

The input objects over which the decoder is stated: a list of members, each a key and a
value, written the way `json.Marshal` writes an object, without white space. -/

/-- The text that the encoder writes for a value of each kind: `null`, `true` or `false`, and
the string literal of `appendString`; for the three kinds whose content the decoder does not
store, the number `0`, the empty array `[]` and the empty object. -/
def json.valueText : json.Value → GoString
  | .null => go "null"
  | .bool b => json.appendBool b
  | .number => go "0"
  | .string s => json.appendString s
  | .array => go "[]"
  | .object => go "\x7b\x7d"

/-- The text of a member: the key as a string literal, a colon, the value. -/
def json.memberText (m : GoString × json.Value) : GoString :=
  json.appendString m.1 ++ [0x3A] ++ json.valueText m.2

/-- The text of the members, with a comma between neighbours. -/
def json.membersText : List (GoString × json.Value) → GoString
  | [] => []
  | [m] => json.memberText m
  | m :: m' :: ms => json.memberText m ++ [0x2C] ++ json.membersText (m' :: ms)

/-- The text of the object with the members `ms`. -/
def json.objectText (ms : List (GoString × json.Value)) : GoString :=
  [0x7B] ++ json.membersText ms ++ [0x7D]

/-- The key of the member and, when its value is a string, that string are well-formed
UTF-8, so the encoder writes them without replacing a byte. -/
def json.wellFormedMember (m : GoString × json.Value) : Bool :=
  utf8.ValidString m.1 &&
    (match m.2 with
     | .string s => utf8.ValidString s
     | _ => true)

/-- The members that `json.Marshal` writes for an `OpenIDUser`. -/
def json.membersOf (v : OpenIDUser) : List (GoString × json.Value) :=
  [(go "sub", .string v.Sub), (go "email", .string v.Email),
   (go "email_verified", .bool v.EmailVerified), (go "name", .string v.Name),
   (go "preferred_username", .string v.PreferredUsername),
   (go "given_name", .string v.GivenName), (go "family_name", .string v.FamilyName),
   (go "nickname", .string v.Nickname)]

/-! ## Equality with a name under case folding, by the words of the Unicode standard

A reference definition that compares a key with an ASCII name directly, character by
character, and does not go through the decoder's `foldName`. -/

/-- The upper-case form of an ASCII byte: a small letter becomes the capital letter, any
other byte stays. -/
def upperASCII (c : Nat) : Nat := if 0x61 ≤ c ∧ c ≤ 0x7A then c - 0x20 else c

/-- The key equals the ASCII name under simple case folding. Going through the name, each of
its characters is met in the key by the same ASCII character in either case; in addition the
letter `s` is met by the long s U+017F, the bytes `C5 BF`, and the letter `k` by the Kelvin
sign U+212A, the bytes `E2 84 AA`, which are the only characters outside ASCII that fold to
an ASCII letter. Nothing of the key may be left over. -/
def matchesName : GoString → GoString → Bool
  | [], key => key.isEmpty
  | c :: name, key =>
    match key with
    | [] => false
    | 0xC5 :: 0xBF :: rest => (c = 0x73 || c = 0x53) && matchesName name rest
    | 0xE2 :: 0x84 :: 0xAA :: rest => (c = 0x6B || c = 0x4B) && matchesName name rest
    | k :: rest => k < 0x80 && upperASCII k = upperASCII c && matchesName name rest

/-- The key equals the name of no field under case folding. -/
def unknownKey (key : GoString) : Bool :=
  json.fields.all (fun f => !matchesName f.name key)

/-! ## Test values -/

/-- The userinfo of the username examples: preferred username `alice@x.com`, nickname
`bob`. -/
def aliceBob : OpenIDUser :=
  { OpenIDUser.zero with Sub := go "s-1", Email := go "carol@x.com",
                         PreferredUsername := go "alice@x.com", Nickname := go "bob" }

/-- A userinfo that passes `IsValid` and whose preferred username begins with `@`. -/
def atPreferred : OpenIDUser :=
  { OpenIDUser.zero with Sub := go "s-1", Email := go "a@corp.io",
                         PreferredUsername := go "@corp", Nickname := go "bob" }

/-- A userinfo that passes `IsValid` and whose email begins with `@`, with neither nickname
nor preferred username. -/
def atEmail : OpenIDUser :=
  { OpenIDUser.zero with Sub := go "s-2", Email := go "@corp.io" }
/-! ## Lemmas on splitting -/

theorem Split_ne_nil (s : GoString) (sep : Nat) : strings.Split s sep ≠ [] := by
  induction s with
  | nil => simp [strings.Split]
  | cons c cs ih =>
    unfold strings.Split
    split
    · simp
    · split
      · simp
      · simp

theorem Split_length_pos (s : GoString) (sep : Nat) : 0 < (strings.Split s sep).length :=
  List.length_pos.mpr (Split_ne_nil s sep)

theorem Split_head (s : GoString) (sep : Nat) :
    index (strings.Split s sep) 0 = some (s.takeWhile (fun b => b != sep)) := by
  induction s with
  | nil => simp [strings.Split, index]
  | cons c cs ih =>
    unfold strings.Split
    by_cases hc : c = sep
    · simp [hc, index]
    · simp only [hc, if_false]
      cases hsp : strings.Split cs sep with
      | nil => exact absurd hsp (Split_ne_nil cs sep)
      | cons t ts =>
        rw [hsp] at ih
        simp [index] at ih
        have hne : (c != sep) = true := by simp [hc]
        simp [index, List.takeWhile, hne, ih]

theorem usePreferred_eq_flagEnabled (settings : Option SSOSettings) :
    usePreferred settings = flagEnabled settings := by
  rcases settings with _ | ⟨_ | _ | _⟩ <;> rfl

theorem usernameCandidate_eq_spec (u : OpenIDUser) (settings : Option SSOSettings) :
    usernameCandidate u settings = some (specUsername u settings) := by
  unfold usernameCandidate specUsername beforeFirstAt
  simp only [usePreferred_eq_flagEnabled, Split_head]
  split
  · rfl
  · split
    · rfl
    · split <;> rfl

theorem nameFallback_total (o : OpenIDUser) (user : User) :
    ∃ r, nameFallback o user = some r := by
  unfold nameFallback
  split
  · have hpos := Split_length_pos o.Name 32
    cases hsp : strings.Split o.Name 32 with
    | nil => simp [hsp] at hpos
    | cons t ts =>
      cases ts with
      | nil => simp [index, sliceFrom]
      | cons t1 ts1 =>
        cases ts1 with
        | nil => simp [index, sliceFrom]
        | cons t2 ts2 => simp [index, sliceFrom]
  · exact ⟨_, rfl⟩

theorem userFromOpenIDUser_eq {σ : Type} (env : Env σ) (st : σ) (h : Heap) (u : OpenIDUser)
    (settings : Option SSOSettings) :
    userFromOpenIDUser env st h u settings =
      (nameFallback u (withNames env st u settings)).map (withAuth env st h u settings) := by
  have hn : ∀ name : GoString, (if u.FamilyName ≠ [] then
      { (if u.GivenName ≠ [] then
          { { User.zero with Username := name } with FirstName := u.GivenName }
         else { User.zero with Username := name }) with
        LastName := u.FamilyName }
      else (if u.GivenName ≠ [] then
          { { User.zero with Username := name } with FirstName := u.GivenName }
         else { User.zero with Username := name }))
      = { Username := name, FirstName := u.GivenName, LastName := u.FamilyName,
          Email := [], AuthData := none, AuthService := [] } := by
    intro name
    by_cases h1 : u.GivenName = [] <;> by_cases h2 : u.FamilyName = [] <;>
      simp [h1, h2, User.zero]
  unfold userFromOpenIDUser
  simp only [usernameCandidate_eq_spec, Option.bind_eq_bind, Option.some_bind, hn]
  cases hc : env.CleanUsername st (specUsername u settings) with
  | mk clean st' =>
    simp only [withNames, withAuth, hc]
    cases nameFallback u
      { Username := clean, FirstName := u.GivenName, LastName := u.FamilyName,
        Email := [], AuthData := none, AuthService := [] } with
    | none => rfl
    | some r =>
      simp only [Option.map_some', Option.some_bind, withAuth, hc]
      rfl

theorem nameFallback_keeps (o : OpenIDUser) (user r : User) (h : nameFallback o user = some r) :
    r.Username = user.Username ∧ r.Email = user.Email ∧ r.AuthData = user.AuthData
      ∧ r.AuthService = user.AuthService := by
  unfold nameFallback at h
  split at h
  · have hpos := Split_length_pos o.Name 32
    cases hsp : strings.Split o.Name 32 with
    | nil => simp [hsp] at hpos
    | cons t ts =>
      rw [hsp] at h
      cases ts with
      | nil => simp [index, sliceFrom] at h; subst h; simp
      | cons t1 ts1 =>
        cases ts1 with
        | nil => simp [index, sliceFrom] at h; subst h; simp
        | cons t2 ts2 => simp [index, sliceFrom] at h; subst h; simp
  · simp at h; subst h; simp


theorem Split_singleton (s t : GoString) (sep : Nat) (h : strings.Split s sep = [t]) :
    t = s := by
  induction s generalizing t with
  | nil => simp [strings.Split] at h; exact h
  | cons c cs ih =>
    unfold strings.Split at h
    by_cases hc : c = sep
    · simp [hc] at h
      exact absurd h.2 (Split_ne_nil cs sep)
    · simp only [hc, if_false] at h
      cases hsp : strings.Split cs sep with
      | nil => exact absurd hsp (Split_ne_nil cs sep)
      | cons t1 ts =>
        rw [hsp] at h
        simp at h
        obtain ⟨h1, h2⟩ := h
        subst h2
        rw [← h1, ih t1 hsp]

theorem nameFallback_skipped (o : OpenIDUser) (user : User)
    (h : user.FirstName ≠ [] ∨ user.LastName ≠ []) : nameFallback o user = some user := by
  unfold nameFallback
  rcases h with h | h <;> simp [h]

theorem nameFallback_one (o : OpenIDUser) (user : User) (t : GoString)
    (h1 : user.FirstName = []) (h2 : user.LastName = []) (hn : o.Name ≠ [])
    (hs : strings.Split o.Name 32 = [t]) :
    nameFallback o user = some { user with FirstName := t } := by
  have ht := Split_singleton _ _ _ hs
  unfold nameFallback
  simp [h1, h2, hn, hs, ht]

theorem nameFallback_two (o : OpenIDUser) (user : User) (t0 t1 : GoString)
    (h1 : user.FirstName = []) (h2 : user.LastName = []) (hn : o.Name ≠ [])
    (hs : strings.Split o.Name 32 = [t0, t1]) :
    nameFallback o user = some { user with FirstName := t0, LastName := t1 } := by
  unfold nameFallback
  simp [h1, h2, hn, hs, index]

theorem nameFallback_many (o : OpenIDUser) (user : User) (t0 t1 t2 : GoString)
    (ts : List GoString)
    (h1 : user.FirstName = []) (h2 : user.LastName = []) (hn : o.Name ≠ [])
    (hs : strings.Split o.Name 32 = t0 :: t1 :: t2 :: ts) :
    nameFallback o user
      = some { user with FirstName := t0, LastName := strings.Join (t1 :: t2 :: ts) [32] } := by
  unfold nameFallback
  simp [h1, h2, hn, hs, index, sliceFrom]

theorem userFromOpenIDUser_total {σ : Type} (env : Env σ) (st : σ) (h : Heap)
    (u : OpenIDUser) (settings : Option SSOSettings) :
    ∃ user h' st', userFromOpenIDUser env st h u settings = some (user, h', st') ∧
      h' = { cells := h.cells ++ [u.Sub] } ∧
      st' = (env.CleanUsername st (specUsername u settings)).2 := by
  rw [userFromOpenIDUser_eq]
  obtain ⟨r, hr⟩ := nameFallback_total u (withNames env st u settings)
  exact ⟨_, _, _, by rw [hr]; rfl, rfl, rfl⟩

theorem userFromOpenIDUser_Username {σ : Type} (env : Env σ) (st : σ) (h : Heap)
    (u : OpenIDUser) (settings : Option SSOSettings) :
    ∃ user h' st', userFromOpenIDUser env st h u settings = some (user, h', st') ∧
      (user.Username, st') = env.CleanUsername st (specUsername u settings) := by
  rw [userFromOpenIDUser_eq]
  obtain ⟨r, hr⟩ := nameFallback_total u (withNames env st u settings)
  have hk := nameFallback_keeps u _ r hr
  refine ⟨_, _, _, by rw [hr]; rfl, ?_⟩
  simp only [withAuth]
  rw [hk.1]
  rfl

theorem getElem?_two_cells (l : List GoString) (a b : GoString) :
    (l ++ [a] ++ [b])[l.length]? = some a ∧ (l ++ [a] ++ [b])[l.length + 1]? = some b := by
  induction l with
  | nil => simp
  | cons x xs ih => simpa using ih

theorem Join_cons_cons (t0 t1 : GoString) (ts : List GoString) (sep : GoString) :
    strings.Join (t0 :: t1 :: ts) sep = t0 ++ sep ++ strings.Join (t1 :: ts) sep := by
  simp [strings.Join]

theorem Join_Split (s : GoString) (sep : Nat) :
    strings.Join (strings.Split s sep) [sep] = s := by
  induction s with
  | nil => simp [strings.Split, strings.Join]
  | cons c cs ih =>
    unfold strings.Split
    cases hsp : strings.Split cs sep with
    | nil => exact absurd hsp (Split_ne_nil cs sep)
    | cons t ts =>
      rw [hsp] at ih
      by_cases hc : c = sep
      · simp only [hc, if_true]
        rw [Join_cons_cons, ih]
        rfl
      · simp only [hc, if_false]
        cases ts with
        | nil =>
          simp only [strings.Join] at ih ⊢
          rw [ih]
        | cons t1 ts1 =>
          rw [Join_cons_cons] at ih ⊢
          rw [← ih]
          simp

theorem takeWhile_no_sep (s : GoString) (sep : Nat) :
    sep ∉ s.takeWhile (fun b => b != sep) := by
  intro hmem
  have := List.mem_takeWhile_imp hmem
  simp at this

theorem Split_first_no_sep (s t : GoString) (ts : List GoString) (sep : Nat)
    (h : strings.Split s sep = t :: ts) : sep ∉ t := by
  have hh := Split_head s sep
  rw [h] at hh
  simp only [index, List.getElem?_cons_zero, Option.some.injEq] at hh
  rw [hh]
  exact takeWhile_no_sep s sep

theorem Split_of_not_mem (s : GoString) (sep : Nat) (h : sep ∉ s) :
    strings.Split s sep = [s] := by
  have hj := Join_Split s sep
  cases hsp : strings.Split s sep with
  | nil => exact absurd hsp (Split_ne_nil s sep)
  | cons t ts =>
    cases ts with
    | nil => rw [Split_singleton s t sep hsp]
    | cons t1 ts1 =>
      rw [hsp, Join_cons_cons] at hj
      exfalso
      apply h
      rw [← hj]
      simp

theorem Split_of_mem (s : GoString) (sep : Nat) (h : sep ∈ s) :
    ∃ t0 t1 ts, strings.Split s sep = t0 :: t1 :: ts := by
  cases hsp : strings.Split s sep with
  | nil => exact absurd hsp (Split_ne_nil s sep)
  | cons t ts =>
    cases ts with
    | nil =>
      exfalso
      have h1 := Split_singleton s t sep hsp
      have h2 := Split_first_no_sep s t [] sep hsp
      rw [h1] at h2
      exact h2 h
    | cons t1 ts1 => exact ⟨t, t1, ts1, rfl⟩

theorem takeWhile_longest (s q : GoString) (sep : Nat) (hq : q <+: s) (hs : sep ∉ q) :
    q <+: s.takeWhile (fun b => b != sep) := by
  induction s generalizing q with
  | nil =>
    have : q = [] := List.prefix_nil.mp hq
    subst this
    simp
  | cons c cs ih =>
    cases q with
    | nil => exact List.nil_prefix
    | cons a q' =>
      rw [List.cons_prefix_cons] at hq
      obtain ⟨hac, hq'⟩ := hq
      subst hac
      have hne : (a != sep) = true := by
        simp only [bne_iff_ne, ne_eq]
        intro he
        exact hs (by simp [he])
      have hs' : sep ∉ q' := fun hm => hs (List.mem_cons_of_mem _ hm)
      have htw : List.takeWhile (fun b => b != sep) (a :: cs)
          = a :: List.takeWhile (fun b => b != sep) cs := by
        simp [List.takeWhile, hne]
      rw [htw, List.cons_prefix_cons]
      exact ⟨rfl, ih q' hq' hs'⟩

theorem nameFallback_names (o : OpenIDUser) (a b : User)
    (h1 : a.FirstName = b.FirstName) (h2 : a.LastName = b.LastName) :
    ∃ ra rb, nameFallback o a = some ra ∧ nameFallback o b = some rb ∧
      ra.FirstName = rb.FirstName ∧ ra.LastName = rb.LastName := by
  unfold nameFallback
  rw [h1, h2]
  split
  · have hpos := Split_length_pos o.Name 32
    cases hsp : strings.Split o.Name 32 with
    | nil => simp [hsp] at hpos
    | cons t ts =>
      cases ts with
      | nil => simp [index, sliceFrom, h2]
      | cons t1 ts1 =>
        cases ts1 with
        | nil => simp [index, sliceFrom]
        | cons t2 ts2 => simp [index, sliceFrom]
  · exact ⟨a, b, rfl, rfl, h1, h2⟩

/-- Two calls of `userFromOpenIDUser`, in any two states and on any two heaps, on userinfos
that agree in the names, the email and the subject: both return, the users agree in the
first name, the last name, the email and the provider tag, each `AuthData` points to the
subject, and each username is what the sanitizer returns for the candidate of its call. -/
theorem userFromOpenIDUser_agree {σ : Type} (env : Env σ) (st1 st2 : σ) (h1 h2 : Heap)
    (u1 u2 : OpenIDUser) (s1 s2 : Option SSOSettings)
    (hg : u1.GivenName = u2.GivenName) (hf : u1.FamilyName = u2.FamilyName)
    (hn : u1.Name = u2.Name) (he : u1.Email = u2.Email) (hs : u1.Sub = u2.Sub) :
    ∃ user1 h1' st1' user2 h2' st2',
      userFromOpenIDUser env st1 h1 u1 s1 = some (user1, h1', st1') ∧
      userFromOpenIDUser env st2 h2 u2 s2 = some (user2, h2', st2') ∧
      user1.FirstName = user2.FirstName ∧ user1.LastName = user2.LastName ∧
      user1.Email = user2.Email ∧ user1.AuthService = user2.AuthService ∧
      h1'.load user1.AuthData = some u1.Sub ∧ h2'.load user2.AuthData = some u1.Sub ∧
      (user1.Username, st1') = env.CleanUsername st1 (specUsername u1 s1) ∧
      (user2.Username, st2') = env.CleanUsername st2 (specUsername u2 s2) := by
  have hnf : ∀ user : User, nameFallback u2 user = nameFallback u1 user := by
    intro user
    unfold nameFallback
    rw [hn]
  obtain ⟨ra, rb, hra, hrb, hfn, hln⟩ := nameFallback_names u1 (withNames env st1 u1 s1)
    (withNames env st2 u2 s2) hg hf
  have hka := nameFallback_keeps u1 _ ra hra
  have hkb := nameFallback_keeps u1 _ rb hrb
  refine ⟨(withAuth env st1 h1 u1 s1 ra).1, (withAuth env st1 h1 u1 s1 ra).2.1,
    (withAuth env st1 h1 u1 s1 ra).2.2, (withAuth env st2 h2 u2 s2 rb).1,
    (withAuth env st2 h2 u2 s2 rb).2.1, (withAuth env st2 h2 u2 s2 rb).2.2,
    by rw [userFromOpenIDUser_eq, hra]; rfl,
    by rw [userFromOpenIDUser_eq, hnf, hrb]; rfl, hfn, hln, ?_, rfl, ?_, ?_, ?_, ?_⟩
  · simp only [withAuth, he]
  · simp [withAuth, Heap.load]
  · simp [withAuth, Heap.load, hs]
  · simp only [withAuth]
    rw [hka.1]
    rfl
  · simp only [withAuth]
    rw [hkb.1]
    rfl

/-! ## Lemmas on UTF-8 sequences -/

theorem EncodeRune_two (x0 x1 : Nat) (h0 : 0xC2 ≤ x0) (h0' : x0 < 0xE0)
    (h1 : utf8.cont x1 = true) :
    utf8.EncodeRune ((x0 % 32) * 64 + x1 % 64) = [x0, x1] := by
  simp only [utf8.cont, Bool.and_eq_true, decide_eq_true_eq] at h1
  unfold utf8.EncodeRune
  rw [if_neg (by omega), if_pos (by omega)]
  congr 1
  · omega
  · congr 1
    omega

theorem EncodeRune_three (x0 x1 x2 : Nat) (h0 : 0xE0 ≤ x0) (h0' : x0 < 0xF0)
    (h1 : utf8.second x0 x1 = true) (h2 : utf8.cont x2 = true) :
    utf8.EncodeRune ((x0 % 16) * 4096 + (x1 % 64) * 64 + x2 % 64) = [x0, x1, x2] := by
  simp only [utf8.cont, Bool.and_eq_true, decide_eq_true_eq] at h2
  have h1' : 0x80 ≤ x1 ∧ x1 ≤ 0xBF ∧ (x0 = 0xE0 → 0xA0 ≤ x1) ∧ (x0 = 0xED → x1 ≤ 0x9F) := by
    unfold utf8.second at h1
    split at h1
    · simp only [Bool.and_eq_true, decide_eq_true_eq] at h1; omega
    · split at h1
      · simp only [Bool.and_eq_true, decide_eq_true_eq] at h1; omega
      · split at h1
        · omega
        · split at h1
          · omega
          · simp only [Bool.and_eq_true, decide_eq_true_eq] at h1; omega
  unfold utf8.EncodeRune
  rw [if_neg (by omega), if_neg (by omega), if_neg (by omega), if_pos (by omega)]
  congr 1
  · omega
  · congr 1
    · omega
    · congr 1
      omega

theorem EncodeRune_four (x0 x1 x2 x3 : Nat) (h0 : 0xF0 ≤ x0) (h0' : x0 < 0xF5)
    (h1 : utf8.second x0 x1 = true) (h2 : utf8.cont x2 = true) (h3 : utf8.cont x3 = true) :
    utf8.EncodeRune ((x0 % 8) * 262144 + (x1 % 64) * 4096 + (x2 % 64) * 64 + x3 % 64)
      = [x0, x1, x2, x3] := by
  simp only [utf8.cont, Bool.and_eq_true, decide_eq_true_eq] at h2 h3
  have h1' : 0x80 ≤ x1 ∧ x1 ≤ 0xBF ∧ (x0 = 0xF0 → 0x90 ≤ x1) ∧ (x0 = 0xF4 → x1 ≤ 0x8F) := by
    unfold utf8.second at h1
    split at h1
    · omega
    · split at h1
      · omega
      · split at h1
        · simp only [Bool.and_eq_true, decide_eq_true_eq] at h1; omega
        · split at h1
          · simp only [Bool.and_eq_true, decide_eq_true_eq] at h1; omega
          · simp only [Bool.and_eq_true, decide_eq_true_eq] at h1; omega
  unfold utf8.EncodeRune
  rw [if_neg (by omega), if_neg (by omega), if_neg (by omega), if_neg (by omega)]
  congr 1
  · omega
  · congr 1
    · omega
    · congr 1
      · omega
      · congr 1
        omega

/-- A well-formed multi-byte sequence at the head of the input: the bytes of the sequence,
which are the encoding of the decoded code point, and the rest of the input. -/
theorem DecodeRune_wellformed (x0 : Nat) (rest : GoString) (c size : Nat)
    (hx : ¬ x0 < 0x80) (hd : utf8.DecodeRune (x0 :: rest) = (c, size))
    (hv : ¬ (c = utf8.RuneError ∧ size = 1)) :
    ∃ ys tail, rest = ys ++ tail ∧ (x0 :: ys).length = size ∧
      utf8.EncodeRune c = x0 :: ys ∧
      ∀ X, utf8.DecodeRune (x0 :: ys ++ X) = (c, size) := by
  have bad : ∀ {P : Prop}, ((utf8.RuneError, 1) : Nat × Nat) = (c, size) → P := by
    intro P h
    simp only [Prod.mk.injEq] at h
    exact absurd ⟨h.1.symm, h.2.symm⟩ hv
  unfold utf8.DecodeRune at hd
  simp only [hx, if_false] at hd
  by_cases hC2 : x0 < 0xC2
  · simp only [hC2, if_true] at hd
    exact bad hd
  simp only [hC2, if_false] at hd
  by_cases hE0 : x0 < 0xE0
  · simp only [hE0, if_true] at hd
    cases rest with
    | nil => exact bad hd
    | cons x1 r1 =>
      simp only at hd
      by_cases h1 : utf8.cont x1 = true
      · simp only [h1, if_true, Prod.mk.injEq] at hd
        obtain ⟨hc, hs⟩ := hd
        subst hc; subst hs
        refine ⟨[x1], r1, rfl, rfl, EncodeRune_two x0 x1 (by omega) hE0 h1, ?_⟩
        intro X
        simp [utf8.DecodeRune, hx, hC2, hE0, h1]
      · simp only [h1] at hd
        exact bad hd
  simp only [hE0, if_false] at hd
  by_cases hF0 : x0 < 0xF0
  · simp only [hF0, if_true] at hd
    match rest, hd with
    | [], hd => exact bad hd
    | [_], hd => exact bad hd
    | x1 :: x2 :: r2, hd =>
      simp only at hd
      by_cases h12 : (utf8.second x0 x1 && utf8.cont x2) = true
      · simp only [h12, if_true, Prod.mk.injEq] at hd
        obtain ⟨hc, hs⟩ := hd
        subst hc; subst hs
        have h12' := h12
        simp only [Bool.and_eq_true] at h12'
        refine ⟨[x1, x2], r2, rfl, rfl,
          EncodeRune_three x0 x1 x2 (by omega) hF0 h12'.1 h12'.2, ?_⟩
        intro X
        simp [utf8.DecodeRune, hx, hC2, hE0, hF0, h12'.1, h12'.2]
      · simp only [h12] at hd
        exact bad hd
  simp only [hF0, if_false] at hd
  by_cases hF5 : x0 < 0xF5
  · simp only [hF5, if_true] at hd
    match rest, hd with
    | [], hd => exact bad hd
    | [_], hd => exact bad hd
    | [_, _], hd => exact bad hd
    | x1 :: x2 :: x3 :: r3, hd =>
      simp only at hd
      by_cases h123 : (utf8.second x0 x1 && utf8.cont x2 && utf8.cont x3) = true
      · simp only [h123, if_true, Prod.mk.injEq] at hd
        obtain ⟨hc, hs⟩ := hd
        subst hc; subst hs
        have h123' := h123
        simp only [Bool.and_eq_true] at h123'
        refine ⟨[x1, x2, x3], r3, rfl, rfl,
          EncodeRune_four x0 x1 x2 x3 (by omega) hF5 h123'.1.1 h123'.1.2 h123'.2, ?_⟩
        intro X
        simp [utf8.DecodeRune, hx, hC2, hE0, hF0, hF5, h123'.1.1, h123'.1.2, h123'.2]
      · simp only [h123] at hd
        exact bad hd
  · simp only [hF5, if_false] at hd
    exact bad hd

/-! ## A string literal written by the encoder is read back by the decoder -/

theorem stringBody_safe (f b : Nat) (Y : GoString) (hs : json.htmlSafe b = true) :
    json.stringBody (f + 1) (b :: Y)
      = (json.stringBody f Y).map (fun p => (b :: p.1, p.2)) := by
  simp only [json.htmlSafe, Bool.and_eq_true, decide_eq_true_eq, bne_iff_ne, ne_eq] at hs
  obtain ⟨⟨⟨⟨⟨⟨h1, h2⟩, h3⟩, h4⟩, -⟩, -⟩, -⟩ := hs
  have h5 : ¬ b < 0x20 := by omega
  simp [json.stringBody, h3, h4, h5, h2, utf8.RuneSelf]

theorem stringBody_escapeByte (f b : Nat) (Y : GoString) (hb : b < 0x80)
    (hs : json.htmlSafe b = false) :
    json.stringBody (f + 1) (json.escapeByte b ++ Y)
      = (json.stringBody f Y).map (fun p => (b :: p.1, p.2)) := by
  have hcases : b < 0x20 ∨ b = 0x22 ∨ b = 0x5C ∨ b = 0x3C ∨ b = 0x3E ∨ b = 0x26 := by
    simp only [json.htmlSafe, Bool.and_eq_false_iff, decide_eq_false_iff_not, bne_eq_false_iff_eq,
      beq_iff_eq] at hs
    omega
  rcases hcases with h | h | h | h | h | h
  · interval_cases b <;>
      simp [json.stringBody, json.escapeByte, json.hexDigit, json.getu4, json.hexVal,
        json.simpleEscape, utf16.IsSurrogate, utf8.EncodeRune]
  all_goals
    subst h
    simp [json.stringBody, json.escapeByte, json.hexDigit, json.getu4, json.hexVal,
      json.simpleEscape, utf16.IsSurrogate, utf8.EncodeRune]

theorem stringBody_multibyte (f x0 c size : Nat) (Z : GoString) (hx : ¬ x0 < 0x80)
    (hd : utf8.DecodeRune (x0 :: Z) = (c, size)) :
    json.stringBody (f + 1) (x0 :: Z)
      = (json.stringBody f ((x0 :: Z).drop size)).map
          (fun p => (utf8.EncodeRune c ++ p.1, p.2)) := by
  have h1 : ¬ x0 = 0x22 := by omega
  have h2 : ¬ x0 = 0x5C := by omega
  have h3 : ¬ x0 < 0x20 := by omega
  simp only [json.stringBody, h1, h2, h3, hx, utf8.RuneSelf, if_false, hd]

theorem stringBody_separator (f c : Nat) (Y : GoString) (hc : c = 0x2028 ∨ c = 0x2029) :
    json.stringBody (f + 1) (go "\\u202" ++ [json.hexDigit (c % 16)] ++ Y)
      = (json.stringBody f Y).map (fun p => (utf8.EncodeRune c ++ p.1, p.2)) := by
  rcases hc with h | h <;> subst h <;>
    simp [json.stringBody, go, json.hexDigit, json.getu4, json.hexVal, utf16.IsSurrogate]

/-- The decoder reads back what the encoder's loop wrote for a well-formed `s`. -/
theorem stringBody_appendStringLoop (n : Nat) :
    ∀ s : GoString, s.length ≤ n → utf8.validLoop n s = true →
      ∀ (f : Nat) (Y : GoString), (json.appendStringLoop n s).length < f →
        json.stringBody f (json.appendStringLoop n s ++ 0x22 :: Y) = some (s, Y) := by
  induction n with
  | zero =>
    intro s hl _ f Y hf
    have hs : s = [] := List.length_eq_zero.mp (Nat.le_zero.mp hl)
    subst hs
    obtain ⟨f', rfl⟩ : ∃ f', f = f' + 1 := ⟨f - 1, by omega⟩
    simp [json.appendStringLoop, json.stringBody]
  | succ n ih =>
    intro s hl hv f Y hf
    obtain ⟨f', rfl⟩ : ∃ f', f = f' + 1 := ⟨f - 1, by omega⟩
    cases s with
    | nil => simp [json.appendStringLoop, json.stringBody]
    | cons b rest =>
      have hl' : rest.length ≤ n := by simpa using hl
      by_cases hb : b < 0x80
      · -- a single byte
        have hv' : utf8.validLoop n rest = true := by
          have hne : ¬ b = utf8.RuneError := by
            simp only [utf8.RuneError]; omega
          have := hv
          simp only [utf8.validLoop, utf8.DecodeRune, hb, if_true, hne, false_and, if_false,
            List.drop_succ_cons, List.drop_zero] at this
          exact this
        by_cases hs : json.htmlSafe b = true
        · have hf' : (json.appendStringLoop n rest).length < f' := by
            simpa [json.appendStringLoop, hb, utf8.RuneSelf, hs] using hf
          simp only [json.appendStringLoop, hb, utf8.RuneSelf, hs, if_true, List.singleton_append,
            List.cons_append, List.nil_append]
          rw [stringBody_safe f' b _ hs, ih rest hl' hv' f' Y hf']
          rfl
        · have hs' : json.htmlSafe b = false := by simpa using hs
          have hf' : (json.appendStringLoop n rest).length < f' := by
            have : 0 < (json.escapeByte b).length := by
              unfold json.escapeByte
              split_ifs <;> simp
            simp only [json.appendStringLoop, hb, utf8.RuneSelf, hs', if_true,
              List.length_append] at hf
            simp at hf
            omega
          simp only [json.appendStringLoop, hb, utf8.RuneSelf, hs', if_true, List.append_assoc]
          simp only [Bool.false_eq_true, if_false]
          rw [stringBody_escapeByte f' b _ hb hs', ih rest hl' hv' f' Y hf']
          rfl
      · -- a sequence of several bytes
        cases hdec : utf8.DecodeRune (b :: rest) with
        | mk c size =>
          have hok : ¬ (c = utf8.RuneError ∧ size = 1) := by
            intro hbad
            simp [utf8.validLoop, hdec, hbad] at hv
          obtain ⟨ys, tail, hrest, hlen, henc, hX⟩ :=
            DecodeRune_wellformed b rest c size hb hdec hok
          subst hrest
          have hdrop : (b :: (ys ++ tail)).drop size = tail := by
            rw [← hlen]
            simp
          have htake : (b :: (ys ++ tail)).take size = b :: ys := by
            rw [← hlen]
            simp
          have hv' : utf8.validLoop n tail = true := by
            simpa [utf8.validLoop, hdec, hok, hdrop] using hv
          have hl'' : tail.length ≤ n := by
            simp at hl'
            omega
          by_cases hsep : c = 0x2028 ∨ c = 0x2029
          · have hf' : (json.appendStringLoop n tail).length < f' := by
              have h5 : (go "\\u202").length = 5 := by decide
              simp only [json.appendStringLoop, hb, utf8.RuneSelf, if_false, hdec, hok, hsep,
                if_true, hdrop, List.length_append, h5, List.length_singleton] at hf
              omega
            simp only [json.appendStringLoop, hb, utf8.RuneSelf, if_false, hdec, hok, hsep,
              if_true, hdrop, List.append_assoc]
            have := stringBody_separator f' c (json.appendStringLoop n tail ++ 0x22 :: Y) hsep
            simp only [List.append_assoc] at this
            rw [this, ih tail hl'' hv' f' Y hf', henc]
            rfl
          · have hf' : (json.appendStringLoop n tail).length < f' := by
              simp only [json.appendStringLoop, hb, utf8.RuneSelf, if_false, hdec, hok, hsep,
                hdrop, htake, List.length_append, List.length_cons] at hf
              omega
            simp only [json.appendStringLoop, hb, utf8.RuneSelf, if_false, hdec, hok, hsep,
              hdrop, htake, List.append_assoc]
            have hd2 := hX (json.appendStringLoop n tail ++ 0x22 :: Y)
            have hdrop2 : (b :: (ys ++ (json.appendStringLoop n tail ++ 0x22 :: Y))).drop size
                = json.appendStringLoop n tail ++ 0x22 :: Y := by
              rw [← hlen]
              simp
            rw [List.cons_append] at hd2 ⊢
            rw [stringBody_multibyte f' b c size _ hb hd2, hdrop2, ih tail hl'' hv' f' Y hf',
              henc]
            rfl

/-! ## The object written by the encoder is read back by the decoder -/

theorem stringLit_appendStringLoop (s Y : GoString) (hv : utf8.ValidString s = true) :
    json.stringLit (json.appendStringLoop s.length s ++ 0x22 :: Y) = some (s, Y) := by
  unfold json.stringLit
  apply stringBody_appendStringLoop s.length s (Nat.le_refl _) hv
  simp

/-- A key whose bytes the encoder writes as they are. -/
theorem stringLit_key (key Y : GoString) (hv : utf8.ValidString key = true)
    (hk : json.appendStringLoop key.length key = key) :
    json.stringLit (key ++ 0x22 :: Y) = some (key, Y) := by
  have := stringLit_appendStringLoop key Y hv
  rwa [hk] at this

theorem skipSpace_cons (c : Nat) (Y : GoString) (hc : json.isSpace c = false) :
    json.skipSpace (c :: Y) = c :: Y := by
  simp [json.skipSpace, List.dropWhile, hc]

theorem value_appendString (f d : Nat) (s Y : GoString) (hv : utf8.ValidString s = true) :
    json.value (f + 1) d (json.appendString s ++ Y) = some (json.Value.string s, Y) := by
  have hsp : json.skipSpace (0x22 :: (json.appendStringLoop s.length s ++ 0x22 :: Y))
      = 0x22 :: (json.appendStringLoop s.length s ++ 0x22 :: Y) :=
    skipSpace_cons _ _ (by decide)
  have hin : json.appendString s ++ Y
      = 0x22 :: (json.appendStringLoop s.length s ++ 0x22 :: Y) := by
    simp [json.appendString]
  rw [hin, json.value]
  simp only [hsp]
  simp [stringLit_appendStringLoop s Y hv]

theorem value_appendBool (f d : Nat) (b : Bool) (Y : GoString) :
    json.value (f + 1) d (json.appendBool b ++ Y) = some (json.Value.bool b, Y) := by
  cases b
  · have hin : json.appendBool false ++ Y = 0x66 :: (go "alse" ++ Y) := by
      simp [json.appendBool, go]
    rw [hin, json.value]
    simp only [skipSpace_cons 0x66 _ (by decide)]
    simp [json.expect, go]
  · have hin : json.appendBool true ++ Y = 0x74 :: (go "rue" ++ Y) := by
      simp [json.appendBool, go]
    rw [hin, json.value]
    simp only [skipSpace_cons 0x74 _ (by decide)]
    simp [json.expect, go]

theorem members_step (f d : Nat) (key VAL Y : GoString) (v : json.Value)
    (hv : utf8.ValidString key = true)
    (hk : json.appendStringLoop key.length key = key)
    (hval : ∀ Z, json.value (f + 1) d (VAL ++ Z) = some (v, Z)) :
    json.members (f + 2) d (0x22 :: (key ++ 0x22 :: 0x3A :: (VAL ++ 0x2C :: Y)))
      = (json.members (f + 1) d Y).map (fun p => ((key, v) :: p.1, p.2)) := by
  rw [json.members]
  simp only [skipSpace_cons 0x22 _ (by decide), stringLit_key key _ hv hk,
    skipSpace_cons 0x3A _ (by decide), hval, skipSpace_cons 0x2C _ (by decide)]

theorem members_last (f d : Nat) (key VAL Y : GoString) (v : json.Value)
    (hv : utf8.ValidString key = true)
    (hk : json.appendStringLoop key.length key = key)
    (hval : ∀ Z, json.value (f + 1) d (VAL ++ Z) = some (v, Z)) :
    json.members (f + 2) d (0x22 :: (key ++ 0x22 :: 0x3A :: (VAL ++ 0x7D :: Y)))
      = some ([(key, v)], Y) := by
  rw [json.members]
  simp only [skipSpace_cons 0x22 _ (by decide), stringLit_key key _ hv hk,
    skipSpace_cons 0x3A _ (by decide), hval, skipSpace_cons 0x7D _ (by decide)]

/-- The text of `json.Marshal`, one member after the other, with the bytes `X` after it. -/
theorem Marshal_append_eq (v : OpenIDUser) (X : GoString) :
    json.Marshal v ++ X = 0x7B :: 0x22 :: (go "sub" ++ 0x22 :: 0x3A :: (json.appendString v.Sub ++
      0x2C :: 0x22 :: (go "email" ++ 0x22 :: 0x3A :: (json.appendString v.Email ++
      0x2C :: 0x22 :: (go "email_verified" ++ 0x22 :: 0x3A :: (json.appendBool v.EmailVerified ++
      0x2C :: 0x22 :: (go "name" ++ 0x22 :: 0x3A :: (json.appendString v.Name ++
      0x2C :: 0x22 :: (go "preferred_username" ++ 0x22 :: 0x3A ::
        (json.appendString v.PreferredUsername ++
      0x2C :: 0x22 :: (go "given_name" ++ 0x22 :: 0x3A :: (json.appendString v.GivenName ++
      0x2C :: 0x22 :: (go "family_name" ++ 0x22 :: 0x3A :: (json.appendString v.FamilyName ++
      0x2C :: 0x22 :: (go "nickname" ++ 0x22 :: 0x3A :: (json.appendString v.Nickname ++
      0x7D :: X)))))))))))))))) := by
  simp only [json.Marshal, List.append_assoc]
  rfl

/-- The members that the decoder reads from the text of `json.Marshal`, whatever bytes follow
the text. -/
theorem members_Marshal (f d : Nat) (v : OpenIDUser) (X : GoString)
    (h1 : utf8.ValidString v.Sub = true) (h2 : utf8.ValidString v.Email = true)
    (h3 : utf8.ValidString v.Name = true) (h4 : utf8.ValidString v.PreferredUsername = true)
    (h5 : utf8.ValidString v.GivenName = true) (h6 : utf8.ValidString v.FamilyName = true)
    (h7 : utf8.ValidString v.Nickname = true) :
    json.members (f + 9) d (json.Marshal v ++ X).tail
      = some ([(go "sub", json.Value.string v.Sub), (go "email", json.Value.string v.Email),
          (go "email_verified", json.Value.bool v.EmailVerified),
          (go "name", json.Value.string v.Name),
          (go "preferred_username", json.Value.string v.PreferredUsername),
          (go "given_name", json.Value.string v.GivenName),
          (go "family_name", json.Value.string v.FamilyName),
          (go "nickname", json.Value.string v.Nickname)], X) := by
  rw [Marshal_append_eq, List.tail_cons]
  rw [members_step (f + 7) d (go "sub") _ _ _ (by decide) (by decide)
        (fun Z => value_appendString _ d v.Sub Z h1),
      members_step (f + 6) d (go "email") _ _ _ (by decide) (by decide)
        (fun Z => value_appendString _ d v.Email Z h2),
      members_step (f + 5) d (go "email_verified") _ _ _ (by decide) (by decide)
        (fun Z => value_appendBool _ d v.EmailVerified Z),
      members_step (f + 4) d (go "name") _ _ _ (by decide) (by decide)
        (fun Z => value_appendString _ d v.Name Z h3),
      members_step (f + 3) d (go "preferred_username") _ _ _ (by decide) (by decide)
        (fun Z => value_appendString _ d v.PreferredUsername Z h4),
      members_step (f + 2) d (go "given_name") _ _ _ (by decide) (by decide)
        (fun Z => value_appendString _ d v.GivenName Z h5),
      members_step (f + 1) d (go "family_name") _ _ _ (by decide) (by decide)
        (fun Z => value_appendString _ d v.FamilyName Z h6),
      members_last f d (go "nickname") _ _ _ (by decide) (by decide)
        (fun Z => value_appendString _ d v.Nickname Z h7)]
  rfl

theorem Marshal_append_length (v : OpenIDUser) (X : GoString) :
    9 ≤ (json.Marshal v ++ X).length := by
  rw [Marshal_append_eq]
  simp only [List.length_cons, List.length_append]
  omega

theorem unmarshalObject_Marshal (v u : OpenIDUser) :
    json.unmarshalObject
      [(go "sub", json.Value.string v.Sub), (go "email", json.Value.string v.Email),
        (go "email_verified", json.Value.bool v.EmailVerified),
        (go "name", json.Value.string v.Name),
        (go "preferred_username", json.Value.string v.PreferredUsername),
        (go "given_name", json.Value.string v.GivenName),
        (go "family_name", json.Value.string v.FamilyName),
        (go "nickname", json.Value.string v.Nickname)] u = .ok v := by
  have f1 : json.findField (go "sub") = some .Sub := by decide
  have f2 : json.findField (go "email") = some .Email := by decide
  have f3 : json.findField (go "email_verified") = some .EmailVerified := by decide
  have f4 : json.findField (go "name") = some .Name := by decide
  have f5 : json.findField (go "preferred_username") = some .PreferredUsername := by decide
  have f6 : json.findField (go "given_name") = some .GivenName := by decide
  have f7 : json.findField (go "family_name") = some .FamilyName := by decide
  have f8 : json.findField (go "nickname") = some .Nickname := by decide
  simp only [json.unmarshalObject, json.storeMembers, f1, f2, f3, f4, f5, f6, f7, f8,
    json.store, json.storeString, json.storeBool, Except.map]

/-- The decoder reads the text of `json.Marshal` back into the value that was written, when
the strings of the value are well-formed UTF-8; the bytes after the text are not read. -/
theorem Decode_Marshal_append (v u : OpenIDUser) (X : GoString)
    (h1 : utf8.ValidString v.Sub = true) (h2 : utf8.ValidString v.Email = true)
    (h3 : utf8.ValidString v.Name = true) (h4 : utf8.ValidString v.PreferredUsername = true)
    (h5 : utf8.ValidString v.GivenName = true) (h6 : utf8.ValidString v.FamilyName = true)
    (h7 : utf8.ValidString v.Nickname = true) :
    json.Decode (json.Marshal v ++ X) u = .ok v := by
  have hlen := Marshal_append_length v X
  obtain ⟨f, hf⟩ : ∃ f, 2 * (json.Marshal v ++ X).length + 2 = f + 9 :=
    ⟨2 * (json.Marshal v ++ X).length + 2 - 9, by omega⟩
  have hm := members_Marshal f (json.maxNestingDepth - 1) v X h1 h2 h3 h4 h5 h6 h7
  rw [← hf] at hm
  unfold json.Decode
  generalize 2 * (json.Marshal v ++ X).length + 2 = F at hm ⊢
  rw [Marshal_append_eq] at hm ⊢
  rw [skipSpace_cons 0x7B _ (by decide)]
  simp only [List.tail_cons] at hm
  simp only [skipSpace_cons 0x22 _ (by decide), hm]
  exact unmarshalObject_Marshal v u

theorem Decode_Marshal (v u : OpenIDUser)
    (h1 : utf8.ValidString v.Sub = true) (h2 : utf8.ValidString v.Email = true)
    (h3 : utf8.ValidString v.Name = true) (h4 : utf8.ValidString v.PreferredUsername = true)
    (h5 : utf8.ValidString v.GivenName = true) (h6 : utf8.ValidString v.FamilyName = true)
    (h7 : utf8.ValidString v.Nickname = true) :
    json.Decode (json.Marshal v) u = .ok v := by
  have := Decode_Marshal_append v u [] h1 h2 h3 h4 h5 h6 h7
  rwa [List.append_nil] at this

/-! ## Lemmas on the decoder's loop and its failures -/

theorem skipSpace_idem (s : GoString) : json.skipSpace (json.skipSpace s) = json.skipSpace s := by
  induction s with
  | nil => rfl
  | cons c cs ih =>
    by_cases hc : json.isSpace c = true
    · have : json.skipSpace (c :: cs) = json.skipSpace cs := by
        simp [json.skipSpace, List.dropWhile, hc]
      rw [this, ih]
    · have hc' : json.isSpace c = false := by simpa using hc
      rw [skipSpace_cons c cs hc', skipSpace_cons c cs hc']

theorem findField_exact (f : json.Field) : json.findField f.name = some f := by
  cases f <;> decide

theorem findField_none (key : GoString)
    (h : ∀ f ∈ json.fields, json.foldName f.name ≠ json.foldName key) :
    json.findField key = none := by
  unfold json.findField
  cases hx : json.fields.find? (fun f => f.name = key) with
  | some f =>
    exfalso
    have hm := List.mem_of_find?_eq_some hx
    have hp := List.find?_some hx
    simp only [decide_eq_true_eq] at hp
    exact h f hm (by rw [hp])
  | none =>
    simp only
    rw [List.find?_eq_none]
    intro f hf
    simpa using h f hf

theorem storeMembers_skip (key : GoString) (v : json.Value) (ms : List (GoString × json.Value))
    (u : OpenIDUser) (saved : Option GoError) (h : json.findField key = none) :
    json.storeMembers ((key, v) :: ms) u saved = json.storeMembers ms u saved := by
  simp [json.storeMembers, h]

theorem store_wrongType (u : OpenIDUser) (f : json.Field) (v : json.Value)
    (h : json.wrongType f v = true) :
    json.store u f v = .error (GoError.decodeType v.kind f.name) := by
  cases f <;> cases v <;> first | rfl | (simp [json.wrongType] at h)

theorem storeMembers_saved (ms : List (GoString × json.Value)) (u : OpenIDUser) (e : GoError) :
    (json.storeMembers ms u (some e)).2 = some e := by
  induction ms generalizing u with
  | nil => rfl
  | cons m rest ih =>
    obtain ⟨key, v⟩ := m
    unfold json.storeMembers
    cases json.findField key with
    | none => exact ih u
    | some f =>
      simp only
      cases json.store u f v with
      | ok u' => exact ih u'
      | error e' => simpa using ih u

theorem storeMembers_wrongType (ms : List (GoString × json.Value)) (u : OpenIDUser)
    (saved : Option GoError) (key : GoString) (v : json.Value) (f : json.Field)
    (hm : (key, v) ∈ ms) (hf : json.findField key = some f)
    (hw : json.wrongType f v = true) :
    ∃ e, (json.storeMembers ms u saved).2 = some e := by
  induction ms generalizing u saved with
  | nil => simp at hm
  | cons m rest ih =>
    rcases List.mem_cons.mp hm with hhead | htail
    · subst hhead
      unfold json.storeMembers
      simp only [hf, store_wrongType u f v hw]
      cases saved with
      | none => exact ⟨_, by simpa using storeMembers_saved rest u _⟩
      | some e0 => exact ⟨e0, by simpa using storeMembers_saved rest u e0⟩
    · obtain ⟨key', v'⟩ := m
      unfold json.storeMembers
      cases json.findField key' with
      | none => exact ih u saved htail
      | some f' =>
        simp only
        cases json.store u f' v' with
        | ok u' => exact ih u' saved htail
        | error e' => exact ih u _ htail

theorem unmarshalObject_wrongType (ms : List (GoString × json.Value)) (u : OpenIDUser)
    (key : GoString) (v : json.Value) (f : json.Field)
    (hm : (key, v) ∈ ms) (hf : json.findField key = some f)
    (hw : json.wrongType f v = true) :
    ∃ e, json.unmarshalObject ms u = .error e := by
  obtain ⟨e, he⟩ := storeMembers_wrongType ms u none key v f hm hf hw
  unfold json.unmarshalObject
  cases hs : json.storeMembers ms u none with
  | mk u' saved =>
    rw [hs] at he
    simp only at he
    subst he
    exact ⟨e, rfl⟩

theorem Decode_malformed (data : GoString) (u : OpenIDUser)
    (h : ∀ fuel, json.value fuel json.maxNestingDepth data = none) :
    json.Decode data u = .error GoError.decodeSyntax := by
  have hv := h (2 * data.length + 2 + 1)
  have hv' := h (2 * data.length + 2)
  unfold json.Decode
  cases hs : json.skipSpace data with
  | nil => 
    simp only
    have : json.value (2 * data.length + 2) json.maxNestingDepth [] = none := by
      simp [json.value, json.skipSpace]
    simp [this]
  | cons c rest =>
    by_cases hc : c = 0x7B
    · subst hc
      rw [json.value] at hv
      simp only [hs, if_true] at hv
      have hd : ¬ json.maxNestingDepth = 0 := by decide
      simp only [hd, if_false] at hv
      split at hv
      · simp at hv
      · rename_i hne
        have hmem : json.members (2 * data.length + 2) (json.maxNestingDepth - 1) rest
            = none := by
          simpa using hv
        simp only [hmem]
    · have hval : json.value (2 * data.length + 2) json.maxNestingDepth (c :: rest) = none := by
        rw [json.value] at hv' ⊢
        rw [← hs, skipSpace_idem]
        exact hv'
      split
      · rename_i heq
        simp only [List.cons.injEq] at heq
        exact absurd heq.1 hc
      · simp [hval]

theorem foldName_name_injective (a b : json.Field)
    (h : json.foldName a.name = json.foldName b.name) : a = b := by
  cases a <;> cases b <;> first | rfl | (exact absurd h (by decide))

theorem find?_fold_name (g : json.Field) :
    json.fields.find? (fun f => json.foldName f.name = json.foldName g.name) = some g := by
  cases g <;> decide

theorem findField_of_fold (key : GoString) (g : json.Field)
    (h : json.foldName g.name = json.foldName key) : json.findField key = some g := by
  unfold json.findField
  cases hx : json.fields.find? (fun f => f.name = key) with
  | some f =>
    have hp := List.find?_some hx
    simp only [decide_eq_true_eq] at hp
    have : f = g := foldName_name_injective f g (by rw [hp, h])
    rw [this]
  | none =>
    simp only
    rw [← h]
    exact find?_fold_name g

/-! ## The fuel of the grammar is enough

Every call of the grammar leaves less input than it was given, so the result of a call does
not depend on the fuel once the fuel exceeds twice the length of the input. -/

theorem skipSpace_length (s : GoString) : (json.skipSpace s).length ≤ s.length :=
  (List.dropWhile_suffix _).length_le

theorem dropWhile_length (p : Nat → Bool) (s : GoString) : (s.dropWhile p).length ≤ s.length :=
  (List.dropWhile_suffix _).length_le

theorem skipSpace_cons_length (s rest : GoString) (c : Nat)
    (h : json.skipSpace s = c :: rest) : rest.length < s.length := by
  have := skipSpace_length s
  rw [h] at this
  simpa using this

theorem digits1_length (s r : GoString) (h : json.digits1 s = some r) :
    r.length < s.length := by
  unfold json.digits1 at h
  split at h
  · split at h
    · simp only [Option.some.injEq] at h
      subst h
      have := dropWhile_length json.isDigit ‹GoString›
      simp only [List.length_cons]
      omega
    · simp at h
  · simp at h

theorem exponent_length (s r : GoString) (h : json.exponent s = some r) :
    r.length ≤ s.length := by
  unfold json.exponent at h
  split at h
  · split at h
    · split at h
      · split at h
        · have := digits1_length _ _ h
          simp only [List.length_cons] at this ⊢
          omega
        · have := digits1_length _ _ h
          simp only [List.length_cons] at this ⊢
          omega
      · simp at h
    · simp only [Option.some.injEq] at h
      subst h
      exact Nat.le_refl _
  · simp only [Option.some.injEq] at h
    subst h
    exact Nat.le_refl _

theorem fraction_length (s r : GoString) (h : json.fraction s = some r) :
    r.length ≤ s.length := by
  unfold json.fraction at h
  split at h
  · split at h
    · cases hd : json.digits1 ‹GoString› with
      | none => simp [hd] at h
      | some r1 =>
        simp only [hd, Option.some_bind] at h
        have h1 := digits1_length _ _ hd
        have h2 := exponent_length _ _ h
        simp only [List.length_cons]
        omega
    · exact exponent_length _ _ h
  · simp only [Option.some.injEq] at h
    subst h
    exact Nat.le_refl _

theorem unsignedNumber_length (s r : GoString) (h : json.unsignedNumber s = some r) :
    r.length < s.length := by
  unfold json.unsignedNumber at h
  split at h
  · split at h
    · have := fraction_length _ _ h
      simp only [List.length_cons]
      omega
    · split at h
      · have h1 := fraction_length _ _ h
        have h2 := dropWhile_length json.isDigit ‹GoString›
        simp only [List.length_cons]
        omega
      · simp at h
  · simp at h

theorem number_length (s r : GoString) (h : json.number s = some r) :
    r.length < s.length := by
  unfold json.number at h
  split at h
  · split at h
    · have := unsignedNumber_length _ _ h
      simp only [List.length_cons]
      omega
    · exact unsignedNumber_length _ _ h
  · simp at h

theorem expect_length (lit s r : GoString) (h : json.expect lit s = some r) :
    r.length ≤ s.length := by
  unfold json.expect at h
  split at h
  · simp only [Option.some.injEq] at h
    subst h
    simp
  · simp at h

theorem map_fst_eq_some {α β : Type} (o : Option (α × β)) (g : α → α) (k : α) (r : β)
    (h : o.map (fun p => (g p.1, p.2)) = some (k, r)) : ∃ k', o = some (k', r) := by
  cases o with
  | none => simp at h
  | some p =>
    obtain ⟨a, b⟩ := p
    simp only [Option.map_some', Option.some.injEq, Prod.mk.injEq] at h
    exact ⟨a, by rw [h.2]⟩

theorem pairedSurrogate_length (rr dec : Nat) (s rest : GoString)
    (h : json.pairedSurrogate rr s = some (dec, rest)) : rest.length ≤ s.length := by
  unfold json.pairedSurrogate at h
  split at h
  · split at h
    · split at h
      · simp only [Option.some.injEq, Prod.mk.injEq] at h
        rw [← h.2]
        simp only [List.length_cons]
        omega
      · simp at h
    · simp at h
  · simp at h

theorem stringBody_length (f : Nat) :
    ∀ (s k r : GoString), json.stringBody f s = some (k, r) → r.length < s.length := by
  induction f with
  | zero =>
    intro s k r h
    simp [json.stringBody] at h
  | succ f ih =>
    intro s k r h
    cases s with
    | nil => simp [json.stringBody] at h
    | cons c rest =>
      simp only [json.stringBody] at h
      split at h
      · simp only [Option.some.injEq, Prod.mk.injEq] at h
        rw [← h.2]
        simp
      · split at h
        · split at h
          · simp at h
          · rename_i e rest1
            split at h
            · split at h
              · rename_i h1 h2 h3 h4 rest2
                split at h
                · simp at h
                · rename_i rr hrr
                  split at h
                  · split at h
                    · rename_i dec rest3 hps
                      obtain ⟨k', hk⟩ := map_fst_eq_some _ _ k r h
                      have h1 := ih _ _ _ hk
                      have h2 := pairedSurrogate_length _ _ _ _ hps
                      simp only [List.length_cons]
                      omega
                    · obtain ⟨k', hk⟩ := map_fst_eq_some _ _ k r h
                      have h1 := ih _ _ _ hk
                      simp only [List.length_cons]
                      omega
                  · obtain ⟨k', hk⟩ := map_fst_eq_some _ _ k r h
                    have h1 := ih _ _ _ hk
                    simp only [List.length_cons]
                    omega
              · simp at h
            · split at h
              · obtain ⟨k', hk⟩ := map_fst_eq_some _ (fun x => _ :: x) k r h
                have h1 := ih _ _ _ hk
                simp only [List.length_cons]
                omega
              · simp at h
        · split at h
          · simp at h
          · split at h
            · obtain ⟨k', hk⟩ := map_fst_eq_some _ (fun x => c :: x) k r h
              have h1 := ih _ _ _ hk
              simp only [List.length_cons]
              omega
            · obtain ⟨k', hk⟩ := map_fst_eq_some _
                (fun x => utf8.EncodeRune (utf8.DecodeRune (c :: rest)).1 ++ x) k r h
              have h1 := ih _ _ _ hk
              have h2 : ((c :: rest).drop (utf8.DecodeRune (c :: rest)).2).length
                  ≤ (c :: rest).length := by
                simp [List.length_drop]
              omega

theorem stringLit_length (s k r : GoString) (h : json.stringLit s = some (k, r)) :
    r.length < s.length :=
  stringBody_length s.length s k r h

theorem grammar_length (f : Nat) :
    (∀ d s v r, json.value f d s = some (v, r) → r.length < s.length) ∧
    (∀ d s ms r, json.members f d s = some (ms, r) → r.length < s.length) ∧
    (∀ d s r, json.elements f d s = some r → r.length < s.length) := by
  induction f with
  | zero =>
    refine ⟨?_, ?_, ?_⟩ <;> intros <;> simp_all [json.value, json.members, json.elements]
  | succ f ih =>
    obtain ⟨ihv, ihm, ihe⟩ := ih
    refine ⟨?_, ?_, ?_⟩
    · intro d s v r h
      rw [json.value] at h
      split at h
      · simp at h
      · rename_i c rest hs
        have hlt := skipSpace_cons_length s rest c hs
        split at h
        · split at h
          · simp at h
          · split at h
            · rename_i rest1 hs1
              simp only [Option.some.injEq, Prod.mk.injEq] at h
              have := skipSpace_cons_length rest rest1 _ hs1
              rw [← h.2]
              omega
            · simp only [Option.map_eq_some'] at h
              obtain ⟨⟨ms, r'⟩, hm, hr⟩ := h
              simp only [Prod.mk.injEq] at hr
              have := ihm _ _ _ _ hm
              rw [← hr.2]
              omega
        · split at h
          · split at h
            · simp at h
            · split at h
              · rename_i rest1 hs1
                simp only [Option.some.injEq, Prod.mk.injEq] at h
                have := skipSpace_cons_length rest rest1 _ hs1
                rw [← h.2]
                omega
              · simp only [Option.map_eq_some'] at h
                obtain ⟨r', hm, hr⟩ := h
                simp only [Prod.mk.injEq] at hr
                have := ihe _ _ _ hm
                rw [← hr.2]
                omega
          · split at h
            · simp only [Option.map_eq_some'] at h
              obtain ⟨⟨k, r'⟩, hm, hr⟩ := h
              simp only [Prod.mk.injEq] at hr
              have := stringLit_length _ _ _ hm
              rw [← hr.2]
              omega
            · split at h
              · simp only [Option.map_eq_some'] at h
                obtain ⟨r', hm, hr⟩ := h
                simp only [Prod.mk.injEq] at hr
                have := expect_length _ _ _ hm
                rw [← hr.2]
                omega
              · split at h
                · simp only [Option.map_eq_some'] at h
                  obtain ⟨r', hm, hr⟩ := h
                  simp only [Prod.mk.injEq] at hr
                  have := expect_length _ _ _ hm
                  rw [← hr.2]
                  omega
                · split at h
                  · simp only [Option.map_eq_some'] at h
                    obtain ⟨r', hm, hr⟩ := h
                    simp only [Prod.mk.injEq] at hr
                    have := expect_length _ _ _ hm
                    rw [← hr.2]
                    omega
                  · simp only [Option.map_eq_some'] at h
                    obtain ⟨r', hm, hr⟩ := h
                    simp only [Prod.mk.injEq] at hr
                    have := number_length _ _ hm
                    have hl := skipSpace_length s
                    rw [hs] at hl
                    rw [← hr.2]
                    omega
    · intro d s ms r h
      rw [json.members] at h
      split at h
      · rename_i rest hs
        have hlt := skipSpace_cons_length s rest _ hs
        split at h
        · simp at h
        · rename_i key rest1 hk
          have hlt1 := stringLit_length _ _ _ hk
          split at h
          · rename_i rest2 hs2
            have hlt2 := skipSpace_cons_length rest1 rest2 _ hs2
            split at h
            · simp at h
            · rename_i v rest3 hv
              have hlt3 := ihv _ _ _ _ hv
              split at h
              · rename_i rest4 hs4
                have hlt4 := skipSpace_cons_length rest3 rest4 _ hs4
                simp only [Option.map_eq_some'] at h
                obtain ⟨⟨ms', r'⟩, hm, hr⟩ := h
                simp only [Prod.mk.injEq] at hr
                have := ihm _ _ _ _ hm
                rw [← hr.2]
                omega
              · rename_i rest4 hs4
                have hlt4 := skipSpace_cons_length rest3 rest4 _ hs4
                simp only [Option.some.injEq, Prod.mk.injEq] at h
                rw [← h.2]
                omega
              · simp at h
          · simp at h
      · simp at h
    · intro d s r h
      rw [json.elements] at h
      split at h
      · simp at h
      · rename_i v rest hv
        have hlt := ihv _ _ _ _ hv
        split at h
        · rename_i rest1 hs1
          have hlt1 := skipSpace_cons_length rest rest1 _ hs1
          have := ihe _ _ _ h
          omega
        · rename_i rest1 hs1
          have hlt1 := skipSpace_cons_length rest rest1 _ hs1
          simp only [Option.some.injEq] at h
          rw [← h]
          omega
        · simp at h

theorem grammar_fuel (f : Nat) :
    (∀ d s x, json.value f d s = some x →
      ∀ f', 2 * s.length + 2 ≤ f' → json.value f' d s = some x) ∧
    (∀ d s x, json.members f d s = some x →
      ∀ f', 2 * s.length + 2 ≤ f' → json.members f' d s = some x) ∧
    (∀ d s x, json.elements f d s = some x →
      ∀ f', 2 * s.length + 3 ≤ f' → json.elements f' d s = some x) := by
  induction f with
  | zero =>
    refine ⟨?_, ?_, ?_⟩ <;> intros <;> simp_all [json.value, json.members, json.elements]
  | succ f ih =>
    obtain ⟨ihv, ihm, ihe⟩ := ih
    have hlen := grammar_length f
    refine ⟨?_, ?_, ?_⟩
    · intro d s x h f' hf'
      obtain ⟨g, rfl⟩ : ∃ g, f' = g + 1 := ⟨f' - 1, by omega⟩
      rw [json.value] at h ⊢
      split at h
      · simp at h
      · rename_i c rest hs
        have hlt := skipSpace_cons_length s rest c hs
        split at h
        · rename_i hc
          rw [if_pos hc]
          split at h
          · simp at h
          · rename_i hd
            rw [if_neg hd]
            split at h
            · exact h
            · simp only [Option.map_eq_some'] at h ⊢
              obtain ⟨p, hm, hp⟩ := h
              exact ⟨p, ihm _ _ _ hm g (by omega), hp⟩
        · rename_i hc
          rw [if_neg hc]
          split at h
          · rename_i hc2
            rw [if_pos hc2]
            split at h
            · simp at h
            · rename_i hd
              rw [if_neg hd]
              split at h
              · exact h
              · simp only [Option.map_eq_some'] at h ⊢
                obtain ⟨p, hm, hp⟩ := h
                exact ⟨p, ihe _ _ _ hm g (by omega), hp⟩
          · rename_i hc2
            rw [if_neg hc2]
            exact h
    · intro d s x h f' hf'
      obtain ⟨g, rfl⟩ : ∃ g, f' = g + 1 := ⟨f' - 1, by omega⟩
      rw [json.members] at h ⊢
      split at h
      · rename_i rest hs
        have hlt := skipSpace_cons_length s rest _ hs
        split at h
        · simp at h
        · rename_i key rest1 hk
          have hlt1 := stringLit_length _ _ _ hk
          split at h
          · rename_i rest2 hs2
            have hlt2 := skipSpace_cons_length rest1 rest2 _ hs2
            split at h
            · simp at h
            · rename_i v rest3 hv
              have hlt3 := hlen.1 _ _ _ _ hv
              have hv' := ihv _ _ _ hv g (by omega)
              simp only [hv']
              split at h
              · rename_i rest4 hs4
                have hlt4 := skipSpace_cons_length rest3 rest4 _ hs4
                simp only [Option.map_eq_some'] at h ⊢
                obtain ⟨p, hm, hp⟩ := h
                exact ⟨p, ihm _ _ _ hm g (by omega), hp⟩
              · exact h
              · simp at h
          · simp at h
      · simp at h
    · intro d s x h f' hf'
      obtain ⟨g, rfl⟩ : ∃ g, f' = g + 1 := ⟨f' - 1, by omega⟩
      rw [json.elements] at h ⊢
      split at h
      · simp at h
      · rename_i v rest hv
        have hlt := hlen.1 _ _ _ _ hv
        have hv' := ihv _ _ _ hv g (by omega)
        simp only [hv']
        split at h
        · rename_i rest1 hs1
          have hlt1 := skipSpace_cons_length rest rest1 _ hs1
          exact ihe _ _ _ h g (by omega)
        · exact h
        · simp at h

/-- The grammar rejects an input with every fuel as soon as it rejects it with a fuel above
twice the length of the input. -/
theorem value_none_of_bound (F d : Nat) (s : GoString) (hF : 2 * s.length + 2 ≤ F)
    (h : json.value F d s = none) : ∀ fuel, json.value fuel d s = none := by
  intro fuel
  cases hv : json.value fuel d s with
  | none => rfl
  | some x =>
    have := (grammar_fuel fuel).1 d s x hv F hF
    rw [h] at this
    exact absurd this (by simp)

theorem Decode_wrongType (data : GoString) (u : OpenIDUser) (fuel : Nat)
    (rest tail : GoString)
    (ms : List (GoString × json.Value)) (key : GoString) (v : json.Value) (f : json.Field)
    (hs : json.skipSpace data = 0x7B :: rest)
    (hmem : json.members fuel (json.maxNestingDepth - 1) rest = some (ms, tail))
    (hm : (key, v) ∈ ms) (hf : json.findField key = some f)
    (hw : json.wrongType f v = true) :
    ∃ e, json.Decode data u = .error e := by
  obtain ⟨e, he⟩ := unmarshalObject_wrongType ms u key v f hm hf hw
  refine ⟨e, ?_⟩
  have hlt := skipSpace_cons_length data rest _ hs
  have hmem2 := (grammar_fuel fuel).2.1 _ _ _ hmem (2 * data.length + 2) (by omega)
  have hq : ∃ r, json.skipSpace rest = 0x22 :: r := by
    have hmem' := hmem2
    rw [json.members] at hmem'
    split at hmem'
    · exact ⟨_, by assumption⟩
    · simp at hmem'
  obtain ⟨r, hr⟩ := hq
  unfold json.Decode
  simp only [hs, hr, hmem2, he]

theorem DecodeRune_size_pos (x0 : Nat) (rest : GoString) :
    1 ≤ (utf8.DecodeRune (x0 :: rest)).2 := by
  simp only [utf8.DecodeRune]
  repeat' split
  all_goals simp

theorem drop_DecodeRune_length (x0 : Nat) (rest : GoString) :
    ((x0 :: rest).drop (utf8.DecodeRune (x0 :: rest)).2).length ≤ rest.length := by
  have := DecodeRune_size_pos x0 rest
  simp only [List.length_drop, List.length_cons]
  omega

theorem appendStringLoop_fuel (n : Nat) :
    ∀ (m : Nat) (s : GoString), s.length ≤ n → s.length ≤ m →
      json.appendStringLoop n s = json.appendStringLoop m s := by
  induction n with
  | zero =>
    intro m s hn _
    have hs : s = [] := List.length_eq_zero.mp (Nat.le_zero.mp hn)
    subst hs
    cases m <;> rfl
  | succ n ih =>
    intro m s hn hm
    cases s with
    | nil => cases m <;> rfl
    | cons b rest =>
      obtain ⟨m', rfl⟩ : ∃ m', m = m' + 1 := ⟨m - 1, by simp at hm; omega⟩
      have h1 : rest.length ≤ n := by simpa using hn
      have h2 : rest.length ≤ m' := by simpa using hm
      have hd := drop_DecodeRune_length b rest
      simp only [json.appendStringLoop]
      rw [ih m' rest h1 h2, ih m' _ (by omega) (by omega)]

theorem validLoop_fuel (n : Nat) :
    ∀ (m : Nat) (s : GoString), s.length ≤ n → s.length ≤ m →
      utf8.validLoop n s = utf8.validLoop m s := by
  induction n with
  | zero =>
    intro m s hn _
    have hs : s = [] := List.length_eq_zero.mp (Nat.le_zero.mp hn)
    subst hs
    cases m <;> rfl
  | succ n ih =>
    intro m s hn hm
    cases s with
    | nil => cases m <;> rfl
    | cons b rest =>
      obtain ⟨m', rfl⟩ : ∃ m', m = m' + 1 := ⟨m - 1, by simp at hm; omega⟩
      have h1 : rest.length ≤ n := by simpa using hn
      have h2 : rest.length ≤ m' := by simpa using hm
      have hd := drop_DecodeRune_length b rest
      simp only [utf8.validLoop]
      rw [ih m' _ (by omega) (by omega)]

theorem foldLoop_fuel (n : Nat) :
    ∀ (m : Nat) (s : GoString), s.length ≤ n → s.length ≤ m →
      json.foldLoop n s = json.foldLoop m s := by
  induction n with
  | zero =>
    intro m s hn _
    have hs : s = [] := List.length_eq_zero.mp (Nat.le_zero.mp hn)
    subst hs
    cases m <;> rfl
  | succ n ih =>
    intro m s hn hm
    cases s with
    | nil => cases m <;> rfl
    | cons b rest =>
      obtain ⟨m', rfl⟩ : ∃ m', m = m' + 1 := ⟨m - 1, by simp at hm; omega⟩
      have h1 : rest.length ≤ n := by simpa using hn
      have h2 : rest.length ≤ m' := by simpa using hm
      have hd := drop_DecodeRune_length b rest
      simp only [json.foldLoop]
      rw [ih m' rest h1 h2, ih m' _ (by omega) (by omega)]

theorem stringBody_fuel (f : Nat) :
    ∀ (s : GoString) (x : GoString × GoString), json.stringBody f s = some x →
      ∀ f', s.length ≤ f' → json.stringBody f' s = some x := by
  induction f with
  | zero =>
    intro s x h
    simp [json.stringBody] at h
  | succ f ih =>
    intro s x h f' hf'
    cases s with
    | nil => simp [json.stringBody] at h
    | cons c rest =>
      obtain ⟨g, rfl⟩ : ∃ g, f' = g + 1 := ⟨f' - 1, by simp at hf'; omega⟩
      have hg : rest.length ≤ g := by simpa using hf'
      simp only [json.stringBody] at h ⊢
      split at h
      · rename_i hc
        rw [if_pos hc]
        exact h
      · rename_i hc
        rw [if_neg hc]
        split at h
        · rename_i hc2
          rw [if_pos hc2]
          split at h
          · simp at h
          · rename_i e rest1
            split at h
            · rename_i he
              rw [if_pos he]
              split at h
              · rename_i h1 h2 h3 h4 rest2
                split at h
                · simp at h
                · rename_i rr hrr
                  split at h
                  · rename_i hsur
                    rw [if_pos hsur]
                    split at h
                    · rename_i dec rest3 hps
                      have hl := pairedSurrogate_length _ _ _ _ hps
                      simp only [Option.map_eq_some'] at h ⊢
                      obtain ⟨p, hm, hp⟩ := h
                      simp only [List.length_cons] at hg
                      exact ⟨p, ih _ _ hm g (by omega), hp⟩
                    · simp only [Option.map_eq_some'] at h ⊢
                      obtain ⟨p, hm, hp⟩ := h
                      simp only [List.length_cons] at hg
                      exact ⟨p, ih _ _ hm g (by omega), hp⟩
                  · rename_i hsur
                    rw [if_neg hsur]
                    simp only [Option.map_eq_some'] at h ⊢
                    obtain ⟨p, hm, hp⟩ := h
                    simp only [List.length_cons] at hg
                    exact ⟨p, ih _ _ hm g (by omega), hp⟩
              · simp at h
            · rename_i he
              rw [if_neg he]
              split at h
              · simp only [Option.map_eq_some'] at h ⊢
                obtain ⟨p, hm, hp⟩ := h
                simp only [List.length_cons] at hg
                exact ⟨p, ih _ _ hm g (by omega), hp⟩
              · simp at h
        · rename_i hc2
          rw [if_neg hc2]
          split at h
          · simp at h
          · rename_i hc3
            rw [if_neg hc3]
            split at h
            · rename_i hc4
              rw [if_pos hc4]
              simp only [Option.map_eq_some'] at h ⊢
              obtain ⟨p, hm, hp⟩ := h
              exact ⟨p, ih _ _ hm g hg, hp⟩
            · rename_i hc4
              rw [if_neg hc4]
              have hd := drop_DecodeRune_length c rest
              simp only [Option.map_eq_some'] at h ⊢
              obtain ⟨p, hm, hp⟩ := h
              exact ⟨p, ih _ _ hm g (by omega), hp⟩

/-! ## What the decoder's grammar accepts is well-formed by RFC 8259 -/

theorem IsWs_nil : rfc8259.IsWs [] := by
  intro b hb
  simp at hb

theorem skipSpace_split (s : GoString) : ∃ w, rfc8259.IsWs w ∧ s = w ++ json.skipSpace s := by
  refine ⟨s.takeWhile json.isSpace, ?_, ?_⟩
  · intro b hb
    have := List.mem_takeWhile_imp hb
    simp only [json.isSpace, Bool.or_eq_true, decide_eq_true_eq] at this
    omega
  · exact (List.takeWhile_append_dropWhile _ _).symm

theorem hexVal_sound (c v : Nat) (h : json.hexVal c = some v) : rfc8259.IsHexDig c := by
  unfold json.hexVal at h
  unfold rfc8259.IsHexDig rfc8259.IsDigit
  split at h
  · left; assumption
  · split at h
    · right; right; assumption
    · split at h
      · right; left; assumption
      · simp at h

theorem getu4_sound (h1 h2 h3 h4 v : Nat) (h : json.getu4 h1 h2 h3 h4 = some v) :
    rfc8259.IsHexDig h1 ∧ rfc8259.IsHexDig h2 ∧ rfc8259.IsHexDig h3 ∧ rfc8259.IsHexDig h4 := by
  unfold json.getu4 at h
  cases e1 : json.hexVal h1 with
  | none => simp [e1] at h
  | some d1 =>
    cases e2 : json.hexVal h2 with
    | none => simp [e1, e2] at h
    | some d2 =>
      cases e3 : json.hexVal h3 with
      | none => simp [e1, e2, e3] at h
      | some d3 =>
        cases e4 : json.hexVal h4 with
        | none => simp [e1, e2, e3, e4] at h
        | some d4 =>
          exact ⟨hexVal_sound _ _ e1, hexVal_sound _ _ e2, hexVal_sound _ _ e3,
            hexVal_sound _ _ e4⟩

theorem simpleEscape_sound (e b : Nat) (h : json.simpleEscape e = some b) :
    e = 0x22 ∨ e = 0x5C ∨ e = 0x2F ∨ e = 0x62 ∨ e = 0x66 ∨ e = 0x6E ∨ e = 0x72 ∨ e = 0x74 := by
  unfold json.simpleEscape at h
  split at h
  · omega
  · split at h
    · omega
    · split at h
      · omega
      · split at h
        · omega
        · split at h
          · omega
          · split at h
            · omega
            · simp at h

theorem pairedSurrogate_sound (rr dec : Nat) (s rest : GoString)
    (h : json.pairedSurrogate rr s = some (dec, rest)) :
    ∃ h1 h2 h3 h4, s = 0x5C :: 0x75 :: h1 :: h2 :: h3 :: h4 :: rest ∧
      rfc8259.IsHexDig h1 ∧ rfc8259.IsHexDig h2 ∧ rfc8259.IsHexDig h3 ∧
      rfc8259.IsHexDig h4 := by
  unfold json.pairedSurrogate at h
  split at h
  · rename_i h1 h2 h3 h4 rest'
    split at h
    · rename_i rr1 hg
      split at h
      · simp only [Option.some.injEq, Prod.mk.injEq] at h
        rw [← h.2]
        exact ⟨h1, h2, h3, h4, rfl, getu4_sound _ _ _ _ _ hg⟩
      · simp at h
    · simp at h
  · simp at h

theorem cont_high (x : Nat) (h : utf8.cont x = true) : 0x80 ≤ x := by
  simp only [utf8.cont, Bool.and_eq_true, decide_eq_true_eq] at h
  omega

theorem second_high (x0 x1 : Nat) (h : utf8.second x0 x1 = true) : 0x80 ≤ x1 := by
  unfold utf8.second at h
  repeat' split at h
  all_goals
    simp only [Bool.and_eq_true, decide_eq_true_eq] at h
    omega

/-- The bytes of a sequence that begins with a byte outside ASCII are all outside ASCII. -/
theorem DecodeRune_take_high (x0 : Nat) (rest : GoString) (hx : ¬ x0 < 0x80) :
    ∀ b ∈ (x0 :: rest).take (utf8.DecodeRune (x0 :: rest)).2, 0x80 ≤ b := by
  have one : ∀ b ∈ (x0 :: rest).take 1, 0x80 ≤ b := by
    intro b hb
    simp only [List.take_succ_cons, List.take_zero, List.mem_singleton] at hb
    omega
  unfold utf8.DecodeRune
  simp only [hx, if_false]
  by_cases hC2 : x0 < 0xC2
  · simpa only [hC2, if_true] using one
  simp only [hC2, if_false]
  by_cases hE0 : x0 < 0xE0
  · simp only [hE0, if_true]
    cases rest with
    | nil => simpa using one
    | cons x1 r1 =>
      simp only
      by_cases h1 : utf8.cont x1 = true
      · simp only [h1, if_true]
        intro b hb
        simp only [List.take_succ_cons, List.take_zero, List.mem_cons, List.not_mem_nil,
          or_false] at hb
        have := cont_high x1 h1
        rcases hb with rfl | rfl <;> omega
      · simpa only [h1] using one
  simp only [hE0, if_false]
  by_cases hF0 : x0 < 0xF0
  · simp only [hF0, if_true]
    match rest with
    | [] => simpa using one
    | [_] => simpa using one
    | x1 :: x2 :: r2 =>
      simp only
      by_cases h12 : (utf8.second x0 x1 && utf8.cont x2) = true
      · simp only [h12, if_true]
        simp only [Bool.and_eq_true] at h12
        intro b hb
        simp only [List.take_succ_cons, List.take_zero, List.mem_cons, List.not_mem_nil,
          or_false] at hb
        have := second_high x0 x1 h12.1
        have := cont_high x2 h12.2
        rcases hb with rfl | rfl | rfl <;> omega
      · simpa only [h12] using one
  simp only [hF0, if_false]
  by_cases hF5 : x0 < 0xF5
  · simp only [hF5, if_true]
    match rest with
    | [] => simpa using one
    | [_] => simpa using one
    | [_, _] => simpa using one
    | x1 :: x2 :: x3 :: r3 =>
      simp only
      by_cases h123 : (utf8.second x0 x1 && utf8.cont x2 && utf8.cont x3) = true
      · simp only [h123, if_true]
        simp only [Bool.and_eq_true] at h123
        intro b hb
        simp only [List.take_succ_cons, List.take_zero, List.mem_cons, List.not_mem_nil,
          or_false] at hb
        have := second_high x0 x1 h123.1.1
        have := cont_high x2 h123.1.2
        have := cont_high x3 h123.2
        rcases hb with rfl | rfl | rfl | rfl <;> omega
      · simpa only [h123] using one
  · simpa only [hF5, if_false] using one

theorem Chars_append_high (l body : GoString) (hl : ∀ b ∈ l, 0x80 ≤ b)
    (hb : rfc8259.Chars body) : rfc8259.Chars (l ++ body) := by
  induction l with
  | nil => exact hb
  | cons a l ih =>
    have ha := hl a (by simp)
    exact rfc8259.Chars.unescaped a _ (by omega) (by omega) (by omega)
      (ih (fun b hb' => hl b (List.mem_cons_of_mem _ hb')))

theorem stringBody_sound (f : Nat) :
    ∀ (s k r : GoString), json.stringBody f s = some (k, r) →
      ∃ body, rfc8259.Chars body ∧ s = body ++ 0x22 :: r := by
  induction f with
  | zero =>
    intro s k r h
    simp [json.stringBody] at h
  | succ f ih =>
    intro s k r h
    cases s with
    | nil => simp [json.stringBody] at h
    | cons c rest =>
      simp only [json.stringBody] at h
      split at h
      · rename_i hc
        simp only [Option.some.injEq, Prod.mk.injEq] at h
        exact ⟨[], rfc8259.Chars.done, by rw [hc, ← h.2]; rfl⟩
      · rename_i hc
        split at h
        · rename_i hc2
          split at h
          · simp at h
          · rename_i e rest1
            split at h
            · rename_i he
              split at h
              · rename_i h1 h2 h3 h4 rest2
                split at h
                · simp at h
                · rename_i rr hrr
                  obtain ⟨x1, x2, x3, x4⟩ := getu4_sound _ _ _ _ _ hrr
                  split at h
                  · split at h
                    · rename_i dec rest3 hps
                      obtain ⟨k', hk⟩ := map_fst_eq_some _ _ k r h
                      obtain ⟨body, hb, hs⟩ := ih _ _ _ hk
                      obtain ⟨g1, g2, g3, g4, hr2, y1, y2, y3, y4⟩ :=
                        pairedSurrogate_sound _ _ _ _ hps
                      refine ⟨0x5C :: 0x75 :: h1 :: h2 :: h3 :: h4 ::
                        0x5C :: 0x75 :: g1 :: g2 :: g3 :: g4 :: body, ?_, ?_⟩
                      · exact rfc8259.Chars.unicode _ _ _ _ _ x1 x2 x3 x4
                          (rfc8259.Chars.unicode _ _ _ _ _ y1 y2 y3 y4 hb)
                      · rw [hc2, he, hr2, hs]
                        rfl
                    · obtain ⟨k', hk⟩ := map_fst_eq_some _ _ k r h
                      obtain ⟨body, hb, hs⟩ := ih _ _ _ hk
                      refine ⟨0x5C :: 0x75 :: h1 :: h2 :: h3 :: h4 :: body,
                        rfc8259.Chars.unicode _ _ _ _ _ x1 x2 x3 x4 hb, ?_⟩
                      rw [hc2, he, hs]
                      rfl
                  · obtain ⟨k', hk⟩ := map_fst_eq_some _ _ k r h
                    obtain ⟨body, hb, hs⟩ := ih _ _ _ hk
                    refine ⟨0x5C :: 0x75 :: h1 :: h2 :: h3 :: h4 :: body,
                      rfc8259.Chars.unicode _ _ _ _ _ x1 x2 x3 x4 hb, ?_⟩
                    rw [hc2, he, hs]
                    rfl
              · simp at h
            · split at h
              · rename_i b hse
                obtain ⟨k', hk⟩ := map_fst_eq_some _ (fun x => b :: x) k r h
                obtain ⟨body, hb, hs⟩ := ih _ _ _ hk
                refine ⟨0x5C :: e :: body,
                  rfc8259.Chars.escape e _ (simpleEscape_sound e b hse) hb, ?_⟩
                rw [hc2, hs]
                rfl
              · simp at h
        · rename_i hc2
          split at h
          · simp at h
          · rename_i hc3
            split at h
            · obtain ⟨k', hk⟩ := map_fst_eq_some _ (fun x => c :: x) k r h
              obtain ⟨body, hb, hs⟩ := ih _ _ _ hk
              refine ⟨c :: body, rfc8259.Chars.unescaped c _ (by omega) hc hc2 hb, ?_⟩
              rw [hs]
              rfl
            · rename_i hc4
              obtain ⟨k', hk⟩ := map_fst_eq_some _
                (fun x => utf8.EncodeRune (utf8.DecodeRune (c :: rest)).1 ++ x) k r h
              obtain ⟨body, hb, hs⟩ := ih _ _ _ hk
              have hhigh := DecodeRune_take_high c rest (by simpa [utf8.RuneSelf] using hc4)
              refine ⟨(c :: rest).take (utf8.DecodeRune (c :: rest)).2 ++ body,
                Chars_append_high _ _ hhigh hb, ?_⟩
              rw [List.append_assoc, ← hs, List.take_append_drop]

theorem stringLit_sound (s k r : GoString) (h : json.stringLit s = some (k, r)) :
    ∃ body, rfc8259.Chars body ∧ s = body ++ 0x22 :: r :=
  stringBody_sound s.length s k r h

theorem dropWhile_isDigit_split (s : GoString) :
    ∃ ds, (∀ b ∈ ds, rfc8259.IsDigit b) ∧ s = ds ++ s.dropWhile json.isDigit := by
  refine ⟨s.takeWhile json.isDigit, ?_, (List.takeWhile_append_dropWhile _ _).symm⟩
  intro b hb
  have := List.mem_takeWhile_imp hb
  simpa [json.isDigit, rfc8259.IsDigit] using this

theorem digits1_sound (s r : GoString) (h : json.digits1 s = some r) :
    ∃ ds, rfc8259.IsDigits ds ∧ s = ds ++ r := by
  unfold json.digits1 at h
  split at h
  · rename_i c rest
    split at h
    · rename_i hc
      simp only [Option.some.injEq] at h
      obtain ⟨ds, hds, hsplit⟩ := dropWhile_isDigit_split rest
      refine ⟨c :: ds, ⟨by simp, ?_⟩, ?_⟩
      · intro b hb
        rcases List.mem_cons.mp hb with rfl | hb'
        · simpa [json.isDigit, rfc8259.IsDigit] using hc
        · exact hds b hb'
      · rw [← h, List.cons_append, ← hsplit]
    · simp at h
  · simp at h

theorem exponent_sound (s r : GoString) (h : json.exponent s = some r) :
    ∃ e, (e = [] ∨ rfc8259.IsExp e) ∧ s = e ++ r := by
  unfold json.exponent at h
  split at h
  · rename_i c rest
    split at h
    · rename_i hc
      split at h
      · rename_i d rest1
        split at h
        · rename_i hd
          obtain ⟨ds, hds, hs⟩ := digits1_sound _ _ h
          refine ⟨c :: ([d] ++ ds), Or.inr ⟨c, [d], ds, rfl, hc, ?_, hds⟩, ?_⟩
          · rcases hd with rfl | rfl
            · right; left; rfl
            · right; right; rfl
          · rw [hs]
            rfl
        · obtain ⟨ds, hds, hs⟩ := digits1_sound _ _ h
          refine ⟨c :: ([] ++ ds), Or.inr ⟨c, [], ds, rfl, hc, Or.inl rfl, hds⟩, ?_⟩
          rw [hs]
          rfl
      · simp at h
    · simp only [Option.some.injEq] at h
      exact ⟨[], Or.inl rfl, by rw [← h]; rfl⟩
  · simp only [Option.some.injEq] at h
    exact ⟨[], Or.inl rfl, by rw [← h]; rfl⟩

theorem fraction_sound (s r : GoString) (h : json.fraction s = some r) :
    ∃ fr e, (fr = [] ∨ rfc8259.IsFrac fr) ∧ (e = [] ∨ rfc8259.IsExp e) ∧
      s = fr ++ (e ++ r) := by
  unfold json.fraction at h
  split at h
  · rename_i c rest
    split at h
    · rename_i hc
      cases hd : json.digits1 rest with
      | none => simp [hd] at h
      | some r1 =>
        simp only [hd, Option.some_bind] at h
        obtain ⟨ds, hds, hs⟩ := digits1_sound _ _ hd
        obtain ⟨e, he, hs2⟩ := exponent_sound _ _ h
        refine ⟨0x2E :: ds, e, Or.inr ⟨ds, rfl, hds⟩, he, ?_⟩
        rw [hc, hs, hs2]
        rfl
    · obtain ⟨e, he, hs2⟩ := exponent_sound _ _ h
      exact ⟨[], e, Or.inl rfl, he, by rw [hs2]; rfl⟩
  · simp only [Option.some.injEq] at h
    exact ⟨[], [], Or.inl rfl, Or.inl rfl, by rw [← h]; rfl⟩

theorem unsignedNumber_sound (s r : GoString) (h : json.unsignedNumber s = some r) :
    ∃ i fr e, rfc8259.IsInt i ∧ (fr = [] ∨ rfc8259.IsFrac fr) ∧ (e = [] ∨ rfc8259.IsExp e) ∧
      s = i ++ (fr ++ (e ++ r)) := by
  unfold json.unsignedNumber at h
  split at h
  · rename_i c rest
    split at h
    · rename_i hc
      obtain ⟨fr, e, hfr, he, hs⟩ := fraction_sound _ _ h
      exact ⟨[0x30], fr, e, Or.inl rfl, hfr, he, by rw [hc, hs]; rfl⟩
    · split at h
      · rename_i hc2
        obtain ⟨fr, e, hfr, he, hs⟩ := fraction_sound _ _ h
        obtain ⟨ds, hds, hsplit⟩ := dropWhile_isDigit_split rest
        refine ⟨c :: ds, fr, e, Or.inr ⟨c, ds, rfl, hc2.1, hc2.2, hds⟩, hfr, he, ?_⟩
        rw [List.cons_append, ← hs, ← hsplit]
      · simp at h
  · simp at h

theorem number_sound (s r : GoString) (h : json.number s = some r) :
    ∃ n, rfc8259.IsNumber n ∧ s = n ++ r := by
  unfold json.number at h
  split at h
  · rename_i c rest
    split at h
    · rename_i hc
      obtain ⟨i, fr, e, hi, hfr, he, hs⟩ := unsignedNumber_sound _ _ h
      refine ⟨[0x2D] ++ (i ++ (fr ++ e)), ⟨[0x2D], i, fr, e, rfl, Or.inr rfl, hi, hfr, he⟩, ?_⟩
      rw [hc, hs]
      simp
    · obtain ⟨i, fr, e, hi, hfr, he, hs⟩ := unsignedNumber_sound _ _ h
      refine ⟨[] ++ (i ++ (fr ++ e)), ⟨[], i, fr, e, rfl, Or.inl rfl, hi, hfr, he⟩, ?_⟩
      rw [hs]
      simp
  · simp at h

theorem expect_sound (lit s r : GoString) (h : json.expect lit s = some r) :
    s = lit ++ r := by
  unfold json.expect at h
  split at h
  · rename_i hp
    simp only [Option.some.injEq] at h
    have hpre : lit <+: s := List.isPrefixOf_iff_prefix.mp hp
    obtain ⟨t, ht⟩ := hpre
    rw [← h, ← ht]
    simp
  · simp at h

theorem skipSpace_cons_split (s rest : GoString) (c : Nat) (h : json.skipSpace s = c :: rest) :
    ∃ w, rfc8259.IsWs w ∧ s = w ++ c :: rest := by
  obtain ⟨w, hw, hs⟩ := skipSpace_split s
  rw [h] at hs
  exact ⟨w, hw, hs⟩

/-- Whatever the grammar of the decoder accepts is well-formed by the reference grammar: a
value with white space before it, the members of an object up to its closing brace, the
elements of an array up to its closing bracket. -/
theorem grammar_sound (f : Nat) :
    (∀ d s v r, json.value f d s = some (v, r) →
      ∃ w p, rfc8259.IsWs w ∧ rfc8259.Value p ∧ s = w ++ (p ++ r)) ∧
    (∀ d s ms r, json.members f d s = some (ms, r) →
      ∃ m, rfc8259.Members m ∧ s = m ++ 0x7D :: r) ∧
    (∀ d s r, json.elements f d s = some r →
      ∃ es, rfc8259.Elements es ∧ s = es ++ 0x5D :: r) := by
  induction f with
  | zero =>
    refine ⟨?_, ?_, ?_⟩ <;> intros <;> simp_all [json.value, json.members, json.elements]
  | succ f ih =>
    obtain ⟨ihv, ihm, ihe⟩ := ih
    refine ⟨?_, ?_, ?_⟩
    · intro d s v r h
      rw [json.value] at h
      split at h
      · simp at h
      · rename_i c rest hs
        obtain ⟨w, hw, hsw⟩ := skipSpace_cons_split s rest c hs
        split at h
        · rename_i hc
          split at h
          · simp at h
          · split at h
            · rename_i rest1 hs1
              simp only [Option.some.injEq, Prod.mk.injEq] at h
              obtain ⟨w', hw', hsw'⟩ := skipSpace_cons_split rest rest1 _ hs1
              refine ⟨w, 0x7B :: (w' ++ [0x7D]), hw, rfc8259.Value.emptyObject w' hw', ?_⟩
              rw [hsw, hc, hsw', ← h.2]
              simp
            · simp only [Option.map_eq_some'] at h
              obtain ⟨⟨ms, r'⟩, hm, hr⟩ := h
              simp only [Prod.mk.injEq] at hr
              obtain ⟨m, hmm, hsm⟩ := ihm _ _ _ _ hm
              refine ⟨w, 0x7B :: (m ++ [0x7D]), hw, rfc8259.Value.object m hmm, ?_⟩
              rw [hsw, hc, hsm, ← hr.2]
              simp
        · split at h
          · rename_i hc
            split at h
            · simp at h
            · split at h
              · rename_i rest1 hs1
                simp only [Option.some.injEq, Prod.mk.injEq] at h
                obtain ⟨w', hw', hsw'⟩ := skipSpace_cons_split rest rest1 _ hs1
                refine ⟨w, 0x5B :: (w' ++ [0x5D]), hw, rfc8259.Value.emptyArray w' hw', ?_⟩
                rw [hsw, hc, hsw', ← h.2]
                simp
              · simp only [Option.map_eq_some'] at h
                obtain ⟨r', hm, hr⟩ := h
                simp only [Prod.mk.injEq] at hr
                obtain ⟨es, hes, hse⟩ := ihe _ _ _ hm
                refine ⟨w, 0x5B :: (es ++ [0x5D]), hw, rfc8259.Value.array es hes, ?_⟩
                rw [hsw, hc, hse, ← hr.2]
                simp
          · split at h
            · rename_i hc
              simp only [Option.map_eq_some'] at h
              obtain ⟨⟨k, r'⟩, hm, hr⟩ := h
              simp only [Prod.mk.injEq] at hr
              obtain ⟨body, hb, hsb⟩ := stringLit_sound _ _ _ hm
              refine ⟨w, 0x22 :: (body ++ [0x22]), hw,
                rfc8259.Value.string _ ⟨body, hb, rfl⟩, ?_⟩
              rw [hsw, hc, hsb, ← hr.2]
              simp
            · split at h
              · rename_i hc
                simp only [Option.map_eq_some'] at h
                obtain ⟨r', hm, hr⟩ := h
                simp only [Prod.mk.injEq] at hr
                have := expect_sound _ _ _ hm
                refine ⟨w, [0x74, 0x72, 0x75, 0x65], hw, rfc8259.Value.litTrue, ?_⟩
                rw [hsw, hc, this, ← hr.2]
                rfl
              · split at h
                · rename_i hc
                  simp only [Option.map_eq_some'] at h
                  obtain ⟨r', hm, hr⟩ := h
                  simp only [Prod.mk.injEq] at hr
                  have := expect_sound _ _ _ hm
                  refine ⟨w, [0x66, 0x61, 0x6C, 0x73, 0x65], hw, rfc8259.Value.litFalse, ?_⟩
                  rw [hsw, hc, this, ← hr.2]
                  rfl
                · split at h
                  · rename_i hc
                    simp only [Option.map_eq_some'] at h
                    obtain ⟨r', hm, hr⟩ := h
                    simp only [Prod.mk.injEq] at hr
                    have := expect_sound _ _ _ hm
                    refine ⟨w, [0x6E, 0x75, 0x6C, 0x6C], hw, rfc8259.Value.litNull, ?_⟩
                    rw [hsw, hc, this, ← hr.2]
                    rfl
                  · simp only [Option.map_eq_some'] at h
                    obtain ⟨r', hm, hr⟩ := h
                    simp only [Prod.mk.injEq] at hr
                    obtain ⟨n, hn, hsn⟩ := number_sound _ _ hm
                    refine ⟨w, n, hw, rfc8259.Value.number n hn, ?_⟩
                    rw [hsw, hsn, ← hr.2]
    · intro d s ms r h
      rw [json.members] at h
      split at h
      · rename_i rest hs
        obtain ⟨w1, hw1, hsw1⟩ := skipSpace_cons_split s rest _ hs
        split at h
        · simp at h
        · rename_i key rest1 hk
          obtain ⟨body, hb, hsb⟩ := stringLit_sound _ _ _ hk
          split at h
          · rename_i rest2 hs2
            obtain ⟨w2, hw2, hsw2⟩ := skipSpace_cons_split rest1 rest2 _ hs2
            split at h
            · simp at h
            · rename_i v rest3 hv
              obtain ⟨w3, p, hw3, hp, hsp⟩ := ihv _ _ _ _ hv
              split at h
              · rename_i rest4 hs4
                obtain ⟨w4, hw4, hsw4⟩ := skipSpace_cons_split rest3 rest4 _ hs4
                simp only [Option.map_eq_some'] at h
                obtain ⟨⟨ms', r'⟩, hm, hr⟩ := h
                simp only [Prod.mk.injEq] at hr
                obtain ⟨m', hm', hsm'⟩ := ihm _ _ _ _ hm
                refine ⟨_, rfc8259.Members.more w1 (0x22 :: (body ++ [0x22])) w2 w3 p w4 m'
                  hw1 ⟨body, hb, rfl⟩ hw2 hw3 hp hw4 hm', ?_⟩
                rw [hsw1, hsb, hsw2, hsp, hsw4, hsm', ← hr.2]
                simp
              · rename_i rest4 hs4
                obtain ⟨w4, hw4, hsw4⟩ := skipSpace_cons_split rest3 rest4 _ hs4
                simp only [Option.some.injEq, Prod.mk.injEq] at h
                refine ⟨_, rfc8259.Members.one w1 (0x22 :: (body ++ [0x22])) w2 w3 p w4
                  hw1 ⟨body, hb, rfl⟩ hw2 hw3 hp hw4, ?_⟩
                rw [hsw1, hsb, hsw2, hsp, hsw4, ← h.2]
                simp
              · simp at h
          · simp at h
      · simp at h
    · intro d s r h
      rw [json.elements] at h
      split at h
      · simp at h
      · rename_i v rest hv
        obtain ⟨w1, p, hw1, hp, hsp⟩ := ihv _ _ _ _ hv
        split at h
        · rename_i rest1 hs1
          obtain ⟨w2, hw2, hsw2⟩ := skipSpace_cons_split rest rest1 _ hs1
          obtain ⟨es, hes, hse⟩ := ihe _ _ _ h
          refine ⟨_, rfc8259.Elements.more w1 p w2 es hw1 hp hw2 hes, ?_⟩
          rw [hsp, hsw2, hse]
          simp
        · rename_i rest1 hs1
          obtain ⟨w2, hw2, hsw2⟩ := skipSpace_cons_split rest rest1 _ hs1
          simp only [Option.some.injEq] at h
          refine ⟨_, rfc8259.Elements.one w1 p w2 hw1 hp hw2, ?_⟩
          rw [hsp, hsw2, ← h]
          simp
        · simp at h

/-- The decoder rejects every input that does not begin with a well-formed JSON value. -/
theorem Decode_rejects (data : GoString) (u : OpenIDUser)
    (h : ¬ rfc8259.BeginsWithValue data) :
    json.Decode data u = .error GoError.decodeSyntax := by
  apply Decode_malformed
  intro fuel
  cases hv : json.value fuel json.maxNestingDepth data with
  | none => rfl
  | some x =>
    obtain ⟨v, r⟩ := x
    obtain ⟨w, p, hw, hp, hs⟩ := (grammar_sound fuel).1 _ _ _ _ hv
    exact absurd ⟨w, p, r, hw, hp, hs⟩ h

theorem IsInt_head (i : GoString) (h : rfc8259.IsInt i) :
    ∃ d ds, i = d :: ds ∧ 0x30 ≤ d ∧ d ≤ 0x39 := by
  rcases h with rfl | ⟨d, ds, rfl, h1, h2, -⟩
  · exact ⟨0x30, [], rfl, by omega, by omega⟩
  · exact ⟨d, ds, rfl, by omega, h2⟩

theorem IsNumber_head (n : GoString) (h : rfc8259.IsNumber n) :
    ∃ d ds, n = d :: ds ∧ (d = 0x2D ∨ (0x30 ≤ d ∧ d ≤ 0x39)) := by
  obtain ⟨minus, i, fr, e, rfl, hm, hi, -, -⟩ := h
  obtain ⟨d, ds, rfl, h1, h2⟩ := IsInt_head i hi
  rcases hm with rfl | rfl
  · exact ⟨d, ds ++ (fr ++ e), rfl, Or.inr ⟨h1, h2⟩⟩
  · exact ⟨0x2D, (d :: ds) ++ (fr ++ e), rfl, Or.inl rfl⟩

/-- A well-formed value that begins with an opening brace has a closing brace after it. -/
theorem Value_open_brace (p : GoString) (hp : rfc8259.Value p) :
    p ≠ [] ∧ ∀ t, p = 0x7B :: t → 0x7D ∈ t := by
  cases hp with
  | litNull => exact ⟨by simp, fun t ht => by simp at ht⟩
  | litTrue => exact ⟨by simp, fun t ht => by simp at ht⟩
  | litFalse => exact ⟨by simp, fun t ht => by simp at ht⟩
  | number =>
    rename_i hn
    obtain ⟨d, ds, rfl, hd⟩ := IsNumber_head p hn
    refine ⟨by simp, fun t ht => ?_⟩
    simp only [List.cons.injEq] at ht
    omega
  | string =>
    rename_i hs
    obtain ⟨body, -, rfl⟩ := hs
    exact ⟨by simp, fun t ht => by simp at ht⟩
  | emptyArray w hw => exact ⟨by simp, fun t ht => by simp at ht⟩
  | array es hes => exact ⟨by simp, fun t ht => by simp at ht⟩
  | emptyObject w hw =>
    refine ⟨by simp, fun t ht => ?_⟩
    simp only [List.cons.injEq, true_and] at ht
    rw [← ht]
    simp
  | object ms hms =>
    refine ⟨by simp, fun t ht => ?_⟩
    simp only [List.cons.injEq, true_and] at ht
    rw [← ht]
    simp

/-- An input that opens an object and has no closing brace does not begin with a well-formed
JSON value. -/
theorem not_BeginsWithValue_of_open (rest : GoString) (h : 0x7D ∉ rest) :
    ¬ rfc8259.BeginsWithValue (0x7B :: rest) := by
  rintro ⟨w, p, r, hw, hp, hs⟩
  obtain ⟨hne, hbrace⟩ := Value_open_brace p hp
  cases w with
  | cons b w' =>
    simp only [List.cons_append, List.cons.injEq] at hs
    have := hw b (by simp)
    omega
  | nil =>
    cases p with
    | nil => exact hne rfl
    | cons c t =>
      simp only [List.nil_append, List.cons_append, List.cons.injEq] at hs
      obtain ⟨hc, ht⟩ := hs
      have := hbrace t (by rw [← hc])
      apply h
      rw [ht]
      simp [this]

/-! ## The decoder on the objects that the encoder writes -/

theorem value_valueText (f d : Nat) (v : json.Value) (c : Nat) (Z : GoString)
    (hd : d ≠ 0) (hc : c = 0x2C ∨ c = 0x7D)
    (hv : (match v with
      | .string s => utf8.ValidString s
      | _ => true) = true) :
    json.value (f + 1) d (json.valueText v ++ c :: Z) = some (v, c :: Z) := by
  cases v with
  | null =>
    have hin : json.valueText json.Value.null ++ c :: Z = 0x6E :: (go "ull" ++ c :: Z) := rfl
    rw [hin, json.value]
    simp only [skipSpace_cons 0x6E _ (by decide)]
    simp [json.expect, go]
  | bool b => exact value_appendBool f d b (c :: Z)
  | number =>
    have hin : json.valueText json.Value.number ++ c :: Z = 0x30 :: c :: Z := rfl
    rw [hin, json.value]
    simp only [skipSpace_cons 0x30 _ (by decide)]
    rcases hc with rfl | rfl <;>
      simp [json.number, json.unsignedNumber, json.fraction, json.exponent]
  | string s => exact value_appendString f d s (c :: Z) hv
  | array =>
    have hin : json.valueText json.Value.array ++ c :: Z = 0x5B :: 0x5D :: c :: Z := rfl
    rw [hin, json.value]
    simp only [skipSpace_cons 0x5B _ (by decide), skipSpace_cons 0x5D _ (by decide)]
    simp [hd]
  | object =>
    have hin : json.valueText json.Value.object ++ c :: Z = 0x7B :: 0x7D :: c :: Z := rfl
    rw [hin, json.value]
    simp only [skipSpace_cons 0x7B _ (by decide), skipSpace_cons 0x7D _ (by decide)]
    simp [hd]

theorem stringLit_appendString (key Y : GoString) (hv : utf8.ValidString key = true) :
    json.skipSpace (json.appendString key ++ Y)
      = 0x22 :: (json.appendStringLoop key.length key ++ 0x22 :: Y) ∧
    json.stringLit (json.appendStringLoop key.length key ++ 0x22 :: Y) = some (key, Y) := by
  have hin : json.appendString key ++ Y
      = 0x22 :: (json.appendStringLoop key.length key ++ 0x22 :: Y) := by
    simp [json.appendString]
  rw [hin]
  exact ⟨skipSpace_cons _ _ (by decide), stringLit_appendStringLoop key Y hv⟩

theorem memberText_append (m : GoString × json.Value) (Y : GoString) :
    json.memberText m ++ Y = json.appendString m.1 ++ (0x3A :: (json.valueText m.2 ++ Y)) := by
  simp [json.memberText]

theorem members_membersText (ms : List (GoString × json.Value)) :
    ∀ (m : GoString × json.Value) (d : Nat) (Z : GoString), d ≠ 0 →
      (∀ x ∈ m :: ms, json.wellFormedMember x = true) →
      json.members ((m :: ms).length + 1) d (json.membersText (m :: ms) ++ 0x7D :: Z)
        = some (m :: ms, Z) := by
  induction ms with
  | nil =>
    intro m d Z hd hw
    have hm := hw m (by simp)
    simp only [json.wellFormedMember, Bool.and_eq_true] at hm
    obtain ⟨hs1, hs2⟩ := stringLit_appendString m.1 (0x3A :: (json.valueText m.2 ++ 0x7D :: Z))
      hm.1
    have hval := value_valueText 0 d m.2 0x7D Z hd (Or.inr rfl) hm.2
    simp only [json.membersText, memberText_append, List.length_singleton]
    rw [json.members]
    simp only [hs1, hs2, skipSpace_cons 0x3A _ (by decide), hval,
      skipSpace_cons 0x7D _ (by decide)]
  | cons m' ms ih =>
    intro m d Z hd hw
    have hm := hw m (by simp)
    simp only [json.wellFormedMember, Bool.and_eq_true] at hm
    have hrest := ih m' d Z hd (fun x hx => hw x (List.mem_cons_of_mem _ hx))
    obtain ⟨hs1, hs2⟩ := stringLit_appendString m.1
      (0x3A :: (json.valueText m.2 ++ 0x2C :: (json.membersText (m' :: ms) ++ 0x7D :: Z)))
      hm.1
    have hval := value_valueText (ms.length + 1) d m.2 0x2C
      (json.membersText (m' :: ms) ++ 0x7D :: Z) hd (Or.inl rfl) hm.2
    have htext : json.membersText (m :: m' :: ms) ++ 0x7D :: Z
        = json.appendString m.1 ++ (0x3A :: (json.valueText m.2 ++
            0x2C :: (json.membersText (m' :: ms) ++ 0x7D :: Z))) := by
      simp [json.membersText, json.memberText]
    rw [htext]
    have hlen : (m :: m' :: ms).length + 1 = (ms.length + 1 + 1) + 1 := by simp
    rw [hlen, json.members]
    simp only [hs1, hs2, skipSpace_cons 0x3A _ (by decide), hval,
      skipSpace_cons 0x2C _ (by decide)]
    have hlen2 : ms.length + 1 + 1 = (m' :: ms).length + 1 := by simp
    rw [hlen2, hrest]
    rfl

/-- The decoder on an object that the encoder writes, whatever bytes follow it: the members
are stored in their order. -/
theorem Decode_objectText (ms : List (GoString × json.Value)) (X : GoString) (u : OpenIDUser)
    (hw : ∀ x ∈ ms, json.wellFormedMember x = true) :
    json.Decode (json.objectText ms ++ X) u = json.unmarshalObject ms u := by
  cases ms with
  | nil =>
    have hin : json.objectText [] ++ X = 0x7B :: 0x7D :: X := rfl
    unfold json.Decode
    rw [hin, skipSpace_cons 0x7B _ (by decide)]
    simp only [skipSpace_cons 0x7D _ (by decide)]
    rfl
  | cons m ms =>
    have hin : json.objectText (m :: ms) ++ X
        = 0x7B :: (json.membersText (m :: ms) ++ 0x7D :: X) := by
      simp [json.objectText]
    have hmem := members_membersText ms m (json.maxNestingDepth - 1) X (by decide) hw
    have hmem2 := (grammar_fuel _).2.1 _ _ _ hmem
      (2 * (json.objectText (m :: ms) ++ X).length + 2) (by rw [hin]; simp)
    have hq : ∃ r, json.skipSpace (json.membersText (m :: ms) ++ 0x7D :: X) = 0x22 :: r := by
      have hmem' := hmem
      rw [json.members] at hmem'
      split at hmem'
      · exact ⟨_, by assumption⟩
      · simp at hmem'
    obtain ⟨r, hr⟩ := hq
    unfold json.Decode
    generalize 2 * (json.objectText (m :: ms) ++ X).length + 2 = F at hmem2 ⊢
    rw [hin, skipSpace_cons 0x7B _ (by decide)]
    simp only [hr, hmem2]

/-! ## The decoder's `foldName` and the reference `matchesName` agree on ASCII names -/

theorem upperASCII_lt (c : Nat) (h : c < 0x80) : upperASCII c < 0x80 := by
  unfold upperASCII
  split <;> omega

theorem foldName_nil : json.foldName [] = [] := rfl

theorem foldName_cons_ascii (c : Nat) (rest : GoString) (h : c < 0x80) :
    json.foldName (c :: rest) = upperASCII c :: json.foldName rest := by
  simp only [json.foldName, List.length_cons, json.foldLoop, utf8.RuneSelf, h, if_true,
    upperASCII]

theorem foldName_cons_high (c : Nat) (rest : GoString) (h : ¬ c < 0x80) :
    json.foldName (c :: rest)
      = utf8.EncodeRune (json.foldRune (utf8.DecodeRune (c :: rest)).1)
          ++ json.foldName ((c :: rest).drop (utf8.DecodeRune (c :: rest)).2) := by
  have hd := drop_DecodeRune_length c rest
  simp only [json.foldName, List.length_cons, json.foldLoop, utf8.RuneSelf, h, if_false]
  rw [foldLoop_fuel rest.length _ _ hd (Nat.le_refl _)]

theorem EncodeRune_head_high (r : Nat) (h : 0x80 ≤ r) :
    ∃ b bs, utf8.EncodeRune r = b :: bs ∧ 0x80 ≤ b := by
  unfold utf8.EncodeRune
  split
  · omega
  · split
    · exact ⟨_, _, rfl, by omega⟩
    · split
      · exact ⟨_, _, rfl, by omega⟩
      · split
        · exact ⟨_, _, rfl, by omega⟩
        · exact ⟨_, _, rfl, by omega⟩

theorem EncodeRune_ne_nil (r : Nat) : utf8.EncodeRune r ≠ [] := by
  unfold utf8.EncodeRune
  repeat' split
  all_goals simp

theorem DecodeRune_rune_high (x0 : Nat) (rest : GoString) (hx : ¬ x0 < 0x80) :
    0x80 ≤ (utf8.DecodeRune (x0 :: rest)).1 := by
  cases hdec : utf8.DecodeRune (x0 :: rest) with
  | mk c size =>
    by_cases hv : c = utf8.RuneError ∧ size = 1
    · simp only [hv.1, utf8.RuneError]
      omega
    · obtain ⟨ys, tail, hrest, hlen, henc, hX⟩ := DecodeRune_wellformed x0 rest c size hx hdec hv
      show 0x80 ≤ c
      by_contra hlt
      have hc : c ≤ 0x7F := by omega
      have : utf8.EncodeRune c = [c] := by
        unfold utf8.EncodeRune
        rw [if_pos hc]
      rw [this] at henc
      simp only [List.cons.injEq] at henc
      omega

theorem DecodeRune_eq_of_rune (x0 : Nat) (rest : GoString) (hx : ¬ x0 < 0x80) (r : Nat)
    (hr : (utf8.DecodeRune (x0 :: rest)).1 = r) (hne : r ≠ utf8.RuneError) :
    ∃ tail, x0 :: rest = utf8.EncodeRune r ++ tail ∧
      (x0 :: rest).drop (utf8.DecodeRune (x0 :: rest)).2 = tail := by
  cases hdec : utf8.DecodeRune (x0 :: rest) with
  | mk c size =>
    rw [hdec] at hr
    simp only at hr
    subst hr
    have hv : ¬ (c = utf8.RuneError ∧ size = 1) := fun hh => hne hh.1
    obtain ⟨ys, tail, hrest, hlen, henc, hX⟩ := DecodeRune_wellformed x0 rest c size hx hdec hv
    refine ⟨tail, by rw [henc, hrest]; rfl, ?_⟩
    rw [hrest, ← hlen]
    simp

theorem matchesName_cons_ascii (c k : Nat) (name rest : GoString) (hk : k < 0x80) :
    matchesName (c :: name) (k :: rest)
      = (decide (upperASCII k = upperASCII c) && matchesName name rest) := by
  rw [matchesName]
  · simp [hk]
  all_goals
    intros
    simp only [List.cons.injEq] at *
    omega

theorem matchesName_longS (c : Nat) (name tail : GoString) :
    matchesName (c :: name) (0xC5 :: 0xBF :: tail)
      = ((decide (c = 0x73) || decide (c = 0x53)) && matchesName name tail) := by
  rw [matchesName]

theorem matchesName_kelvin (c : Nat) (name tail : GoString) :
    matchesName (c :: name) (0xE2 :: 0x84 :: 0xAA :: tail)
      = ((decide (c = 0x6B) || decide (c = 0x4B)) && matchesName name tail) := by
  rw [matchesName]

theorem matchesName_high_other (c k : Nat) (name rest : GoString) (hk : ¬ k < 0x80)
    (h1 : ∀ tail, k :: rest ≠ 0xC5 :: 0xBF :: tail)
    (h2 : ∀ tail, k :: rest ≠ 0xE2 :: 0x84 :: 0xAA :: tail) :
    matchesName (c :: name) (k :: rest) = false := by
  rw [matchesName]
  · simp [hk]
  · intro tail hk1 hrest
    exact h1 tail (by rw [hk1, hrest])
  · intro tail hk2 hrest
    exact h2 tail (by rw [hk2, hrest])

theorem foldName_longS (tail : GoString) :
    json.foldName (0xC5 :: 0xBF :: tail) = 0x53 :: json.foldName tail := by
  rw [foldName_cons_high _ _ (by decide)]
  have hd : utf8.DecodeRune (0xC5 :: 0xBF :: tail) = (0x17F, 2) := by
    simp [utf8.DecodeRune, utf8.cont]
  rw [hd]
  rfl

theorem foldName_kelvin (tail : GoString) :
    json.foldName (0xE2 :: 0x84 :: 0xAA :: tail) = 0x4B :: json.foldName tail := by
  rw [foldName_cons_high _ _ (by decide)]
  have hd : utf8.DecodeRune (0xE2 :: 0x84 :: 0xAA :: tail) = (0x212A, 3) := by
    simp [utf8.DecodeRune, utf8.cont, utf8.second]
  rw [hd]
  rfl

theorem foldName_high_other (k : Nat) (rest : GoString) (hk : ¬ k < 0x80)
    (h1 : ∀ tail, k :: rest ≠ 0xC5 :: 0xBF :: tail)
    (h2 : ∀ tail, k :: rest ≠ 0xE2 :: 0x84 :: 0xAA :: tail) :
    ∃ b bs, json.foldName (k :: rest) = b :: bs ∧ 0x80 ≤ b := by
  rw [foldName_cons_high k rest hk]
  have hr := DecodeRune_rune_high k rest hk
  have hn1 : (utf8.DecodeRune (k :: rest)).1 ≠ 0x17F := by
    intro he
    obtain ⟨tail, ht, -⟩ := DecodeRune_eq_of_rune k rest hk 0x17F he (by decide)
    exact h1 tail ht
  have hn2 : (utf8.DecodeRune (k :: rest)).1 ≠ 0x212A := by
    intro he
    obtain ⟨tail, ht, -⟩ := DecodeRune_eq_of_rune k rest hk 0x212A he (by decide)
    exact h2 tail ht
  have hf : json.foldRune (utf8.DecodeRune (k :: rest)).1 = (utf8.DecodeRune (k :: rest)).1 := by
    simp [json.foldRune, hn1, hn2]
  rw [hf]
  obtain ⟨b, bs, hb, hhigh⟩ := EncodeRune_head_high _ hr
  exact ⟨b, bs ++ _, by rw [hb]; rfl, hhigh⟩

theorem foldName_eq_nil (key : GoString) (h : json.foldName key = []) : key = [] := by
  cases key with
  | nil => rfl
  | cons k rest =>
    by_cases hk : k < 0x80
    · rw [foldName_cons_ascii k rest hk] at h
      simp at h
    · rw [foldName_cons_high k rest hk] at h
      have := EncodeRune_ne_nil (json.foldRune (utf8.DecodeRune (k :: rest)).1)
      simp only [List.append_eq_nil] at h
      exact absurd h.1 this

/-- The decoder's `foldName` gives a key and an ASCII name the same image exactly when the
key equals the name under case folding by the reference definition. -/
theorem foldName_eq_iff_matchesName (name : GoString) :
    ∀ key : GoString, (∀ c ∈ name, c < 0x80) →
      (json.foldName name = json.foldName key ↔ matchesName name key = true) := by
  induction name with
  | nil =>
    intro key _
    rw [foldName_nil, matchesName]
    constructor
    · intro h
      rw [foldName_eq_nil key h.symm]
      rfl
    · intro h
      have : key = [] := by simpa using h
      rw [this]
      rfl
  | cons c name ih =>
    intro key hascii
    have hc : c < 0x80 := hascii c (by simp)
    have hrest : ∀ x ∈ name, x < 0x80 := fun x hx => hascii x (List.mem_cons_of_mem _ hx)
    have huc := upperASCII_lt c hc
    rw [foldName_cons_ascii c name hc]
    cases key with
    | nil =>
      rw [foldName_nil, matchesName]
      simp
    | cons k rest =>
      by_cases hk : k < 0x80
      · rw [foldName_cons_ascii k rest hk, matchesName_cons_ascii c k name rest hk]
        simp only [List.cons.injEq, Bool.and_eq_true, decide_eq_true_eq]
        rw [ih rest hrest]
        constructor
        · rintro ⟨h1, h2⟩
          exact ⟨h1.symm, h2⟩
        · rintro ⟨h1, h2⟩
          exact ⟨h1.symm, h2⟩
      · by_cases h1 : ∃ tail, k :: rest = 0xC5 :: 0xBF :: tail
        · obtain ⟨tail, ht⟩ := h1
          rw [ht, foldName_longS, matchesName_longS]
          simp only [List.cons.injEq, Bool.and_eq_true, Bool.or_eq_true, decide_eq_true_eq]
          rw [ih tail hrest]
          constructor
          · rintro ⟨hu, hm⟩
            refine ⟨?_, hm⟩
            unfold upperASCII at hu
            split at hu <;> omega
          · rintro ⟨hu, hm⟩
            refine ⟨?_, hm⟩
            unfold upperASCII
            rcases hu with rfl | rfl <;> simp
        · by_cases h2 : ∃ tail, k :: rest = 0xE2 :: 0x84 :: 0xAA :: tail
          · obtain ⟨tail, ht⟩ := h2
            rw [ht, foldName_kelvin, matchesName_kelvin]
            simp only [List.cons.injEq, Bool.and_eq_true, Bool.or_eq_true, decide_eq_true_eq]
            rw [ih tail hrest]
            constructor
            · rintro ⟨hu, hm⟩
              refine ⟨?_, hm⟩
              unfold upperASCII at hu
              split at hu <;> omega
            · rintro ⟨hu, hm⟩
              refine ⟨?_, hm⟩
              unfold upperASCII
              rcases hu with rfl | rfl <;> simp
          · have n1 : ∀ tail, k :: rest ≠ 0xC5 :: 0xBF :: tail :=
              fun tail ht => h1 ⟨tail, ht⟩
            have n2 : ∀ tail, k :: rest ≠ 0xE2 :: 0x84 :: 0xAA :: tail :=
              fun tail ht => h2 ⟨tail, ht⟩
            obtain ⟨b, bs, hb, hhigh⟩ := foldName_high_other k rest hk n1 n2
            rw [hb, matchesName_high_other c k name rest hk n1 n2]
            simp only [List.cons.injEq, Bool.false_eq_true, iff_false, not_and]
            intro he
            omega

theorem Field_name_ascii (f : json.Field) : ∀ c ∈ f.name, c < 0x80 := by
  cases f <;> decide

theorem Field_mem_fields (f : json.Field) : f ∈ json.fields := by
  cases f <;> decide

theorem Field_name_valid (f : json.Field) : utf8.ValidString f.name = true := by
  cases f <;> rfl

/-- The field that the decoder finds for a key is the one whose name equals the key under
case folding by the reference definition. -/
theorem findField_some_iff (key : GoString) (f : json.Field) :
    json.findField key = some f ↔ matchesName f.name key = true := by
  rw [← foldName_eq_iff_matchesName f.name key (Field_name_ascii f)]
  constructor
  · intro h
    unfold json.findField at h
    cases hx : json.fields.find? (fun f => f.name = key) with
    | some g =>
      rw [hx] at h
      simp only [Option.some.injEq] at h
      have hp := List.find?_some hx
      simp only [decide_eq_true_eq] at hp
      rw [← h, hp]
    | none =>
      rw [hx] at h
      simp only at h
      have hp := List.find?_some h
      simpa using hp
  · exact findField_of_fold key f

/-- The decoder finds no field for a key exactly when the key equals no name under case
folding by the reference definition. -/
theorem findField_none_iff (key : GoString) :
    json.findField key = none ↔ unknownKey key = true := by
  constructor
  · intro h
    unfold unknownKey
    rw [List.all_eq_true]
    intro f _
    cases hm : matchesName f.name key with
    | false => rfl
    | true =>
      rw [(findField_some_iff key f).mpr hm] at h
      exact absurd h (by simp)
  · intro h
    cases hf : json.findField key with
    | none => rfl
    | some f =>
      have hm := (findField_some_iff key f).mp hf
      unfold unknownKey at h
      rw [List.all_eq_true] at h
      have := h f (Field_mem_fields f)
      rw [hm] at this
      exact absurd this (by decide)

theorem storeMembers_append_skip (ms1 ms2 : List (GoString × json.Value)) (key : GoString)
    (v : json.Value) (u : OpenIDUser) (saved : Option GoError)
    (h : json.findField key = none) :
    json.storeMembers (ms1 ++ (key, v) :: ms2) u saved
      = json.storeMembers (ms1 ++ ms2) u saved := by
  induction ms1 generalizing u saved with
  | nil => exact storeMembers_skip key v ms2 u saved h
  | cons m rest ih =>
    obtain ⟨key', v'⟩ := m
    simp only [List.cons_append]
    unfold json.storeMembers
    cases json.findField key' with
    | none => exact ih u saved
    | some f' =>
      simp only
      cases json.store u f' v' with
      | ok u' => exact ih u' saved
      | error e' => exact ih u _

theorem storeMembers_append_rename (ms1 ms2 : List (GoString × json.Value))
    (key key' : GoString) (v : json.Value) (u : OpenIDUser) (saved : Option GoError)
    (h : json.findField key = json.findField key') :
    json.storeMembers (ms1 ++ (key, v) :: ms2) u saved
      = json.storeMembers (ms1 ++ (key', v) :: ms2) u saved := by
  induction ms1 generalizing u saved with
  | nil =>
    simp only [List.nil_append]
    unfold json.storeMembers
    rw [h]
  | cons m rest ih =>
    obtain ⟨k0, v0⟩ := m
    simp only [List.cons_append]
    unfold json.storeMembers
    cases json.findField k0 with
    | none => exact ih u saved
    | some f' =>
      simp only
      cases json.store u f' v0 with
      | ok u' => exact ih u' saved
      | error e' => exact ih u _

/-- The function `openIDUserFromJSON` on an object that the encoder writes, whatever bytes
follow it. -/
theorem openIDUserFromJSON_objectText (ms : List (GoString × json.Value)) (X : GoString)
    (hw : ∀ x ∈ ms, json.wellFormedMember x = true) :
    openIDUserFromJSON (json.objectText ms ++ X) = json.unmarshalObject ms OpenIDUser.zero := by
  unfold openIDUserFromJSON
  rw [Decode_objectText ms X OpenIDUser.zero hw]
  cases json.unmarshalObject ms OpenIDUser.zero <;> rfl

/-- The decoder on an input that begins with an object whose members the grammar reads, with
whatever fuel: the members are stored in their order. -/
theorem Decode_members (data : GoString) (u : OpenIDUser) (fuel : Nat) (rest tail : GoString)
    (ms : List (GoString × json.Value))
    (hs : json.skipSpace data = 0x7B :: rest)
    (hmem : json.members fuel (json.maxNestingDepth - 1) rest = some (ms, tail)) :
    json.Decode data u = json.unmarshalObject ms u := by
  have hlt := skipSpace_cons_length data rest _ hs
  have hmem2 := (grammar_fuel fuel).2.1 _ _ _ hmem (2 * data.length + 2) (by omega)
  have hq : ∃ r, json.skipSpace rest = 0x22 :: r := by
    have hmem' := hmem2
    rw [json.members] at hmem'
    split at hmem'
    · exact ⟨_, by assumption⟩
    · simp at hmem'
  obtain ⟨r, hr⟩ := hq
  unfold json.Decode
  simp only [hs, hr, hmem2]

theorem openIDUserFromJSON_members (data : GoString) (fuel : Nat) (rest tail : GoString)
    (ms : List (GoString × json.Value))
    (hs : json.skipSpace data = 0x7B :: rest)
    (hmem : json.members fuel (json.maxNestingDepth - 1) rest = some (ms, tail)) :
    openIDUserFromJSON data = json.unmarshalObject ms OpenIDUser.zero := by
  unfold openIDUserFromJSON
  rw [Decode_members data OpenIDUser.zero fuel rest tail ms hs hmem]
  cases json.unmarshalObject ms OpenIDUser.zero <;> rfl

theorem openIDUserFromJSON_emptyObject (data rest tail : GoString)
    (hs : json.skipSpace data = 0x7B :: rest) (hr : json.skipSpace rest = 0x7D :: tail) :
    openIDUserFromJSON data = json.unmarshalObject [] OpenIDUser.zero := by
  unfold openIDUserFromJSON json.Decode
  simp only [hs, hr]
  rfl

theorem unmarshalObject_append_skip (ms1 ms2 : List (GoString × json.Value)) (key : GoString)
    (v : json.Value) (u : OpenIDUser) (h : json.findField key = none) :
    json.unmarshalObject (ms1 ++ (key, v) :: ms2) u = json.unmarshalObject (ms1 ++ ms2) u := by
  unfold json.unmarshalObject
  rw [storeMembers_append_skip ms1 ms2 key v u none h]

theorem unmarshalObject_append_rename (ms1 ms2 : List (GoString × json.Value))
    (key key' : GoString) (v : json.Value) (u : OpenIDUser)
    (h : json.findField key = json.findField key') :
    json.unmarshalObject (ms1 ++ (key, v) :: ms2) u
      = json.unmarshalObject (ms1 ++ (key', v) :: ms2) u := by
  unfold json.unmarshalObject
  rw [storeMembers_append_rename ms1 ms2 key key' v u none h]

theorem matchesName_name_iff (f g : json.Field) :
    matchesName f.name g.name = true ↔ f = g := by
  cases f <;> cases g <;> decide
/-! ## The claims -/

set_option maxRecDepth 100000

/-- C1: the username candidate that `userFromOpenIDUser` hands to the sanitizer is the one of
the four-rule reference `specUsername` (preferred username before its first `@` when the
settings are present with the flag enabled and the preferred username is non-empty, else the
nickname verbatim when non-empty, else the preferred username before its first `@` when
non-empty, else the email before its first `@`), and the function returns a user whose
Username is what the sanitizer returns for that candidate, with the state the sanitizer
leaves. -/
theorem userFromOpenIDUser_username {σ : Type} (env : Env σ) (st : σ) (h : Heap)
    (u : OpenIDUser) (settings : Option SSOSettings) :
    usernameCandidate u settings = some (specUsername u settings) ∧
    ∃ user h' st', userFromOpenIDUser env st h u settings = some (user, h', st') ∧
      (user.Username, st') = env.CleanUsername st (specUsername u settings) := by
  exact ⟨usernameCandidate_eq_spec u settings, userFromOpenIDUser_Username env st h u settings⟩

/-- C2, evaluated at the failing input: two users whose `AuthData` pointers are distinct
cells holding the same identifier `abc` have equal auth data as strings, and `IsSameUser`
returns false on them, while it returns true on a user and itself. -/
theorem IsSameUser_compares_addresses :
    let heap : Heap := { cells := [go "abc", go "abc"] }
    let dbUser : User := { User.zero with AuthData := some 0 }
    let oauthUser : User := { User.zero with AuthData := some 1 }
    heap.load dbUser.AuthData = some (go "abc") ∧
    heap.load oauthUser.AuthData = some (go "abc") ∧
    IsSameUser dbUser oauthUser = false ∧
    IsSameUser dbUser dbUser = true := by
  decide

/-- C3: `IsValid` returns an error exactly when `Sub` is empty or `Email` is empty, and its
outcome is the same whatever the six other fields hold. -/
theorem IsValid_error_iff (sub email : GoString) (verified : Bool)
    (name preferred given family nick : GoString) :
    ((OpenIDUser.IsValid ⟨sub, email, verified, name, preferred, given, family, nick⟩).isSome
        = true ↔ (sub = [] ∨ email = [])) ∧
    OpenIDUser.IsValid ⟨sub, email, verified, name, preferred, given, family, nick⟩
      = OpenIDUser.IsValid ⟨sub, email, false, [], [], [], [], []⟩ := by
  unfold OpenIDUser.IsValid
  by_cases h1 : sub = [] <;> by_cases h2 : email = [] <;> simp [h1, h2]

/-- C4: `userFromOpenIDUser` returns a user whose `AuthData` points to a cell holding `u.Sub`
unchanged, whose `AuthService` is `model.ServiceOpenid` and whose `Email` is
`strings.ToLower` of `u.Email`. -/
theorem userFromOpenIDUser_auth_fields {σ : Type} (env : Env σ) (st : σ) (h : Heap)
    (u : OpenIDUser) (settings : Option SSOSettings) :
    ∃ user h' st', userFromOpenIDUser env st h u settings = some (user, h', st') ∧
      h'.load user.AuthData = some u.Sub ∧
      user.AuthService = env.ServiceOpenid ∧
      user.Email = env.ToLower u.Email := by
  rw [userFromOpenIDUser_eq]
  obtain ⟨r, hr⟩ := nameFallback_total u (withNames env st u settings)
  refine ⟨_, _, _, by rw [hr]; rfl, ?_, rfl, rfl⟩
  simp [withAuth, Heap.load]

/-- C6: when the given name and the family name are empty and the full name is not,
`userFromOpenIDUser` returns a user whose names come from the pieces of the full name between
its spaces: one piece is the first name and the last name stays empty; two pieces are the
first and the last name; with three or more the first piece is the first name and the others,
joined by single spaces, are the last name. -/
theorem userFromOpenIDUser_name_fallback {σ : Type} (env : Env σ) (st : σ) (h : Heap)
    (u : OpenIDUser) (settings : Option SSOSettings)
    (hg : u.GivenName = []) (hf : u.FamilyName = []) (hn : u.Name ≠ []) :
    ∃ user h' st', userFromOpenIDUser env st h u settings = some (user, h', st') ∧
      (∀ t, strings.Split u.Name 32 = [t] → user.FirstName = t ∧ user.LastName = []) ∧
      (∀ t0 t1, strings.Split u.Name 32 = [t0, t1] →
        user.FirstName = t0 ∧ user.LastName = t1) ∧
      (∀ t0 t1 t2 ts, strings.Split u.Name 32 = t0 :: t1 :: t2 :: ts →
        user.FirstName = t0 ∧ user.LastName = strings.Join (t1 :: t2 :: ts) [32]) := by
  rw [userFromOpenIDUser_eq]
  obtain ⟨r, hr⟩ := nameFallback_total u (withNames env st u settings)
  have e1 : (withNames env st u settings).FirstName = [] := hg
  have e2 : (withNames env st u settings).LastName = [] := hf
  refine ⟨_, _, _, by rw [hr]; rfl, ?_, ?_, ?_⟩
  · intro t hs
    rw [nameFallback_one u _ t e1 e2 hn hs] at hr
    cases hr
    exact ⟨rfl, hf⟩
  · intro t0 t1 hs
    rw [nameFallback_two u _ t0 t1 e1 e2 hn hs] at hr
    cases hr
    exact ⟨rfl, rfl⟩
  · intro t0 t1 t2 ts hs
    rw [nameFallback_many u _ t0 t1 t2 ts e1 e2 hn hs] at hr
    cases hr
    exact ⟨rfl, rfl⟩

/-- C6 at the full name `John Middle Paul Doe` with no given and no family name: the first
name is `John` and the last name is `Middle Paul Doe`. -/
theorem userFromOpenIDUser_name_fallback_witness :
    (userFromOpenIDUser testEnv 0 { cells := [] }
        { OpenIDUser.zero with Sub := go "s", Email := go "j@x.io",
                               Name := go "John Middle Paul Doe" } none).map
      (fun r => (r.1.FirstName, r.1.LastName))
      = some (go "John", go "Middle Paul Doe") := by
  obtain ⟨user, h', st', he, -, -, h3⟩ :=
    userFromOpenIDUser_name_fallback testEnv 0 { cells := [] }
      { OpenIDUser.zero with Sub := go "s", Email := go "j@x.io",
                             Name := go "John Middle Paul Doe" } none
      (by decide) (by decide) (by decide)
  rw [he]
  have h4 := h3 (go "John") (go "Middle") (go "Paul") [go "Doe"] (by decide)
  simp only [Option.map_some', h4.1, h4.2]
  decide

/-- C7: when the given name or the family name is non-empty the full name is not used:
`userFromOpenIDUser` returns a user whose first name is `u.GivenName` and whose last name is
`u.FamilyName`, whatever `u.Name` is. -/
theorem userFromOpenIDUser_given_family {σ : Type} (env : Env σ) (st : σ) (h : Heap)
    (u : OpenIDUser) (settings : Option SSOSettings)
    (hgf : u.GivenName ≠ [] ∨ u.FamilyName ≠ []) :
    ∃ user h' st', userFromOpenIDUser env st h u settings = some (user, h', st') ∧
      user.FirstName = u.GivenName ∧ user.LastName = u.FamilyName := by
  rw [userFromOpenIDUser_eq, nameFallback_skipped u (withNames env st u settings) hgf]
  exact ⟨_, _, _, rfl, rfl, rfl⟩

/-- C7 at given name `Jo`, empty family name and the full name `Jo Ann Van Der Berg`: the
first name is `Jo` and the last name is empty. -/
theorem userFromOpenIDUser_given_family_witness :
    (userFromOpenIDUser testEnv 0 { cells := [] }
        { OpenIDUser.zero with Sub := go "s", Email := go "j@x.io", GivenName := go "Jo",
                               Name := go "Jo Ann Van Der Berg" } none).map
      (fun r => (r.1.FirstName, r.1.LastName))
      = some (go "Jo", []) := by
  obtain ⟨user, h', st', he, h1, h2⟩ :=
    userFromOpenIDUser_given_family testEnv 0 { cells := [] }
      { OpenIDUser.zero with Sub := go "s", Email := go "j@x.io", GivenName := go "Jo",
                             Name := go "Jo Ann Van Der Berg" } none
      (Or.inl (by decide))
  rw [he]
  simp only [Option.map_some', h1, h2]
  decide

/-- C8 as stated fails: the user with empty `Sub` and empty `Email` has an empty email, and
`IsValid` reports the missing-subject error for it, not the missing-email error. -/
theorem IsValid_empty_email_counterexample :
    OpenIDUser.zero.Email = [] ∧
    OpenIDUser.zero.IsValid
      = some (GoError.errorsNew (go "user sub (subject) cannot be empty")) ∧
    OpenIDUser.zero.IsValid
      ≠ some (GoError.errorsNew (go "user email should not be empty")) := by
  decide

/-- C8, amended: for every user with empty `Sub`, whatever its other fields (`Email`
included), `IsValid` fails with the missing-subject error; for every user with non-empty `Sub`
and empty `Email`, whatever its other fields, it fails with the missing-email error; and the
two errors are distinct. -/
theorem IsValid_which_error (b : Nat) (sub email : GoString) (verified : Bool)
    (name preferred given family nick : GoString) :
    OpenIDUser.IsValid ⟨[], email, verified, name, preferred, given, family, nick⟩
      = some (GoError.errorsNew (go "user sub (subject) cannot be empty")) ∧
    OpenIDUser.IsValid ⟨b :: sub, [], verified, name, preferred, given, family, nick⟩
      = some (GoError.errorsNew (go "user email should not be empty")) ∧
    GoError.errorsNew (go "user sub (subject) cannot be empty")
      ≠ GoError.errorsNew (go "user email should not be empty") := by
  refine ⟨by simp [OpenIDUser.IsValid], by simp [OpenIDUser.IsValid], by decide⟩

/-- C9 as stated fails for the username: two userinfos that differ only in `EmailVerified`
and pass `IsValid`, mapped one after the other with the same settings by a sanitizer that
answers an invalid candidate with a fresh username, get two different usernames. -/
theorem EmailVerified_username_counterexample :
    atEmail.IsValid = none ∧
    ({ atEmail with EmailVerified := true } : OpenIDUser).IsValid = none ∧
    ∃ user1 h1 st1 user2 h2 st2,
      userFromOpenIDUser testEnv 0 { cells := [] } atEmail none = some (user1, h1, st1) ∧
      userFromOpenIDUser testEnv st1 h1 { atEmail with EmailVerified := true } none
        = some (user2, h2, st2) ∧
      user1.Username = testId 0 ∧ user2.Username = testId 1 ∧
      user1.Username ≠ user2.Username :=
  ⟨by decide, by decide, _, _, _, _, _, _, by rfl, by rfl, by decide, by decide, by decide⟩

/-- C9, amended: changing only `EmailVerified` changes neither the outcome of `IsValid` nor
the candidate handed to the sanitizer. Two calls of `userFromOpenIDUser` with the same
settings on two userinfos that differ only in `EmailVerified`, in any two states and on any
two heaps, both return; the two users agree in the first name, the last name, the email and
the provider tag, the `AuthData` of each points to the subject, and each username is what the
sanitizer returns at its call for the one candidate. Run in the same state and on the same
heap, the two calls return the same. -/
theorem EmailVerified_not_enforced {σ : Type} (env : Env σ) (st1 st2 : σ) (h1 h2 : Heap)
    (u : OpenIDUser) (verified : Bool) (settings : Option SSOSettings) :
    OpenIDUser.IsValid { u with EmailVerified := verified } = u.IsValid ∧
    usernameCandidate { u with EmailVerified := verified } settings
      = usernameCandidate u settings ∧
    (∃ user1 h1' st1' user2 h2' st2',
      userFromOpenIDUser env st1 h1 u settings = some (user1, h1', st1') ∧
      userFromOpenIDUser env st2 h2 { u with EmailVerified := verified } settings
        = some (user2, h2', st2') ∧
      user1.FirstName = user2.FirstName ∧ user1.LastName = user2.LastName ∧
      user1.Email = user2.Email ∧ user1.AuthService = user2.AuthService ∧
      h1'.load user1.AuthData = some u.Sub ∧ h2'.load user2.AuthData = some u.Sub ∧
      (user1.Username, st1') = env.CleanUsername st1 (specUsername u settings) ∧
      (user2.Username, st2') = env.CleanUsername st2 (specUsername u settings)) ∧
    userFromOpenIDUser env st1 h1 { u with EmailVerified := verified } settings
      = userFromOpenIDUser env st1 h1 u settings :=
  ⟨rfl, rfl,
    userFromOpenIDUser_agree env st1 st2 h1 h2 u { u with EmailVerified := verified }
      settings settings rfl rfl rfl rfl rfl, rfl⟩

/-- C5: `GetUserFromJSON` decodes, validates and maps in this order and stops at the first
failure. When decoding fails it returns no user and the error of the decoder; when `IsValid`
fails on the decoded value it returns no user and that error; when the decoded value has a
non-empty `Sub` and a non-empty `Email` it returns a nil error with the user that
`userFromOpenIDUser` builds from the decoded value and the settings. It always returns, and
never a user together with an error. -/
theorem GetUserFromJSON_short_circuit {σ : Type} (env : Env σ) (st : σ) (h : Heap)
    (data : GoString) (tokenUser : Option User) (settings : Option SSOSettings) :
    (∀ e, openIDUserFromJSON data = .error e →
      GetUserFromJSON env st h data tokenUser settings = some ((none, some e), h, st)) ∧
    (∀ o e, openIDUserFromJSON data = .ok o → o.IsValid = some e →
      GetUserFromJSON env st h data tokenUser settings = some ((none, some e), h, st)) ∧
    (∀ o, openIDUserFromJSON data = .ok o → o.Sub ≠ [] → o.Email ≠ [] →
      ∃ user h' st', userFromOpenIDUser env st h o settings = some (user, h', st') ∧
        GetUserFromJSON env st h data tokenUser settings
          = some ((some user, none), h', st')) ∧
    (∃ r, GetUserFromJSON env st h data tokenUser settings = some r ∧
      (r.1.1 = none ∨ r.1.2 = none)) := by
  have p1 : ∀ e, openIDUserFromJSON data = .error e →
      GetUserFromJSON env st h data tokenUser settings = some ((none, some e), h, st) := by
    intro e he
    simp [GetUserFromJSON, he]
  have p2 : ∀ o e, openIDUserFromJSON data = .ok o → o.IsValid = some e →
      GetUserFromJSON env st h data tokenUser settings = some ((none, some e), h, st) := by
    intro o e ho hv
    simp [GetUserFromJSON, ho, hv]
  have p3 : ∀ o, openIDUserFromJSON data = .ok o → o.IsValid = none →
      ∃ user h' st', userFromOpenIDUser env st h o settings = some (user, h', st') ∧
        GetUserFromJSON env st h data tokenUser settings
          = some ((some user, none), h', st') := by
    intro o ho hv
    obtain ⟨user, h', st', hu, -⟩ := userFromOpenIDUser_total env st h o settings
    refine ⟨user, h', st', hu, ?_⟩
    simp [GetUserFromJSON, ho, hv, hu]
  refine ⟨p1, p2, ?_, ?_⟩
  · intro o ho h1 h2
    exact p3 o ho (by simp [OpenIDUser.IsValid, h1, h2])
  · cases ho : openIDUserFromJSON data with
    | error e => exact ⟨_, p1 e ho, Or.inl rfl⟩
    | ok o =>
      cases hv : o.IsValid with
      | some e => exact ⟨_, p2 o e ho hv, Or.inl rfl⟩
      | none =>
        obtain ⟨user, h', st', -, hg⟩ := p3 o ho hv
        exact ⟨_, hg, Or.inr rfl⟩

/-- C5 on three inputs: a truncated object gives the error of the decoder, an object with no
`email` gives the validation error, and a complete object gives the mapped user with a nil
error. -/
theorem GetUserFromJSON_short_circuit_witness :
    GetUserFromJSON testEnv 0 { cells := [] } (go "\x7b\"sub\":\"x\"") none none
      = some ((none, some GoError.decodeSyntax), { cells := [] }, 0) ∧
    GetUserFromJSON testEnv 0 { cells := [] } (go "\x7b\"sub\":\"x\"\x7d") none none
      = some ((none, some (GoError.errorsNew (go "user email should not be empty"))),
          { cells := [] }, 0) ∧
    ∃ user h' st', userFromOpenIDUser testEnv 0 { cells := [] }
        { OpenIDUser.zero with Sub := go "x", Email := go "e@x.y" } none
          = some (user, h', st') ∧
      GetUserFromJSON testEnv 0 { cells := [] }
        (go "\x7b\"sub\":\"x\",\"email\":\"e@x.y\"\x7d") none none
          = some ((some user, none), h', st') :=
  ⟨(GetUserFromJSON_short_circuit testEnv 0 { cells := [] } (go "\x7b\"sub\":\"x\"") none
      none).1 GoError.decodeSyntax (by rfl),
   (GetUserFromJSON_short_circuit testEnv 0 { cells := [] } (go "\x7b\"sub\":\"x\"\x7d") none
      none).2.1 { OpenIDUser.zero with Sub := go "x" } _ (by rfl) (by rfl),
   (GetUserFromJSON_short_circuit testEnv 0 { cells := [] }
      (go "\x7b\"sub\":\"x\",\"email\":\"e@x.y\"\x7d") none none).2.2.1
      { OpenIDUser.zero with Sub := go "x", Email := go "e@x.y" } (by rfl) (by decide)
      (by decide)⟩

/-- C10 as stated fails: the value whose `Sub` is the single byte `0xFF`, which begins no
well-formed UTF-8 sequence, is written with the escape of U+FFFD and read back with `Sub`
equal to the three bytes of U+FFFD, a value different from the one written. -/
theorem openIDUserFromJSON_Marshal_counterexample :
    openIDUserFromJSON (json.Marshal { OpenIDUser.zero with Sub := [0xFF] })
      = .ok { OpenIDUser.zero with Sub := [0xEF, 0xBF, 0xBD] } ∧
    ({ OpenIDUser.zero with Sub := [0xEF, 0xBF, 0xBD] } : OpenIDUser)
      ≠ { OpenIDUser.zero with Sub := [0xFF] } :=
  ⟨by rfl, by decide⟩

/-- C10, amended: for every `OpenIDUser` value whose seven strings are well-formed UTF-8 (and
any boolean in `EmailVerified`), decoding the text that `json.Marshal` writes for it with
`openIDUserFromJSON` succeeds and yields the value itself. -/
theorem openIDUserFromJSON_Marshal (v : OpenIDUser)
    (h1 : utf8.ValidString v.Sub = true) (h2 : utf8.ValidString v.Email = true)
    (h3 : utf8.ValidString v.Name = true) (h4 : utf8.ValidString v.PreferredUsername = true)
    (h5 : utf8.ValidString v.GivenName = true) (h6 : utf8.ValidString v.FamilyName = true)
    (h7 : utf8.ValidString v.Nickname = true) :
    openIDUserFromJSON (json.Marshal v) = .ok v := by
  unfold openIDUserFromJSON
  rw [Decode_Marshal v OpenIDUser.zero h1 h2 h3 h4 h5 h6 h7]

/-- C10, amended, on a value with escapes and with sequences of two, three and four bytes:
a quote and a line feed in `Sub`, `é` in `Name`, U+2028 in `GivenName` and U+1F600 in
`Nickname`. -/
theorem openIDUserFromJSON_Marshal_witness :
    openIDUserFromJSON (json.Marshal
        { Sub := [0x61, 0x22, 0x0A], Email := go "A@b.c", EmailVerified := true,
          Name := [0x52, 0xC3, 0xA9], PreferredUsername := go "<r&b>",
          GivenName := [0xE2, 0x80, 0xA8], FamilyName := [],
          Nickname := [0xF0, 0x9F, 0x98, 0x80] })
      = .ok { Sub := [0x61, 0x22, 0x0A], Email := go "A@b.c", EmailVerified := true,
              Name := [0x52, 0xC3, 0xA9], PreferredUsername := go "<r&b>",
              GivenName := [0xE2, 0x80, 0xA8], FamilyName := [],
              Nickname := [0xF0, 0x9F, 0x98, 0x80] } :=
  openIDUserFromJSON_Marshal _ (by decide) (by decide) (by decide) (by decide) (by decide)
    (by decide) (by decide)

/-- C13 as stated fails: the error of `IsValid` for an empty `Sub` does not have the message
`missing subject`, and the one for a non-empty `Sub` with an empty `Email` does not have the
message `missing email`. -/
theorem IsValid_message_counterexample :
    OpenIDUser.zero.IsValid.bind GoError.Error ≠ some (go "missing subject") ∧
    (OpenIDUser.IsValid { OpenIDUser.zero with Sub := go "s" }).bind GoError.Error
      ≠ some (go "missing email") := by
  decide

/-- C13, amended: for every user with empty `Sub` the error of `IsValid` has the message
`user sub (subject) cannot be empty`, and for every user with non-empty `Sub` and empty
`Email` it has the message `user email should not be empty`. -/
theorem IsValid_message (b : Nat) (sub email : GoString) (verified : Bool)
    (name preferred given family nick : GoString) :
    (OpenIDUser.IsValid ⟨[], email, verified, name, preferred, given, family, nick⟩).bind
        GoError.Error = some (go "user sub (subject) cannot be empty") ∧
    (OpenIDUser.IsValid ⟨b :: sub, [], verified, name, preferred, given, family, nick⟩).bind
        GoError.Error = some (go "user email should not be empty") := by
  constructor <;> simp [OpenIDUser.IsValid, GoError.Error]

/-- C14: `GetUserFromIdToken` returns a nil user and a nil error for every token, the empty
one included. -/
theorem GetUserFromIdToken_nil (idToken : GoString) :
    GetUserFromIdToken idToken = (none, none) ∧ GetUserFromIdToken [] = (none, none) :=
  ⟨rfl, rfl⟩

/-- C15, on the code: two users built by `userFromOpenIDUser` one after the other point to
two different cells, so `IsSameUser` returns false on them whatever the two subjects are,
also when the two cells hold the same subject. -/
theorem IsSameUser_after_mapping {σ : Type} (env : Env σ) (st : σ) (h : Heap)
    (u1 u2 : OpenIDUser) (s1 s2 : Option SSOSettings) :
    ∃ user1 h1 st1 user2 h2 st2,
      userFromOpenIDUser env st h u1 s1 = some (user1, h1, st1) ∧
      userFromOpenIDUser env st1 h1 u2 s2 = some (user2, h2, st2) ∧
      h2.load user1.AuthData = some u1.Sub ∧
      h2.load user2.AuthData = some u2.Sub ∧
      IsSameUser user1 user2 = false := by
  obtain ⟨r1, hr1⟩ := nameFallback_total u1 (withNames env st u1 s1)
  obtain ⟨r2, hr2⟩ :=
    nameFallback_total u2 (withNames env (withAuth env st h u1 s1 r1).2.2 u2 s2)
  refine ⟨(withAuth env st h u1 s1 r1).1, (withAuth env st h u1 s1 r1).2.1,
    (withAuth env st h u1 s1 r1).2.2,
    (withAuth env (withAuth env st h u1 s1 r1).2.2 (withAuth env st h u1 s1 r1).2.1 u2 s2
      r2).1,
    (withAuth env (withAuth env st h u1 s1 r1).2.2 (withAuth env st h u1 s1 r1).2.1 u2 s2
      r2).2.1,
    (withAuth env (withAuth env st h u1 s1 r1).2.2 (withAuth env st h u1 s1 r1).2.1 u2 s2
      r2).2.2, ?_, ?_, ?_, ?_, ?_⟩
  · rw [userFromOpenIDUser_eq, hr1]; rfl
  · rw [userFromOpenIDUser_eq, hr2]; rfl
  · exact (getElem?_two_cells h.cells u1.Sub u2.Sub).1
  · have := (getElem?_two_cells h.cells u1.Sub u2.Sub).2
    simpa [withAuth, Heap.load] using this
  · simp [withAuth, IsSameUser]

/-- C16 as stated fails for the returned user: the same userinfo, which passes `IsValid`,
mapped once with nil settings and once with the flag false by a sanitizer that answers an
invalid candidate with a fresh username, gives two users with different usernames. -/
theorem userFromOpenIDUser_flag_counterexample :
    atEmail.IsValid = none ∧
    ∃ user1 h1 st1 user2 h2 st2,
      userFromOpenIDUser testEnv 0 { cells := [] } atEmail none = some (user1, h1, st1) ∧
      userFromOpenIDUser testEnv st1 h1 atEmail (some ⟨some false⟩) = some (user2, h2, st2) ∧
      user1.Username ≠ user2.Username :=
  ⟨by decide, _, _, _, _, _, _, by rfl, by rfl, by decide⟩

/-- C16, amended: nil settings, settings whose flag pointer is nil and settings whose flag is
false behave alike. Run in the same state and on the same heap, `userFromOpenIDUser` returns
the same for the three. In any two states and on any two heaps, the call with nil settings and
the call with settings `s` that are one of the other two both return, the two users agree in
the first name, the last name, the email and the provider tag, the `AuthData` of each points
to the subject, and each username is what the sanitizer returns at its call for the one
candidate, that of nil settings. In all three a non-empty nickname wins over the preferred
username: the returned username is what the sanitizer returns for the nickname. With
preferred username `alice@x.com` and nickname `bob` it is what the sanitizer returns for
`bob` in the three cases, and for `alice` with the flag set to true. -/
theorem userFromOpenIDUser_flag_absent_or_false {σ : Type} (env : Env σ) (st1 st2 : σ)
    (h1 h2 : Heap) (u : OpenIDUser) (b : Nat) (nick : GoString) :
    userFromOpenIDUser env st1 h1 u (some ⟨none⟩) = userFromOpenIDUser env st1 h1 u none ∧
    userFromOpenIDUser env st1 h1 u (some ⟨some false⟩)
      = userFromOpenIDUser env st1 h1 u none ∧
    (∀ s ∈ [some (⟨none⟩ : SSOSettings), some ⟨some false⟩],
      ∃ user1 h1' st1' user2 h2' st2',
        userFromOpenIDUser env st1 h1 u none = some (user1, h1', st1') ∧
        userFromOpenIDUser env st2 h2 u s = some (user2, h2', st2') ∧
        user1.FirstName = user2.FirstName ∧ user1.LastName = user2.LastName ∧
        user1.Email = user2.Email ∧ user1.AuthService = user2.AuthService ∧
        h1'.load user1.AuthData = some u.Sub ∧ h2'.load user2.AuthData = some u.Sub ∧
        (user1.Username, st1') = env.CleanUsername st1 (specUsername u none) ∧
        (user2.Username, st2') = env.CleanUsername st2 (specUsername u none)) ∧
    (∀ s ∈ [none, some (⟨none⟩ : SSOSettings), some ⟨some false⟩],
      usernameCandidate { u with Nickname := b :: nick } s = some (b :: nick) ∧
      ∃ user h' st',
        userFromOpenIDUser env st1 h1 { u with Nickname := b :: nick } s
          = some (user, h', st') ∧
        (user.Username, st') = env.CleanUsername st1 (b :: nick)) ∧
    (∀ s ∈ [none, some (⟨none⟩ : SSOSettings), some ⟨some false⟩],
      usernameCandidate aliceBob s = some (go "bob") ∧
      ∃ user h' st', userFromOpenIDUser env st1 h1 aliceBob s = some (user, h', st') ∧
        (user.Username, st') = env.CleanUsername st1 (go "bob")) ∧
    usernameCandidate aliceBob (some ⟨some true⟩) = some (go "alice") ∧
    ∃ user h' st',
      userFromOpenIDUser env st1 h1 aliceBob (some ⟨some true⟩) = some (user, h', st') ∧
      (user.Username, st') = env.CleanUsername st1 (go "alice") := by
  have key : ∀ (v : OpenIDUser) (s : Option SSOSettings) (c : GoString),
      specUsername v s = c →
      usernameCandidate v s = some c ∧
      ∃ user h' st', userFromOpenIDUser env st1 h1 v s = some (user, h', st') ∧
        (user.Username, st') = env.CleanUsername st1 c := by
    intro v s c hc
    rw [← hc]
    exact ⟨usernameCandidate_eq_spec v s, userFromOpenIDUser_Username env st1 h1 v s⟩
  refine ⟨rfl, rfl, ?_, ?_, ?_, (key aliceBob _ _ (by decide)).1,
    (key aliceBob _ _ (by decide)).2⟩
  · intro s hs
    have hspec : specUsername u s = specUsername u none := by
      simp only [List.mem_cons, List.mem_singleton, List.not_mem_nil, or_false] at hs
      rcases hs with rfl | rfl <;> rfl
    have := userFromOpenIDUser_agree env st1 st2 h1 h2 u u none s rfl rfl rfl rfl rfl
    rw [hspec] at this
    exact this
  · intro s hs
    apply key
    simp only [List.mem_cons, List.mem_singleton, List.not_mem_nil, or_false] at hs
    rcases hs with rfl | rfl | rfl <;> simp [specUsername, flagEnabled]
  · intro s hs
    apply key
    simp only [List.mem_cons, List.mem_singleton, List.not_mem_nil, or_false] at hs
    rcases hs with rfl | rfl | rfl <;> decide

/-- C16, amended, with the test sanitizer: for preferred username `alice@x.com` and nickname
`bob` the returned username is `bob` with the flag false and `alice` with the flag true. -/
theorem userFromOpenIDUser_flag_absent_or_false_witness :
    (userFromOpenIDUser testEnv 0 { cells := [] } aliceBob (some ⟨some false⟩)).map
      (fun r => r.1.Username) = some (go "bob") ∧
    (userFromOpenIDUser testEnv 0 { cells := [] } aliceBob (some ⟨some true⟩)).map
      (fun r => r.1.Username) = some (go "alice") := by
  have hw := userFromOpenIDUser_flag_absent_or_false testEnv 0 0 { cells := [] }
    { cells := [] } aliceBob 0x62 []
  obtain ⟨-, user, h', st', hu, hn⟩ := hw.2.2.2.2.1 (some ⟨some false⟩) (by simp)
  obtain ⟨user2, h2', st2', hu2, hn2⟩ := hw.2.2.2.2.2.2
  rw [hu, hu2]
  simp only [Option.map_some']
  have e1 : user.Username = go "bob" := by
    have := congrArg Prod.fst hn
    simpa [testEnv] using this
  have e2 : user2.Username = go "alice" := by
    have := congrArg Prod.fst hn2
    simpa [testEnv] using this
  rw [e1, e2]
  exact ⟨rfl, rfl⟩

/-- C19: the rule is chosen by the source field and not by the candidate. A user that passes
`IsValid`, with preferred username `@corp`, the flag enabled and the nickname `bob`, gets
the empty candidate, and so does a user that passes `IsValid` with the email `@corp.io` and
neither nickname nor preferred username; the returned username is what the sanitizer returns
for the empty string. -/
theorem usernameCandidate_empty {σ : Type} (env : Env σ) (st : σ) (h : Heap) :
    atPreferred.IsValid = none ∧ atPreferred.Nickname ≠ [] ∧
    usernameCandidate atPreferred (some ⟨some true⟩) = some [] ∧
    atEmail.IsValid = none ∧ usernameCandidate atEmail none = some [] ∧
    (userFromOpenIDUser env st h atPreferred (some ⟨some true⟩)).map (fun r => r.1.Username)
      = some (env.CleanUsername st []).1 ∧
    (userFromOpenIDUser env st h atEmail none).map (fun r => r.1.Username)
      = some (env.CleanUsername st []).1 := by
  refine ⟨by decide, by decide, by decide, by decide, by decide, ?_, ?_⟩
  · obtain ⟨user, h', st', hu, hn⟩ :=
      userFromOpenIDUser_Username env st h atPreferred (some ⟨some true⟩)
    rw [hu]
    simp only [Option.map_some']
    rw [show user.Username = (user.Username, st').1 from rfl, hn]
    rfl
  · obtain ⟨user, h', st', hu, hn⟩ := userFromOpenIDUser_Username env st h atEmail none
    rw [hu]
    simp only [Option.map_some']
    rw [show user.Username = (user.Username, st').1 from rfl, hn]
    rfl

/-- C17: when the given name and the family name are empty and the full name is not, the
names that `userFromOpenIDUser` returns lose nothing of the full name: if the full name has
a space, the first name has none and the first name, one space and the last name make the
full name; if it has no space, the first name is the full name and the last name is empty. -/
theorem userFromOpenIDUser_name_lossless {σ : Type} (env : Env σ) (st : σ) (h : Heap)
    (u : OpenIDUser) (settings : Option SSOSettings)
    (hg : u.GivenName = []) (hf : u.FamilyName = []) (hn : u.Name ≠ []) :
    ∃ user h' st', userFromOpenIDUser env st h u settings = some (user, h', st') ∧
      (32 ∈ u.Name →
        32 ∉ user.FirstName ∧ user.FirstName ++ [32] ++ user.LastName = u.Name) ∧
      (32 ∉ u.Name → user.FirstName = u.Name ∧ user.LastName = []) := by
  rw [userFromOpenIDUser_eq]
  have e1 : (withNames env st u settings).FirstName = [] := hg
  have e2 : (withNames env st u settings).LastName = [] := hf
  by_cases hmem : 32 ∈ u.Name
  · obtain ⟨t0, t1, ts, hs⟩ := Split_of_mem u.Name 32 hmem
    have hno := Split_first_no_sep u.Name t0 (t1 :: ts) 32 hs
    have hj := Join_Split u.Name 32
    rw [hs, Join_cons_cons] at hj
    cases ts with
    | nil =>
      rw [nameFallback_two u _ t0 t1 e1 e2 hn hs]
      refine ⟨_, _, _, rfl, fun _ => ⟨hno, ?_⟩, fun hc => absurd hmem hc⟩
      simpa [withAuth, strings.Join] using hj
    | cons t2 ts2 =>
      rw [nameFallback_many u _ t0 t1 t2 ts2 e1 e2 hn hs]
      exact ⟨_, _, _, rfl, fun _ => ⟨hno, hj⟩, fun hc => absurd hmem hc⟩
  · have hs := Split_of_not_mem u.Name 32 hmem
    rw [nameFallback_one u _ u.Name e1 e2 hn hs]
    exact ⟨_, _, _, rfl, fun hc => absurd hc hmem, fun _ => ⟨rfl, hf⟩⟩

/-- C17 on the full name `Mary  Ann` with two spaces in a row: the first name is `Mary`, the
last name is ` Ann` with its leading space, and the two with one space between them are the
full name again. -/
theorem userFromOpenIDUser_name_lossless_witness :
    ∃ user h' st', userFromOpenIDUser testEnv 0 { cells := [] }
        { OpenIDUser.zero with Sub := go "s", Email := go "m@x.io", Name := go "Mary  Ann" }
        none = some (user, h', st') ∧
      32 ∉ user.FirstName ∧ user.FirstName ++ [32] ++ user.LastName = go "Mary  Ann" := by
  obtain ⟨user, h', st', hu, h1, -⟩ :=
    userFromOpenIDUser_name_lossless testEnv 0 { cells := [] }
      { OpenIDUser.zero with Sub := go "s", Email := go "m@x.io", Name := go "Mary  Ann" }
      none (by decide) (by decide) (by decide)
  exact ⟨user, h', st', hu, h1 (by decide)⟩

/-- C18: `userFromOpenIDUser` returns on every userinfo and every settings value. A split of
any string, the empty one included, has at least one piece, so the index 0 is in range; with
exactly two pieces the index 1 is in range and with two or more the slice from 1 is. The
first piece of a split at `@` is the longest prefix of the string without `@`, and it is the
username candidate whenever the nickname is not taken: from the preferred username when that
is non-empty and the flag is enabled or the nickname is empty, from the email when both the
nickname and the preferred username are empty. -/
theorem userFromOpenIDUser_never_panics {σ : Type} (env : Env σ) (st : σ) (h : Heap)
    (u : OpenIDUser) (settings : Option SSOSettings) (s : GoString) (sep : Nat) :
    (∃ r, userFromOpenIDUser env st h u settings = some r) ∧
    1 ≤ (strings.Split s sep).length ∧
    (∃ t, index (strings.Split s sep) 0 = some t) ∧
    ((strings.Split s sep).length = 2 → ∃ t, index (strings.Split s sep) 1 = some t) ∧
    (2 ≤ (strings.Split s sep).length → ∃ ts, sliceFrom (strings.Split s sep) 1 = some ts) ∧
    index (strings.Split s 64) 0 = some (beforeFirstAt s) ∧
    beforeFirstAt s <+: s ∧ 64 ∉ beforeFirstAt s ∧
    (∀ q : GoString, q <+: s → 64 ∉ q → q <+: beforeFirstAt s) ∧
    (flagEnabled settings = true → u.PreferredUsername ≠ [] →
      usernameCandidate u settings = some (beforeFirstAt u.PreferredUsername)) ∧
    (u.Nickname = [] → u.PreferredUsername ≠ [] →
      usernameCandidate u settings = some (beforeFirstAt u.PreferredUsername)) ∧
    (u.Nickname = [] → u.PreferredUsername = [] →
      usernameCandidate u settings = some (beforeFirstAt u.Email)) := by
  have hpos := Split_length_pos s sep
  refine ⟨?_, hpos, ⟨_, Split_head s sep⟩, ?_, ?_, Split_head s 64, ?_,
    takeWhile_no_sep s 64, fun q hq hs => takeWhile_longest s q 64 hq hs, ?_, ?_, ?_⟩
  · obtain ⟨user, h', st', hu, -⟩ := userFromOpenIDUser_total env st h u settings
    exact ⟨_, hu⟩
  · intro h2
    have hlt : 1 < (strings.Split s sep).length := by omega
    exact ⟨(strings.Split s sep)[1], by simp [index, List.getElem?_eq_getElem hlt]⟩
  · intro h2
    exact ⟨(strings.Split s sep).drop 1, by unfold sliceFrom; rw [if_pos (by omega)]⟩
  · exact List.takeWhile_prefix _
  · intro hfl hp
    rw [usernameCandidate_eq_spec]
    simp [specUsername, hfl, hp]
  · intro hnk hp
    rw [usernameCandidate_eq_spec]
    simp [specUsername, hnk, hp]
  · intro hnk hp
    rw [usernameCandidate_eq_spec]
    simp [specUsername, hnk, hp]

/-- C18 on a userinfo with the preferred username `alice@x.com@y` and no nickname, and on
the split of `a@b@c` at `@`: the call returns, the split has three pieces, and the candidate
is `alice`, the part before the first `@`. -/
theorem userFromOpenIDUser_never_panics_witness :
    (∃ r, userFromOpenIDUser testEnv 0 { cells := [] }
        { OpenIDUser.zero with PreferredUsername := go "alice@x.com@y" } none = some r) ∧
    (strings.Split (go "a@b@c") 64).length = 3 ∧
    usernameCandidate { OpenIDUser.zero with PreferredUsername := go "alice@x.com@y" } none
      = some (go "alice") := by
  have hw := userFromOpenIDUser_never_panics testEnv 0 { cells := [] }
    { OpenIDUser.zero with PreferredUsername := go "alice@x.com@y" } none (go "a@b@c") 64
  refine ⟨hw.1, by decide, ?_⟩
  rw [hw.2.2.2.2.2.2.2.2.2.2.1 (by decide) (by decide)]
  decide


/-- C11 as stated fails on two of its inputs. A complete object followed by bytes that are
not JSON is decoded without an error, and `GetUserFromJSON` produces a user from it. And an
object that gives `null`, which is neither a string nor a boolean, for listed fields is
decoded without an error: the fields keep their values. -/
theorem openIDUserFromJSON_accepts_counterexample :
    openIDUserFromJSON (go "\x7b\"sub\":\"a\",\"email\":\"b\"\x7dxyz")
      = .ok { OpenIDUser.zero with Sub := go "a", Email := go "b" } ∧
    (GetUserFromJSON testEnv 0 { cells := [] }
        (go "\x7b\"sub\":\"a\",\"email\":\"b\"\x7dxyz") none none).map
      (fun r => (r.1.1.isSome, r.1.2)) = some (true, none) ∧
    openIDUserFromJSON (go "\x7b\"sub\":null,\"email_verified\":null\x7d")
      = .ok OpenIDUser.zero ∧
    openIDUserFromJSON (go "\x7b\"sub\":\"a\",\"sub\":null\x7d")
      = .ok { OpenIDUser.zero with Sub := go "a" } :=
  ⟨by rfl, by rfl, by rfl, by rfl⟩

/-- C11, amended: `openIDUserFromJSON` fails with an error and no value for every input that
does not begin with a well-formed JSON value by the grammar of RFC 8259, and for every input
object in which a member whose key equals the name of a field under case folding has a value
of the wrong type for that field (`null` is not counted): an object as the encoder writes it,
followed by any bytes, and any input that begins with an object whose members the decoder's
grammar reads. Whenever it fails, `GetUserFromJSON` returns no user and that error, and
leaves the heap and the state of the sanitizer as they are. The bytes after the first value
are not read: the text that `json.Marshal` writes for a value with well-formed strings,
followed by any bytes, is decoded to the value. -/
theorem openIDUserFromJSON_fails {σ : Type} (env : Env σ) (st : σ) (h : Heap)
    (data : GoString) (tokenUser : Option User) (settings : Option SSOSettings)
    (v : OpenIDUser) (X : GoString) :
    (¬ rfc8259.BeginsWithValue data →
      openIDUserFromJSON data = .error GoError.decodeSyntax) ∧
    (∀ ms key val f, (∀ x ∈ ms, json.wellFormedMember x = true) → (key, val) ∈ ms →
      matchesName (json.Field.name f) key = true → json.wrongType f val = true →
      ∃ e, openIDUserFromJSON (json.objectText ms ++ X) = .error e) ∧
    (∀ fuel rest tail ms key val f, json.skipSpace data = 0x7B :: rest →
      json.members fuel (json.maxNestingDepth - 1) rest = some (ms, tail) →
      (key, val) ∈ ms → matchesName (json.Field.name f) key = true →
      json.wrongType f val = true →
      ∃ e, openIDUserFromJSON data = .error e) ∧
    (∀ e, openIDUserFromJSON data = .error e →
      GetUserFromJSON env st h data tokenUser settings = some ((none, some e), h, st)) ∧
    (utf8.ValidString v.Sub = true → utf8.ValidString v.Email = true →
      utf8.ValidString v.Name = true → utf8.ValidString v.PreferredUsername = true →
      utf8.ValidString v.GivenName = true → utf8.ValidString v.FamilyName = true →
      utf8.ValidString v.Nickname = true →
      openIDUserFromJSON (json.Marshal v ++ X) = .ok v) := by
  refine ⟨?_, ?_, ?_, ?_, ?_⟩
  · intro hno
    unfold openIDUserFromJSON
    rw [Decode_rejects data OpenIDUser.zero hno]
  · intro ms key val f hwf hm hf hw
    obtain ⟨e, he⟩ := unmarshalObject_wrongType ms OpenIDUser.zero key val f hm
      ((findField_some_iff key f).mpr hf) hw
    exact ⟨e, by rw [openIDUserFromJSON_objectText ms X hwf, he]⟩
  · intro fuel rest tail ms key val f hs hmem hm hf hw
    obtain ⟨e, he⟩ := unmarshalObject_wrongType ms OpenIDUser.zero key val f hm
      ((findField_some_iff key f).mpr hf) hw
    exact ⟨e, by rw [openIDUserFromJSON_members data fuel rest tail ms hs hmem, he]⟩
  · intro e he
    simp [GetUserFromJSON, he]
  · intro h1 h2 h3 h4 h5 h6 h7
    unfold openIDUserFromJSON
    rw [Decode_Marshal_append v OpenIDUser.zero X h1 h2 h3 h4 h5 h6 h7]

/-- C11, amended, on four inputs: the truncated object `{"sub":"x"` fails with the syntax
error and `GetUserFromJSON` returns no user for it; the objects `{"email_verified":"yes"}`
and `{ "Sub" : 7 }` fail with a type error; the text written for the zero value followed by
`xyz` is decoded to the zero value. -/
theorem openIDUserFromJSON_fails_witness :
    openIDUserFromJSON (go "\x7b\"sub\":\"x\"") = .error GoError.decodeSyntax ∧
    GetUserFromJSON testEnv 0 { cells := [] } (go "\x7b\"sub\":\"x\"") none none
      = some ((none, some GoError.decodeSyntax), { cells := [] }, 0) ∧
    (∃ e, openIDUserFromJSON (go "\x7b\"email_verified\":\"yes\"\x7d") = .error e) ∧
    (∃ e, openIDUserFromJSON (go "\x7b \"Sub\" : 7 \x7d") = .error e) ∧
    openIDUserFromJSON (json.Marshal OpenIDUser.zero ++ go "xyz") = .ok OpenIDUser.zero := by
  have hw := openIDUserFromJSON_fails testEnv 0 { cells := [] } (go "\x7b\"sub\":\"x\"") none
    none OpenIDUser.zero (go "xyz")
  have hno : ¬ rfc8259.BeginsWithValue (go "\x7b\"sub\":\"x\"") :=
    not_BeginsWithValue_of_open (go "\"sub\":\"x\"") (by decide)
  have hw2 := (openIDUserFromJSON_fails testEnv 0 { cells := [] } [] none none
    OpenIDUser.zero []).2.1 [(go "email_verified", json.Value.string (go "yes"))]
    (go "email_verified") (json.Value.string (go "yes")) json.Field.EmailVerified
    (by decide) (by simp) (by decide) (by decide)
  have hw3 := (openIDUserFromJSON_fails testEnv 0 { cells := [] }
    (go "\x7b \"Sub\" : 7 \x7d") none none OpenIDUser.zero []).2.2.1 9
    (go " \"Sub\" : 7 \x7d") [] [(go "Sub", json.Value.number)]
    (go "Sub") json.Value.number json.Field.Sub
    (by rfl) (by rfl) (by simp) (by decide) (by decide)
  exact ⟨hw.1 hno, hw.2.2.2.1 _ (hw.1 hno), hw2, hw3,
    hw.2.2.2.2 (by decide) (by decide) (by decide) (by decide) (by decide) (by decide)
      (by decide)⟩

/-- C12 as stated fails: the key `SUB` is not character for character the name of a field,
and the decoder stores its value into `Sub`; the key `Email` likewise into `Email`. -/
theorem openIDUserFromJSON_key_case_counterexample :
    go "SUB" ∉ json.fields.map json.Field.name ∧
    go "Email" ∉ json.fields.map json.Field.name ∧
    openIDUserFromJSON (go "\x7b\"SUB\":\"x\",\"Email\":\"e\"\x7d")
      = .ok { OpenIDUser.zero with Sub := go "x", Email := go "e" } ∧
    ({ OpenIDUser.zero with Sub := go "x", Email := go "e" } : OpenIDUser)
      ≠ OpenIDUser.zero :=
  ⟨by decide, by decide, by rfl, by decide⟩

/-- C12, amended: the decoder matches an object key to the field whose name equals the key
under case folding, where `matchesName` compares the key with the name character by
character. The decoder finds the field `f` for a key exactly when the key equals the name of
`f` under case folding, and no field exactly when the key equals none of the eight names; a
name equals only itself among the eight. For every input object as the encoder writes it,
followed by any bytes: a member whose key equals none of the names under case folding is
ignored, the object is decoded as the object without that member; and a member whose key
equals the name of a field under case folding is decoded as the member with that name for
its key. The first holds also of any two inputs that begin with objects whose members the
decoder's grammar reads and which differ by such a member. The keys `SUB` and `Email` equal
the names `sub` and `email` under case folding. -/
theorem openIDUserFromJSON_case_folding (key : GoString) (v : json.Value)
    (ms1 ms2 : List (GoString × json.Value)) (X : GoString) (f g : json.Field) :
    (json.findField key = some f ↔ matchesName (json.Field.name f) key = true) ∧
    (json.findField key = none ↔ unknownKey key = true) ∧
    (matchesName (json.Field.name f) (json.Field.name g) = true ↔ f = g) ∧
    ((∀ x ∈ ms1 ++ (key, v) :: ms2, json.wellFormedMember x = true) →
      unknownKey key = true →
      openIDUserFromJSON (json.objectText (ms1 ++ (key, v) :: ms2) ++ X)
        = openIDUserFromJSON (json.objectText (ms1 ++ ms2) ++ X)) ∧
    ((∀ x ∈ ms1 ++ (key, v) :: ms2, json.wellFormedMember x = true) →
      matchesName (json.Field.name f) key = true →
      openIDUserFromJSON (json.objectText (ms1 ++ (key, v) :: ms2) ++ X)
        = openIDUserFromJSON (json.objectText (ms1 ++ (json.Field.name f, v) :: ms2) ++ X)) ∧
    (∀ data1 data2 fuel1 fuel2 rest1 rest2 tail1 tail2,
      json.skipSpace data1 = 0x7B :: rest1 →
      json.members fuel1 (json.maxNestingDepth - 1) rest1
        = some (ms1 ++ (key, v) :: ms2, tail1) →
      json.skipSpace data2 = 0x7B :: rest2 →
      (json.members fuel2 (json.maxNestingDepth - 1) rest2 = some (ms1 ++ ms2, tail2) ∨
        (ms1 ++ ms2 = [] ∧ json.skipSpace rest2 = 0x7D :: tail2)) →
      unknownKey key = true →
      openIDUserFromJSON data1 = openIDUserFromJSON data2) ∧
    matchesName (go "sub") (go "SUB") = true ∧
    matchesName (go "email") (go "Email") = true := by
  refine ⟨findField_some_iff key f, findField_none_iff key, matchesName_name_iff f g,
    ?_, ?_, ?_, by decide, by decide⟩
  · intro hwf hk
    have hwf2 : ∀ x ∈ ms1 ++ ms2, json.wellFormedMember x = true := by
      intro x hx
      apply hwf x
      rcases List.mem_append.mp hx with h1 | h2
      · exact List.mem_append_left _ h1
      · exact List.mem_append_right _ (List.mem_cons_of_mem _ h2)
    rw [openIDUserFromJSON_objectText _ X hwf, openIDUserFromJSON_objectText _ X hwf2]
    exact unmarshalObject_append_skip ms1 ms2 key v _ ((findField_none_iff key).mpr hk)
  · intro hwf hk
    have hkv : json.wellFormedMember (key, v) = true :=
      hwf (key, v) (List.mem_append_right _ (List.mem_cons_self _ _))
    have hfv : json.wellFormedMember (json.Field.name f, v) = true := by
      simp only [json.wellFormedMember, Bool.and_eq_true] at hkv ⊢
      exact ⟨Field_name_valid f, hkv.2⟩
    have hwf2 : ∀ x ∈ ms1 ++ (json.Field.name f, v) :: ms2,
        json.wellFormedMember x = true := by
      intro x hx
      rcases List.mem_append.mp hx with h1 | h2
      · exact hwf x (List.mem_append_left _ h1)
      · rcases List.mem_cons.mp h2 with h3 | h4
        · rw [h3]
          exact hfv
        · exact hwf x (List.mem_append_right _ (List.mem_cons_of_mem _ h4))
    rw [openIDUserFromJSON_objectText _ X hwf, openIDUserFromJSON_objectText _ X hwf2]
    apply unmarshalObject_append_rename
    rw [(findField_some_iff key f).mpr hk, findField_exact f]
  · intro data1 data2 fuel1 fuel2 rest1 rest2 tail1 tail2 hs1 hm1 hs2 hm2 hk
    rw [openIDUserFromJSON_members data1 fuel1 rest1 tail1 _ hs1 hm1,
      unmarshalObject_append_skip ms1 ms2 key v _ ((findField_none_iff key).mpr hk)]
    rcases hm2 with hm2 | ⟨hnil, hr2⟩
    · rw [openIDUserFromJSON_members data2 fuel2 rest2 tail2 _ hs2 hm2]
    · rw [openIDUserFromJSON_emptyObject data2 rest2 tail2 hs2 hr2, hnil]

/-- C12, amended, on three inputs: the object with the member `groups` before the member
`sub` is decoded as the object without it, also when the value of `groups` is an array with
members and there is white space; and the key `Given_Name` is decoded as `given_name`. -/
theorem openIDUserFromJSON_case_folding_witness :
    openIDUserFromJSON (go "\x7b\"groups\":[],\"sub\":\"x\"\x7d")
      = openIDUserFromJSON (go "\x7b\"sub\":\"x\"\x7d") ∧
    openIDUserFromJSON (go "\x7b \"groups\" : [\"a\", \x7b\"b\":1\x7d], \"sub\":\"x\"\x7d")
      = openIDUserFromJSON (go "\x7b\"sub\":\"x\"\x7d") ∧
    openIDUserFromJSON (go "\x7b\"Given_Name\":\"Al\"\x7d")
      = openIDUserFromJSON (go "\x7b\"given_name\":\"Al\"\x7d") ∧
    openIDUserFromJSON (go "\x7b\"given_name\":\"Al\"\x7d")
      = .ok { OpenIDUser.zero with GivenName := go "Al" } := by
  have hw := openIDUserFromJSON_case_folding (go "groups") json.Value.array []
    [(go "sub", json.Value.string (go "x"))] [] json.Field.Sub json.Field.Sub
  have hw1 := hw.2.2.2.1 (by decide) (by decide)
  have hw2 := hw.2.2.2.2.2.1
    (go "\x7b \"groups\" : [\"a\", \x7b\"b\":1\x7d], \"sub\":\"x\"\x7d")
    (go "\x7b\"sub\":\"x\"\x7d") 9 9
    (go " \"groups\" : [\"a\", \x7b\"b\":1\x7d], \"sub\":\"x\"\x7d") (go "\"sub\":\"x\"\x7d")
    [] [] (by rfl) (by rfl) (by rfl) (Or.inl (by rfl)) (by decide)
  have hw3 := (openIDUserFromJSON_case_folding (go "Given_Name")
    (json.Value.string (go "Al")) [] [] [] json.Field.GivenName json.Field.GivenName).2.2.2.2.1
    (by decide) (by decide)
  exact ⟨hw1, hw2, hw3, by rfl⟩
end oauthopenid
